import Mathlib

/-!
# The syntax highlighter of the `jim` text editor

A shallow embedding of `SyntaxHighlighter` (`src/texteditor.cpp`, `src/texteditor.h`):
the rule table built by `setupRules` and the per-line classifier `highlightBlock`.
Three further methods of `src/texteditor.cpp` are embedded as well:
`TextEditor::updateRecentFiles`, `CodeEditor::lineNumberAreaWidth` and
`CodeEditor::autoIndent`.

Modelling conventions.

* A `QString` is a `List Char`, one element per `QChar`; offsets are list indices.
* `QString::indexOf` returns `Option Nat`; `none` stands for the C++ result `-1`.
* Block states are `Int`, as in Qt: `0` is the spec's `Clear`, `1` its `InBlockComment`,
  and `-1` is what `previousBlockState()` gives for the first block of a document.
* Every `setFormat(start, count, format)` call is recorded, in call order, in the
  field `formatCalls`; a recorded call is the spec's span `[start, start + count)`.
* `QRegularExpression` is library code. Its patterns are written as a small regular
  expression syntax tree and matched by a backtracking matcher that lists the possible
  ends of a match in the priority order of a backtracking engine.
* The `while` loop of `highlightBlock` is run with fuel and returns `none` when the fuel
  runs out; `highlightBlock` gives it `text.length` iterations. The `while` loops of
  `updateRecentFiles` and `lineNumberAreaWidth` are run with fuel in the same way.
* An `int` of `lineNumberAreaWidth` is an `Int` in the range of 32 bits: the results of
  its additions and multiplications are reduced to that range by `wrapInt` (two's
  complement), and the division is the truncating `Int.tdiv`.
* `QChar::isSpace` is library code: `trimmed` and `autoIndent` take it as a parameter.

The file first gives the definitions, then the facts about the block-comment scan
(`commentLoop`, `scanPoints`), about `globalMatch` and about the matches of the patterns
of the rule table, each followed by the properties of the classifier they give, and
last the properties of the three other methods.
-/

namespace Jim

/-! ## Texts and `QString::indexOf` -/

/-- A line of text: the sequence of its characters. -/
abbrev Text := List Char

/-- Search for `pat` in the remaining characters `rest`, which start at offset `i`. -/
def indexOfAux (pat : Text) : Text → Nat → Option Nat
  | [], _ => none
  | c :: cs, i => if pat.isPrefixOf (c :: cs) then some i else indexOfAux pat cs (i + 1)

/-- The call `text.indexOf(pat, start)` for a non-empty `pat` and `start ≥ 0`: the first
offset `i ≥ start` at which `pat` occurs in `text`, or `none` (the C++ `-1`). -/
def indexOf (text pat : Text) (start : Nat) : Option Nat :=
  indexOfAux pat (text.drop start) start

/-- The block-comment opener. -/
def opener : Text := ['/', '*']

/-- The block-comment closer. -/
def closer : Text := ['*', '/']

/-! ## Regular expressions -/

/-- Syntax of the regular expressions used by the rule table. -/
inductive Regex where
  /-- The empty expression: matches the empty string. -/
  | empty
  /-- A literal character. -/
  | chr (c : Char)
  /-- A character class `[...]` (or `[^...]` when `negated`), given by inclusive ranges. -/
  | cls (negated : Bool) (ranges : List (Char × Char))
  /-- The assertion `\b`. -/
  | wordBoundary
  /-- Concatenation. -/
  | seq (a b : Regex)
  /-- Alternation `a|b`, the left branch tried first. -/
  | alt (a b : Regex)
  /-- Greedy `a*`. -/
  | star (a : Regex)
  /-- Greedy `a+`. -/
  | plus (a : Regex)
  /-- Greedy `a?`. -/
  | opt (a : Regex)
  /-- Positive lookahead `(?=a)`. -/
  | lookahead (a : Regex)
  deriving DecidableEq, Repr

/-- Membership of a character in a list of inclusive ranges. -/
def inRanges (ranges : List (Char × Char)) (c : Char) : Bool :=
  ranges.any (fun r => decide (r.1.toNat ≤ c.toNat) && decide (c.toNat ≤ r.2.toNat))

/-- The ranges of `\w` (ASCII, as `QRegularExpression` has it by default). -/
def wordRanges : List (Char × Char) :=
  [('a', 'z'), ('A', 'Z'), ('0', '9'), ('_', '_')]

/-- Whether the character at offset `i` exists and is a word character. -/
def wordAt (text : Text) (i : Nat) : Bool :=
  match text.get? i with
  | some c => inRanges wordRanges c
  | none => false

/-- The assertion `\b` at offset `i`: exactly one of the characters before and at `i`
is a word character (a missing character counts as a non-word character). -/
def atWordBoundary (text : Text) (i : Nat) : Bool :=
  (match i with
    | 0 => false
    | j + 1 => wordAt text j) != wordAt text i

/-- Ends of the matches of a greedy repetition from offset `i`, longest first; `step`
lists the ends of one iteration, and only iterations that consume input are repeated. -/
def starEnds (step : Nat → List Nat) : Nat → Nat → List Nat
  | 0, i => [i]
  | fuel + 1, i => ((step i).filter (fun j => decide (i < j))).flatMap (starEnds step fuel) ++ [i]

/-- All ends of a match of the expression that starts at offset `i` of `text`, in the
order in which a backtracking matcher tries them. -/
def Regex.ends (text : Text) : Regex → Nat → List Nat
  | .empty, i => [i]
  | .chr c, i => if text.get? i = some c then [i + 1] else []
  | .cls negated ranges, i =>
    match text.get? i with
    | some c => if inRanges ranges c != negated then [i + 1] else []
    | none => []
  | .wordBoundary, i => if atWordBoundary text i then [i] else []
  | .seq a b, i => (a.ends text i).flatMap (fun j => b.ends text j)
  | .alt a b, i => a.ends text i ++ b.ends text i
  | .star a, i => starEnds (fun j => a.ends text j) (text.length - i) i
  | .plus a, i =>
    (a.ends text i).flatMap (fun j => starEnds (fun k => a.ends text k) (text.length - j) j)
  | .opt a, i => a.ends text i ++ [i]
  | .lookahead a, i => if (a.ends text i).isEmpty then [] else [i]

/-- The match found at offset `i`, if any: its end. -/
def Regex.matchAt (re : Regex) (text : Text) (i : Nat) : Option Nat :=
  (re.ends text i).head?

/-- Walk over the candidate start offsets; offsets before `next` lie inside the previous
match and are skipped. Yields `(capturedStart, capturedLength)` of every match. -/
def globalMatchAux (re : Regex) (text : Text) : List Nat → Nat → List (Nat × Nat)
  | [], _ => []
  | i :: rest, next =>
    if i < next then globalMatchAux re text rest next
    else
      match re.matchAt text i with
      | some e => (i, e - i) :: globalMatchAux re text rest (if e = i then i + 1 else e)
      | none => globalMatchAux re text rest next

/-- The iterator `pattern.globalMatch(text)`: the successive matches, left to right,
each searched from the end of the previous one. -/
def globalMatch (re : Regex) (text : Text) : List (Nat × Nat) :=
  globalMatchAux re text (List.range (text.length + 1)) 0

/-! ## The rule table (`setupRules`) -/

/-- The six character formats of `SyntaxHighlighter` (`texteditor.h`). -/
inductive Format where
  | keywordFormat
  | classFormat
  | commentFormat
  | stringFormat
  | functionFormat
  | numberFormat
  deriving DecidableEq, Repr

/-- The struct `HighlightingRule`. -/
structure HighlightingRule where
  pattern : Regex
  format : Format
  deriving DecidableEq, Repr

/-- The expression that matches the characters of a literal string, in order. -/
def Regex.word : List Char → Regex
  | [] => .empty
  | c :: cs => .seq (.chr c) (Regex.word cs)

/-- The words of `keywordPatterns`, in source order; the pattern of `w` is `\bw\b`. -/
def keywords : List String :=
  ["class", "const", "enum", "explicit",
   "friend", "inline", "int", "long",
   "namespace", "operator", "private", "protected",
   "public", "short", "signals", "signed",
   "slots", "static", "struct", "template",
   "typedef", "typename", "union", "unsigned",
   "virtual", "void", "volatile", "bool",
   "char", "double", "float", "if",
   "else", "for", "while", "return",
   "switch", "case", "break", "continue",
   "auto", "using", "include", "define"]

/-- The pattern `\bw\b`. -/
def keywordPattern (w : String) : Regex :=
  .seq .wordBoundary (.seq (Regex.word w.toList) .wordBoundary)

/-- The list `keywordPatterns`. -/
def keywordPatterns : List Regex := keywords.map keywordPattern

/-- The class `[A-Za-z]`. -/
def letter : Regex := .cls false [('A', 'Z'), ('a', 'z')]

/-- The class `[0-9]`. -/
def digit : Regex := .cls false [('0', '9')]

/-- The metacharacter `.`: any character but a line feed. -/
def anyChar : Regex := .cls true [('\n', '\n')]

/-- The pattern `\bQ[A-Za-z]+\b`. -/
def classPattern : Regex :=
  .seq .wordBoundary (.seq (.chr 'Q') (.seq (.plus letter) .wordBoundary))

/-- The pattern `".*"|'.*'`. -/
def stringPattern : Regex :=
  .alt (.seq (.chr '"') (.seq (.star anyChar) (.chr '"')))
    (.seq (.chr '\'') (.seq (.star anyChar) (.chr '\'')))

/-- The pattern `\b[0-9]+\.?[0-9]*\b`. -/
def numberPattern : Regex :=
  .seq .wordBoundary (.seq (.plus digit) (.seq (.opt (.chr '.')) (.seq (.star digit) .wordBoundary)))

/-- The pattern `\b[A-Za-z0-9_]+(?=\()`. -/
def functionPattern : Regex :=
  .seq .wordBoundary
    (.seq (.plus (.cls false [('A', 'Z'), ('a', 'z'), ('0', '9'), ('_', '_')]))
      (.lookahead (.chr '(')))

/-- The pattern `//[^\n]*`. -/
def lineCommentPattern : Regex :=
  .seq (.chr '/') (.seq (.chr '/') (.star (.cls true [('\n', '\n')])))

/-- The method `setupRules`: clears the table it is given and appends, in this order,
the keyword rules and the class-name, string, number, function and line-comment rules. -/
def setupRules (_highlightingRules : List HighlightingRule) : List HighlightingRule :=
  let highlightingRules : List HighlightingRule := []
  let highlightingRules :=
    keywordPatterns.foldl (fun rules pattern => rules ++ [⟨pattern, .keywordFormat⟩])
      highlightingRules
  let highlightingRules := highlightingRules ++ [⟨classPattern, .classFormat⟩]
  let highlightingRules := highlightingRules ++ [⟨stringPattern, .stringFormat⟩]
  let highlightingRules := highlightingRules ++ [⟨numberPattern, .numberFormat⟩]
  let highlightingRules := highlightingRules ++ [⟨functionPattern, .functionFormat⟩]
  highlightingRules ++ [⟨lineCommentPattern, .commentFormat⟩]

/-- The member `highlightingRules` as the constructor leaves it. -/
def highlightingRules : List HighlightingRule := setupRules []

/-! ## The classifier (`highlightBlock`) -/

/-- One recorded call `setFormat(start, count, format)`. -/
structure FormatCall where
  start : Nat
  count : Nat
  format : Format
  deriving DecidableEq, Repr

/-- What `highlightBlock` reads and writes of the block it is run on. -/
structure Block where
  /-- The value of `previousBlockState()`: the state stored for the previous block. -/
  previousBlockState : Int
  /-- The value of `currentBlockState()`: the state stored for this block. -/
  currentBlockState : Int
  /-- The `setFormat` calls of this run, in call order. -/
  formatCalls : List FormatCall
  deriving DecidableEq, Repr

/-- The call `setCurrentBlockState(s)`. -/
def setCurrentBlockState (s : Int) (b : Block) : Block :=
  { b with currentBlockState := s }

/-- The call `setFormat(start, count, format)`. -/
def setFormat (start count : Nat) (format : Format) (b : Block) : Block :=
  { b with formatCalls := b.formatCalls ++ [⟨start, count, format⟩] }

/-- The length `commentLength` computed by one iteration of the `while` loop. The loop
only runs with `startIndex ≤ text.length`, and `indexOf` finds `endIndex ≥ startIndex`,
so the subtractions on natural numbers are those of the C++ integers. -/
def commentLength (text : Text) (startIndex : Nat) : Nat :=
  match indexOf text closer startIndex with
  | none => text.length - startIndex
  | some endIndex => endIndex - startIndex + 2

/-- The body of the `while` loop, run at `startIndex`: the updated block and the next
value of `startIndex` (`none` for `-1`). -/
def commentStep (text : Text) (startIndex : Nat) (b : Block) : Block × Option Nat :=
  let b :=
    match indexOf text closer startIndex with
    | none => setCurrentBlockState 1 b
    | some _ => b
  let b := setFormat startIndex (commentLength text startIndex) .commentFormat b
  (b, indexOf text opener (startIndex + commentLength text startIndex))

/-- The `while (startIndex >= 0)` loop, with fuel: `none` when the fuel runs out. -/
def commentLoop (text : Text) : Nat → Option Nat → Block → Option Block
  | _, none, b => some b
  | 0, some _, _ => none
  | fuel + 1, some startIndex, b =>
    commentLoop text fuel (commentStep text startIndex b).2 (commentStep text startIndex b).1

/-- The value of `startIndex` on entry to the `while` loop: `0`, replaced by the offset
of the first opener when `previousBlockState() != 1`. -/
def firstStart (text : Text) (previousBlockState : Int) : Option Nat :=
  if previousBlockState ≠ 1 then indexOf text opener 0 else some 0

/-- The multi-line part of `highlightBlock` on a non-empty line, with the given fuel. -/
def multiLinePassFuel (fuel : Nat) (text : Text) (b : Block) : Option Block :=
  let b := setCurrentBlockState 0 b
  commentLoop text fuel (firstStart text b.previousBlockState) b

/-- The multi-line part of `highlightBlock` on a non-empty line. -/
def multiLinePass (text : Text) (b : Block) : Option Block :=
  multiLinePassFuel text.length text b

/-- The `setFormat` calls of one rule: one per match of its pattern. -/
def ruleCalls (text : Text) (rule : HighlightingRule) : List FormatCall :=
  (globalMatch rule.pattern text).map (fun m => ⟨m.1, m.2, rule.format⟩)

/-- The `setFormat` calls of the loop over `highlightingRules`. -/
def applyRules (text : Text) : List FormatCall :=
  highlightingRules.flatMap (ruleCalls text)

/-- The single-line part of `highlightBlock`. -/
def singleLinePass (text : Text) (b : Block) : Block :=
  if b.previousBlockState ≠ 1 then
    { b with formatCalls := b.formatCalls ++ applyRules text }
  else b

/-- The method `highlightBlock`, run on a block whose `formatCalls` are empty. -/
def highlightBlock (text : Text) (b : Block) : Option Block :=
  if text.isEmpty then
    some (setCurrentBlockState 0 b)
  else
    (multiLinePass text b).map (singleLinePass text)

/-- The block as Qt hands it to `highlightBlock`: no format yet. -/
def freshBlock (previousBlockState storedState : Int) : Block :=
  ⟨previousBlockState, storedState, []⟩

/-- Classify a line under an entry state; the line's own stored state starts at `-1`. -/
def classify (text : Text) (entry : Int) : Option Block :=
  highlightBlock text (freshBlock entry (-1))

/-! ## Spans, final formats and documents -/

/-- The spec's classified span `[start, stop)` with its class. -/
structure Span where
  start : Nat
  stop : Nat
  format : Format
  deriving DecidableEq, Repr

/-- The span formatted by a `setFormat` call. -/
def FormatCall.toSpan (c : FormatCall) : Span :=
  ⟨c.start, c.start + c.count, c.format⟩

/-- The spans of a run, in emission order. -/
def Block.spans (b : Block) : List Span :=
  b.formatCalls.map FormatCall.toSpan

/-- The format of the character at offset `i` once the calls are applied in order:
`setFormat` overwrites, so the last call that covers `i` decides. -/
def formatAt (calls : List FormatCall) (i : Nat) : Option Format :=
  calls.foldl
    (fun current c => if c.start ≤ i ∧ i < c.start + c.count then some c.format else current)
    none

/-- Classify the lines of a document in order, the first under `entry` and each other
line under the state stored for the line before it. Yields, per line, its entry state
and the block `highlightBlock` leaves. -/
def classifyLines : Int → List Text → Option (List (Int × Block))
  | _, [] => some []
  | entry, text :: rest =>
    match classify text entry with
    | none => none
    | some b => (classifyLines b.currentBlockState rest).map (fun rs => (entry, b) :: rs)

/-- Classify a document: line 0 is entered in state `0` (Clear). -/
def classifyDocument (doc : List Text) : Option (List (Int × Block)) :=
  classifyLines 0 doc

/-- The entry states of the lines of a document. -/
def entryStates (doc : List Text) : Option (List Int) :=
  (classifyDocument doc).map (fun rs => rs.map Prod.fst)

/-! ## Other methods of the editor -/

/-- The `while (recentFiles.size() > 10) recentFiles.removeLast()` loop of
`updateRecentFiles`, with fuel: `none` when the fuel runs out. -/
def trimRecentFiles : Nat → List Text → Option (List Text)
  | 0, recentFiles => if recentFiles.length > 10 then none else some recentFiles
  | fuel + 1, recentFiles =>
    if recentFiles.length > 10 then trimRecentFiles fuel recentFiles.dropLast
    else some recentFiles

/-- The method `TextEditor::updateRecentFiles` on the member `recentFiles`: `removeAll`,
`prepend`, then the trimming loop (the menu is not modelled). -/
def updateRecentFiles (fileName : Text) (recentFiles : List Text) : Option (List Text) :=
  let recentFiles := recentFiles.filter (fun file => file ≠ fileName)
  let recentFiles := fileName :: recentFiles
  trimRecentFiles recentFiles.length recentFiles

/-- The value an `int` operation leaves: the mathematical result reduced to 32 bits in
two's complement (`int` is 32 bits wide; an overflowing result wraps around). -/
def wrapInt (x : Int) : Int :=
  (x + 2147483648) % 4294967296 - 2147483648

/-- The `while (max >= 10)` loop of `lineNumberAreaWidth`, with fuel: the final values of
`max` and `digits`, `none` when the fuel runs out. The `int` division `max /= 10` is
`Int.tdiv`; `++digits` is an `int` increment. -/
def digitLoop : Nat → Int → Int → Option (Int × Int)
  | 0, max, digits => if max ≥ 10 then none else some (max, digits)
  | fuel + 1, max, digits =>
    if max ≥ 10 then digitLoop fuel (max.tdiv 10) (wrapInt (digits + 1))
    else some (max, digits)

/-- The method `CodeEditor::lineNumberAreaWidth`, given the `int` values `blockCount()`
and `fontMetrics().horizontalAdvance(QLatin1Char('9'))`. The product and the sum of
`10 + advance * digits` are `int` operations; the loop gets as many iterations as the
value of `max`. -/
def lineNumberAreaWidth (blockCount digitAdvance : Int) : Option Int :=
  let digits : Int := 1
  let max : Int := Max.max 1 blockCount
  (digitLoop max.toNat max digits).map
    (fun r => wrapInt (10 + wrapInt (digitAdvance * r.2)))

/-- The `for` loop of `autoIndent` over the characters of the line: one per space, four
per tab, stopping at the first other character. -/
def leadingIndent : Text → Nat → Nat
  | [], indent => indent
  | c :: rest, indent =>
    if c = ' ' then leadingIndent rest (indent + 1)
    else if c = '\t' then leadingIndent rest (indent + 4)
    else indent

/-- The call `text.trimmed()`: the text without its leading and trailing whitespace;
`isSpace` stands for `QChar::isSpace`. -/
def trimmed (isSpace : Char → Bool) (text : Text) : Text :=
  ((text.dropWhile isSpace).reverse.dropWhile isSpace).reverse

/-- The call `text.endsWith(c)` for a character `c`. -/
def endsWith (text : Text) (c : Char) : Bool :=
  text.getLast? == some c

/-- The method `CodeEditor::autoIndent`, given the text of the cursor's block: the text
it inserts, `"\n" + QString(" ").repeated(indent)`. -/
def autoIndent (isSpace : Char → Bool) (previousLine : Text) : Text :=
  let indent := leadingIndent previousLine 0
  let indent :=
    if endsWith (trimmed isSpace previousLine) '{' || endsWith (trimmed isSpace previousLine) ':'
    then indent + 4 else indent
  '\n' :: List.replicate indent ' '

/-! ## Notions used by the statements -/

/-- The value of `startIndex` after an iteration of the `while` loop run at `startIndex`:
the offset of the next opener at or after the end of the comment, `none` for `-1`. -/
def nextStart (text : Text) (startIndex : Nat) : Option Nat :=
  indexOf text opener (startIndex + commentLength text startIndex)

/-- The opening points of the scan: the successive values of `startIndex` in the `while`
loop, from its first value `start`, for at most `fuel` iterations. -/
def scanPoints (text : Text) : Nat → Option Nat → List Nat
  | _, none => []
  | 0, some _ => []
  | fuel + 1, some startIndex => startIndex :: scanPoints text fuel (nextStart text startIndex)

/-- The `setFormat` call made by the iteration of the `while` loop run at `startIndex`. -/
def commentCall (text : Text) (startIndex : Nat) : FormatCall :=
  ⟨startIndex, commentLength text startIndex, .commentFormat⟩

/-- The method `applyTheme`, as far as the rule table goes: after setting the colours of
the formats (not modelled) it calls `setupRules`. -/
def applyTheme (highlightingRules : List HighlightingRule) : List HighlightingRule :=
  setupRules highlightingRules

/-- Whether `pat` occurs in `text` at offset `i`. -/
def occursAt (text pat : Text) (i : Nat) : Bool :=
  pat.isPrefixOf (text.drop i)

/-- Whether a word character stands immediately before offset `i`. -/
def wordBefore (text : Text) (i : Nat) : Bool :=
  match i with
  | 0 => false
  | j + 1 => wordAt text j

/-- Whether the character at offset `i` exists and belongs to the class given by
`negated` and `ranges`. -/
def classAt (text : Text) (negated : Bool) (ranges : List (Char × Char)) (i : Nat) : Bool :=
  match text.get? i with
  | some c => inRanges ranges c != negated
  | none => false

/-- The line-comment marker. -/
def lineCommentMarker : Text := ['/', '/']

/-- Whether the character at offset `i` exists and is an ASCII letter (`[A-Za-z]`). -/
def letterAt (text : Text) (i : Nat) : Bool :=
  classAt text false [('A', 'Z'), ('a', 'z')] i

/-- The pattern `q.*q` for a quote character `q`: the two alternatives of the string
pattern are `quotedPattern '"'` and `quotedPattern '\''`. -/
def quotedPattern (q : Char) : Regex :=
  .seq (.chr q) (.seq (.star anyChar) (.chr q))

/-- Whether the character at offset `i` exists and is a decimal digit (`[0-9]`). -/
def digitAt (text : Text) (i : Nat) : Bool :=
  classAt text false [('0', '9')] i

/-- Whether the character at offset `i` exists and is a letter or an underscore
(`[A-Za-z_]`): a word character that is no digit. -/
def letterOrUnderscoreAt (text : Text) (i : Nat) : Bool :=
  classAt text false [('A', 'Z'), ('a', 'z'), ('_', '_')] i

/-- The indentation the spec describes: the sum, over the maximal leading run of spaces
and tabs, of 1 per space and 4 per tab. -/
def leadingRunWidth (text : Text) : Nat :=
  ((text.takeWhile (fun c => c == ' ' || c == '\t')).map
    (fun c => if c = ' ' then 1 else 4)).sum

/-! ## Facts about `indexOf` -/

theorem indexOfAux_bounds (pat : Text) :
    ∀ (rest : Text) (i n : Nat), indexOfAux pat rest i = some n →
      i ≤ n ∧ n + pat.length ≤ i + rest.length
  | [], i, n, h => by simp [indexOfAux] at h
  | c :: cs, i, n, h => by
    unfold indexOfAux at h
    split at h
    · rename_i hp
      have hle := (List.isPrefixOf_iff_prefix.mp hp).length_le
      simp only [Option.some.injEq] at h
      subst h
      exact ⟨le_refl _, by omega⟩
    · have := indexOfAux_bounds pat cs (i + 1) n h
      simp only [List.length_cons]
      omega

theorem indexOf_bounds {text pat : Text} {start n : Nat}
    (h : indexOf text pat start = some n) : start ≤ n ∧ n + pat.length ≤ text.length := by
  unfold indexOf at h
  have hb := indexOfAux_bounds pat _ _ _ h
  rw [List.length_drop] at hb
  by_cases hs : start ≤ text.length
  · omega
  · have hnil : text.drop start = [] := List.drop_eq_nil_of_le (by omega)
    rw [hnil] at h
    simp [indexOfAux] at h

/-! ## The `while` loop advances and terminates -/

theorem commentLength_pos {text : Text} {startIndex : Nat} (h : startIndex < text.length) :
    1 ≤ commentLength text startIndex := by
  unfold commentLength
  split <;> omega

theorem commentLength_closed {text : Text} {startIndex e : Nat}
    (h : indexOf text closer startIndex = some e) :
    commentLength text startIndex = e - startIndex + 2 ∧ startIndex ≤ e ∧
      startIndex + commentLength text startIndex ≤ text.length := by
  have hb := indexOf_bounds h
  have hlen : closer.length = 2 := rfl
  rw [hlen] at hb
  have hc : commentLength text startIndex = e - startIndex + 2 := by
    simp only [commentLength, h]
  omega

theorem commentStep_next {text : Text} {startIndex next : Nat} {b : Block}
    (h : (commentStep text startIndex b).2 = some next) :
    startIndex < next ∧ startIndex + commentLength text startIndex ≤ next ∧
      next + 2 ≤ text.length := by
  simp only [commentStep] at h
  have hb := indexOf_bounds h
  have hlen : opener.length = 2 := rfl
  rw [hlen] at hb
  refine ⟨?_, hb.1, hb.2⟩
  cases hc : indexOf text closer startIndex with
  | none =>
    have : commentLength text startIndex = text.length - startIndex := by
      simp [commentLength, hc]
    omega
  | some e =>
    have := commentLength_closed hc
    omega

theorem commentStep_previous (text : Text) (startIndex : Nat) (b : Block) :
    (commentStep text startIndex b).1.previousBlockState = b.previousBlockState := by
  simp only [commentStep, setFormat]
  split <;> rfl

theorem commentStep_calls (text : Text) (startIndex : Nat) (b : Block) :
    (commentStep text startIndex b).1.formatCalls =
      b.formatCalls ++ [⟨startIndex, commentLength text startIndex, .commentFormat⟩] := by
  simp only [commentStep, setFormat]
  split <;> rfl

/-- Enough fuel: from a start index inside the text, `text.length - startIndex`
iterations are enough for the loop to return. -/
theorem commentLoop_returns (text : Text) :
    ∀ (fuel : Nat) (start : Option Nat) (b : Block),
      (∀ i, start = some i → i < text.length ∧ text.length ≤ fuel + i) →
      ∃ b', commentLoop text fuel start b = some b'
  | _, none, b, _ => ⟨b, by cases ‹Nat› <;> rfl⟩
  | 0, some i, _, h => by have := h i rfl; omega
  | fuel + 1, some i, b, h => by
    have hi := h i rfl
    unfold commentLoop
    apply commentLoop_returns text fuel
    intro j hj
    have := commentStep_next hj
    omega

/-- More fuel does not change a returned result. -/
theorem commentLoop_mono (text : Text) :
    ∀ (fuel fuel' : Nat) (start : Option Nat) (b b' : Block),
      commentLoop text fuel start b = some b' → fuel ≤ fuel' →
      commentLoop text fuel' start b = some b'
  | fuel, fuel', none, b, b', h, _ => by
    cases fuel <;> cases fuel' <;> simpa [commentLoop] using h
  | 0, _, some i, _, _, h, _ => by simp [commentLoop] at h
  | fuel + 1, 0, some i, _, _, _, hle => by omega
  | fuel + 1, fuel' + 1, some i, b, b', h, hle => by
    unfold commentLoop at h ⊢
    exact commentLoop_mono text fuel fuel' _ _ _ h (by omega)

/-- What the loop leaves behind: the previous-block state is untouched and the new
`setFormat` calls are comment calls, one per iteration, at strictly increasing starts. -/
theorem commentLoop_spec (text : Text) :
    ∀ (fuel : Nat) (start : Option Nat) (b b' : Block),
      commentLoop text fuel start b = some b' →
      (∀ i, start = some i → i < text.length) →
      b'.previousBlockState = b.previousBlockState ∧
      ∃ new : List FormatCall, b'.formatCalls = b.formatCalls ++ new ∧
        (∀ c ∈ new, c.format = .commentFormat ∧ 1 ≤ c.count ∧
          c.start + c.count ≤ text.length ∧ ∀ i, start = some i → i ≤ c.start) ∧
        (start = none → new = []) ∧
        (∀ i, start = some i → new.length + i ≤ text.length)
  | fuel, none, b, b', h, _ => by
    have hb : b' = b := by cases fuel <;> simpa [commentLoop] using h.symm
    subst hb
    exact ⟨rfl, [], by simp, by simp, by simp, by simp⟩
  | 0, some i, _, _, h, _ => by simp [commentLoop] at h
  | fuel + 1, some i, b, b', h, hs => by
    unfold commentLoop at h
    have hi := hs i rfl
    have hnext : ∀ j, (commentStep text i b).2 = some j → j < text.length := by
      intro j hj
      have := commentStep_next hj
      omega
    obtain ⟨hp, new, hnew, hall, hnone, hlen⟩ := commentLoop_spec text fuel _ _ _ h hnext
    refine ⟨by rw [hp, commentStep_previous],
      ⟨i, commentLength text i, .commentFormat⟩ :: new, ?_, ?_, by simp, ?_⟩
    · rw [hnew, commentStep_calls]
      simp
    · intro c hc
      rcases List.mem_cons.mp hc with rfl | hc
      · refine ⟨rfl, commentLength_pos hi, ?_, ?_⟩
        · show i + commentLength text i ≤ text.length
          cases hcl : indexOf text closer i with
          | none =>
            have : commentLength text i = text.length - i := by simp [commentLength, hcl]
            omega
          | some e => exact (commentLength_closed hcl).2.2
        · intro j hj
          simp only [Option.some.injEq] at hj
          exact le_of_eq hj.symm
      · obtain ⟨h1, h2, h3, h4⟩ := hall c hc
        refine ⟨h1, h2, h3, ?_⟩
        intro j hj
        simp only [Option.some.injEq] at hj
        subst hj
        cases hn : (commentStep text i b).2 with
        | none => simp [hnone hn] at hc
        | some n =>
          have := h4 n hn
          have := commentStep_next hn
          omega
    · intro j hj
      simp only [Option.some.injEq] at hj
      subst hj
      simp only [List.length_cons]
      cases hn : (commentStep text i b).2 with
      | none =>
        simp only [hnone hn, List.length_nil]
        omega
      | some n =>
        have := hlen n hn
        have := commentStep_next hn
        omega

theorem indexOf_opener_bounds {text : Text} {start n : Nat}
    (h : indexOf text opener start = some n) : start ≤ n ∧ n + 2 ≤ text.length :=
  indexOf_bounds h

theorem multiLinePassFuel_eq (fuel : Nat) (text : Text) (b : Block) :
    multiLinePassFuel fuel text b =
      commentLoop text fuel (firstStart text b.previousBlockState)
        (setCurrentBlockState 0 b) := rfl

theorem firstStart_lt {text : Text} {previousBlockState : Int} {i : Nat} (hne : text ≠ [])
    (h : firstStart text previousBlockState = some i) : i < text.length := by
  have hpos : 0 < text.length := List.length_pos.mpr hne
  unfold firstStart at h
  split at h
  · have := indexOf_opener_bounds h
    omega
  · simp only [Option.some.injEq] at h
    omega

theorem multiLinePassFuel_returns (text : Text) (b : Block) (fuel : Nat)
    (hne : text ≠ []) (hfuel : text.length ≤ fuel) :
    ∃ m, multiLinePassFuel fuel text b = some m := by
  rw [multiLinePassFuel_eq]
  apply commentLoop_returns
  intro i hi
  have := firstStart_lt hne hi
  omega

theorem multiLinePass_returns (text : Text) (b : Block) (hne : text ≠ []) :
    ∃ m, multiLinePass text b = some m :=
  multiLinePassFuel_returns text b text.length hne (le_refl _)

theorem highlightBlock_returns (text : Text) (b : Block) :
    ∃ b', highlightBlock text b = some b' := by
  unfold highlightBlock
  split
  · exact ⟨_, rfl⟩
  · rename_i hne
    have hne' : text ≠ [] := by simpa using hne
    obtain ⟨m, hm⟩ := multiLinePass_returns text b hne'
    exact ⟨singleLinePass text m, by rw [hm]; rfl⟩

/-- What the multi-line pass leaves behind on a non-empty line when run on a block
without format calls. -/
theorem multiLinePass_spec {text : Text} {previousBlockState storedState : Int} {m : Block}
    (hne : text ≠ [])
    (h : multiLinePass text (freshBlock previousBlockState storedState) = some m) :
    m.previousBlockState = previousBlockState ∧ m.formatCalls.length ≤ text.length ∧
      ∀ c ∈ m.formatCalls, c.format = .commentFormat ∧ 1 ≤ c.count ∧
        c.start + c.count ≤ text.length := by
  unfold multiLinePass at h
  rw [multiLinePassFuel_eq] at h
  obtain ⟨hp, new, hnew, hall, hnone, hlen⟩ :=
    commentLoop_spec text _ _ _ _ h (fun i hi => firstStart_lt hne hi)
  have hcalls : m.formatCalls = new := by
    rw [hnew]
    rfl
  refine ⟨hp, ?_, ?_⟩
  · rw [hcalls]
    cases hst : firstStart text (freshBlock previousBlockState storedState).previousBlockState with
    | none => simp [hnone hst]
    | some i =>
      have := hlen i hst
      omega
  · intro c hc
    rw [hcalls] at hc
    obtain ⟨h1, h2, h3, _⟩ := hall c hc
    exact ⟨h1, h2, h3⟩

/-! ## Scenarios of the specification -/

/-- C1 (Scenario A). The line `int x = 5; // done` entered in state `0` (Clear) gets
exactly three spans, Keyword `[0,3)`, Number `[8,9)` and Comment `[11,18)`, and the
state stored for the line is `0` (Clear). -/
theorem scenarioA_statement_with_line_comment :
    (classify "int x = 5; // done".toList 0).map (fun b => (b.spans, b.currentBlockState)) =
      some ([⟨0, 3, .keywordFormat⟩, ⟨8, 9, .numberFormat⟩, ⟨11, 18, .commentFormat⟩], 0) := by
  decide

/-- C2 (Scenario B). The line `/* start` entered in state `0` (Clear) gets exactly one
span, Comment `[0,8)` over the whole line, and the state stored for the line is `1`
(InBlockComment). -/
theorem scenarioB_unterminated_opener :
    "/* start".toList.length = 8 ∧
    (classify "/* start".toList 0).map (fun b => (b.spans, b.currentBlockState)) =
      some ([⟨0, 8, .commentFormat⟩], 1) := by
  decide

/-- C3, as the code has it. The line `still comment */ int y;` entered in state `1`
(InBlockComment) gets exactly one span, Comment `[0,16)` over `still comment */`, and
the state stored for the line is `0` (Clear); `int`, at offset 17, gets no span. -/
theorem scenarioC_closer_then_code :
    "still comment */".toList.length = 16 ∧
    indexOf "still comment */ int y;".toList "int".toList 0 = some 17 ∧
    (classify "still comment */ int y;".toList 1).map
        (fun b => (b.spans, b.currentBlockState)) =
      some ([⟨0, 16, .commentFormat⟩], 0) := by
  decide

/-- C3, as the claim states it, fails: the run on `still comment */ int y;` entered in
state `1` emits neither the span Comment `[0,17)` nor any Keyword span. -/
theorem scenarioC_as_claimed_fails :
    ¬ ∃ b, classify "still comment */ int y;".toList 1 = some b ∧
      (⟨0, 17, .commentFormat⟩ ∈ b.spans ∨ ∃ s ∈ b.spans, s.format = .keywordFormat) := by
  decide

/-- C4, at the failing input. The empty line entered in state `1` (InBlockComment) gets
no span and the state stored for it is `0` (Clear), not `1`; the general path, which the
early return skips, would store `1` for the same line (given one iteration). -/
theorem emptyLine_in_comment_stores_clear :
    (classify [] 1).map (fun b => (b.spans, b.currentBlockState)) = some ([], 0) ∧
    (multiLinePassFuel 1 [] (freshBlock 1 (-1))).map (fun b => b.currentBlockState) =
      some 1 := by
  decide

/-- C5, at the failing input. In the document `/* a`, (empty line), `b`, line 0 leaves
state `1` and neither later line contains a closer, yet line 2 is entered in state `0`:
the empty line 1, entered in state `1`, stores `0`. -/
theorem emptyLine_stops_propagation :
    entryStates ["/* a".toList, [], "b".toList] = some [0, 1, 0] ∧
    indexOf [] closer 0 = none ∧ indexOf "b".toList closer 0 = none := by
  decide

/-- C6. On every text and every entry state (and stored state) `highlightBlock` returns a
block. For a non-empty text, `text.length` iterations of the block-comment loop are
enough: more fuel gives the same result, and the pass makes at most `text.length` calls
of `setFormat`, one per iteration, each of length at least 1. Every iteration that
continues does so at a strictly larger start index, the comment length is at least 1
at a start index inside the text, and at least 2 when a closer is found. -/
theorem highlightBlock_terminates (text : Text) (previousBlockState storedState : Int) :
    (∃ b, highlightBlock text (freshBlock previousBlockState storedState) = some b) ∧
    (text ≠ [] → ∃ m, multiLinePass text (freshBlock previousBlockState storedState) = some m ∧
      (∀ fuel, text.length ≤ fuel →
        multiLinePassFuel fuel text (freshBlock previousBlockState storedState) = some m) ∧
      m.formatCalls.length ≤ text.length ∧ ∀ c ∈ m.formatCalls, 1 ≤ c.count) ∧
    (∀ (startIndex next : Nat) (b : Block),
      (commentStep text startIndex b).2 = some next → startIndex < next) ∧
    (∀ startIndex, startIndex < text.length → 1 ≤ commentLength text startIndex) ∧
    (∀ startIndex endIndex, indexOf text closer startIndex = some endIndex →
      2 ≤ commentLength text startIndex) := by
  refine ⟨highlightBlock_returns _ _, ?_, ?_, ?_, ?_⟩
  · intro hne
    obtain ⟨m, hm⟩ := multiLinePass_returns text (freshBlock previousBlockState storedState) hne
    obtain ⟨_, hlen, hall⟩ := multiLinePass_spec hne hm
    refine ⟨m, hm, ?_, hlen, fun c hc => (hall c hc).2.1⟩
    intro fuel hfuel
    exact commentLoop_mono text _ _ _ _ _ hm hfuel
  · intro startIndex next b h
    exact (commentStep_next h).1
  · intro startIndex h
    exact commentLength_pos h
  · intro startIndex endIndex h
    have := commentLength_closed h
    omega

/-- C7. The result of `highlightBlock` (format calls and stored state) depends on the
text and the previous-block state only: whatever state the block had stored before the
run, the run returns the same block. -/
theorem highlightBlock_ignores_stored_state (text : Text)
    (previousBlockState storedState storedState' : Int) :
    ∃ b, highlightBlock text (freshBlock previousBlockState storedState) = some b ∧
      highlightBlock text (freshBlock previousBlockState storedState') = some b := by
  obtain ⟨b, hb⟩ := highlightBlock_returns text (freshBlock previousBlockState storedState)
  refine ⟨b, hb, ?_⟩
  rw [← hb]
  rfl

/-- C8, as the claim states it, fails. The line `/* int`, entered in state `0`, leaves
the multi-line pass in state `1` and still gets the Keyword span `[3,6)`; the line
`*/ int`, entered in state `1`, leaves the multi-line pass in state `0` and gets no
single-line span although the keyword rule matches `int` in it. -/
theorem singleLine_rules_follow_entry_state :
    ((multiLinePass "/* int".toList (freshBlock 0 (-1))).map
        (fun m => (m.spans, m.currentBlockState)) = some ([⟨0, 6, .commentFormat⟩], 1) ∧
      (highlightBlock "/* int".toList (freshBlock 0 (-1))).map
        (fun b => (b.spans, b.currentBlockState)) =
          some ([⟨0, 6, .commentFormat⟩, ⟨3, 6, .keywordFormat⟩], 1)) ∧
    ((multiLinePass "*/ int".toList (freshBlock 1 (-1))).map
        (fun m => (m.spans, m.currentBlockState)) = some ([⟨0, 2, .commentFormat⟩], 0) ∧
      (highlightBlock "*/ int".toList (freshBlock 1 (-1))).map
        (fun b => (b.spans, b.currentBlockState)) = some ([⟨0, 2, .commentFormat⟩], 0) ∧
      applyRules "*/ int".toList = [⟨3, 3, .keywordFormat⟩]) := by
  decide

/-- On a non-empty line the run is the multi-line pass followed by the single-line pass,
and the multi-line pass leaves the previous-block state as it was. -/
theorem highlightBlock_of_multiLinePass (text : Text) (b : Block) (hne : text ≠ []) :
    ∃ m, multiLinePass text b = some m ∧ m.previousBlockState = b.previousBlockState ∧
      highlightBlock text b = some (singleLinePass text m) := by
  obtain ⟨m, hm⟩ := multiLinePass_returns text b hne
  have hp : m.previousBlockState = b.previousBlockState := by
    have h := hm
    unfold multiLinePass at h
    rw [multiLinePassFuel_eq] at h
    exact (commentLoop_spec text _ _ _ _ h (fun i hi => firstStart_lt hne hi)).1
  refine ⟨m, hm, hp, ?_⟩
  have hemp : text.isEmpty = false := by
    cases text with
    | nil => exact absurd rfl hne
    | cons c cs => rfl
  simp only [highlightBlock, hemp, hm, Option.map_some']
  rfl

/-- C8, amended. On a non-empty line the single-line rules are applied exactly when the
entry state is not `1` (InBlockComment), whatever state the multi-line pass leaves: the
run returns the block of the multi-line pass with the rule calls appended when the
entry state is not `1`, and that block unchanged when it is `1`. -/
theorem singleLine_rules_iff_entry_not_in_comment (text : Text)
    (previousBlockState storedState : Int) (hne : text ≠ []) :
    ∃ m, multiLinePass text (freshBlock previousBlockState storedState) = some m ∧
      highlightBlock text (freshBlock previousBlockState storedState) =
        some { m with
          formatCalls :=
            m.formatCalls ++ (if previousBlockState = 1 then [] else applyRules text) } := by
  obtain ⟨m, hm, hp, hb⟩ :=
    highlightBlock_of_multiLinePass text (freshBlock previousBlockState storedState) hne
  refine ⟨m, hm, ?_⟩
  rw [hb]
  obtain ⟨p, c, calls⟩ := m
  have hp' : p = previousBlockState := hp
  subst hp'
  by_cases h1 : p = 1
  · simp [singleLinePass, h1]
  · simp [singleLinePass, h1]

/-- The witness of C8 amended: the line `/* int` entered in state `0`. -/
theorem singleLine_rules_iff_entry_not_in_comment_witness :
    "/* int".toList ≠ [] ∧
    ∃ m, multiLinePass "/* int".toList (freshBlock 0 (-1)) = some m ∧
      highlightBlock "/* int".toList (freshBlock 0 (-1)) =
        some { m with
          formatCalls :=
            m.formatCalls ++ (if (0 : Int) = 1 then [] else applyRules "/* int".toList) } :=
  ⟨by decide, singleLine_rules_iff_entry_not_in_comment "/* int".toList 0 (-1) (by decide)⟩

/-! ## Final formats -/

theorem formatAt_fold_comment (i : Nat) :
    ∀ (calls : List FormatCall) (current : Option Format),
      (∀ c ∈ calls, c.format = .commentFormat) →
      (current = some .commentFormat ∨ ∃ c ∈ calls, c.start ≤ i ∧ i < c.start + c.count) →
      calls.foldl
        (fun current c =>
          if c.start ≤ i ∧ i < c.start + c.count then some c.format else current)
        current = some .commentFormat
  | [], current, _, h => by
    rcases h with h | ⟨c, hc, _⟩
    · simpa using h
    · simp at hc
  | c :: cs, current, hall, h => by
    simp only [List.foldl_cons]
    apply formatAt_fold_comment i cs _ (fun d hd => hall d (List.mem_cons_of_mem _ hd))
    by_cases hcov : c.start ≤ i ∧ i < c.start + c.count
    · left
      simp [hcov, hall c (List.mem_cons_self _ _)]
    · rcases h with h | ⟨d, hd, hdcov⟩
      · left
        simp [hcov, h]
      · right
        rcases List.mem_cons.mp hd with rfl | hd
        · exact absurd hdcov hcov
        · exact ⟨d, hd, hdcov⟩

/-- C9, as the claim states it, fails. On the line `/* int */` entered in state `0` the
multi-line pass emits the span Comment `[0,9)`, the keyword rule then emits the span
Keyword `[3,6)` inside it, and the character at offset 3 ends with the keyword format. -/
theorem keyword_span_inside_block_comment :
    (multiLinePass "/* int */".toList (freshBlock 0 (-1))).map (fun m => m.spans) =
      some [⟨0, 9, .commentFormat⟩] ∧
    (classify "/* int */".toList 0).map (fun b => b.spans) =
      some [⟨0, 9, .commentFormat⟩, ⟨3, 6, .keywordFormat⟩] ∧
    (classify "/* int */".toList 0).map (fun b => formatAt b.formatCalls 3) =
      some (some .keywordFormat) := by
  decide

/-- C9, amended. On a line entered in state `1` (InBlockComment) the run emits no
single-line rule span: on a non-empty line its result is the result of the multi-line
pass, every call has the comment format, and every character inside a span of the run
ends with the comment format. -/
theorem entered_in_comment_only_comment_spans (text : Text) (storedState : Int) (b : Block)
    (h : highlightBlock text (freshBlock 1 storedState) = some b) :
    (text ≠ [] → multiLinePass text (freshBlock 1 storedState) = some b) ∧
    (∀ c ∈ b.formatCalls, c.format = .commentFormat) ∧
    (∀ c ∈ b.formatCalls, ∀ i, c.start ≤ i → i < c.start + c.count →
      formatAt b.formatCalls i = some .commentFormat) := by
  have hall : (text ≠ [] → multiLinePass text (freshBlock 1 storedState) = some b) ∧
      ∀ c ∈ b.formatCalls, c.format = .commentFormat := by
    cases text with
    | nil =>
      simp only [highlightBlock, List.isEmpty_nil, if_true, Option.some.injEq] at h
      subst h
      exact ⟨fun hne => absurd rfl hne, by simp [setCurrentBlockState, freshBlock]⟩
    | cons ch cs =>
      obtain ⟨m, hm, hp, hb⟩ :=
        highlightBlock_of_multiLinePass (ch :: cs) (freshBlock 1 storedState) (by simp)
      have hp1 : m.previousBlockState = 1 := hp
      have hsame : singleLinePass (ch :: cs) m = m := by simp [singleLinePass, hp1]
      rw [h, hsame] at hb
      simp only [Option.some.injEq] at hb
      subst hb
      exact ⟨fun _ => hm, fun c hc => ((multiLinePass_spec (by simp) hm).2.2 c hc).1⟩
  refine ⟨hall.1, hall.2, ?_⟩
  intro c hc i h1 h2
  exact formatAt_fold_comment i _ _ hall.2 (Or.inr ⟨c, hc, h1, h2⟩)

/-- The witness of C9 amended: the line `a */ int` entered in state `1`. -/
theorem entered_in_comment_only_comment_spans_witness :
    highlightBlock "a */ int".toList (freshBlock 1 (-1)) =
        some ⟨1, 0, [⟨0, 4, .commentFormat⟩]⟩ ∧
    ((∀ c ∈ [(⟨0, 4, .commentFormat⟩ : FormatCall)], c.format = .commentFormat) ∧
      (∀ c ∈ [(⟨0, 4, .commentFormat⟩ : FormatCall)], ∀ i, c.start ≤ i → i < c.start + c.count →
        formatAt [(⟨0, 4, .commentFormat⟩ : FormatCall)] i = some .commentFormat)) :=
  ⟨by decide,
    (entered_in_comment_only_comment_spans "a */ int".toList (-1)
      ⟨1, 0, [⟨0, 4, .commentFormat⟩]⟩ (by decide)).2⟩

/-! ## Documents -/

theorem classifyLines_cons (entry : Int) (text : Text) (rest : List Text) (b : Block)
    (h : classify text entry = some b) :
    classifyLines entry (text :: rest) =
      (classifyLines b.currentBlockState rest).map (fun rs => (entry, b) :: rs) := by
  simp only [classifyLines, h]

theorem classifyLines_set :
    ∀ (doc : List Text) (entry : Int) (k : Nat) (text' : Text) (rs : List (Int × Block))
      (e : Int) (b b' : Block),
      classifyLines entry doc = some rs → rs.get? k = some (e, b) →
      classify text' e = some b' → b'.currentBlockState = b.currentBlockState →
      classifyLines entry (doc.set k text') = some (rs.set k (e, b'))
  | [], entry, k, text', rs, e, b, b', h, hk, _, _ => by
    simp only [classifyLines, Option.some.injEq] at h
    subst h
    simp at hk
  | text :: rest, entry, k, text', rs, e, b, b', h, hk, hb', hs => by
    obtain ⟨b0, hb0⟩ := highlightBlock_returns text (freshBlock entry (-1))
    have hb0 : classify text entry = some b0 := hb0
    rw [classifyLines_cons entry text rest b0 hb0] at h
    cases hrest : classifyLines b0.currentBlockState rest with
    | none => simp [hrest] at h
    | some rs0 =>
      simp only [hrest, Option.map_some', Option.some.injEq] at h
      subst h
      cases k with
      | zero =>
        simp only [List.get?_cons_zero, Option.some.injEq, Prod.mk.injEq] at hk
        obtain ⟨he, hb⟩ := hk
        subst he hb
        simp only [List.set_cons_zero]
        rw [classifyLines_cons entry text' rest b' hb', hs, hrest]
        rfl
      | succ k =>
        simp only [List.get?_cons_succ] at hk
        simp only [List.set_cons_succ]
        rw [classifyLines_cons entry text (rest.set k text') b0 hb0,
          classifyLines_set rest _ k text' rs0 e b b' hrest hk hb' hs]
        rfl

/-- C10. Let `rs` be the classification of a document from state `0` at line 0 (per line,
its entry state and the block left by `highlightBlock`), and let line `k` have entry
state `e` and block `b`. Replacing the text of line `k` by a text whose classification
under `e` stores the same state as `b` gives the classification `rs` with only the entry
of line `k` replaced: every other line keeps its entry state and its spans, and line `k`
keeps its entry state. -/
theorem edit_with_same_exit_state_is_local (doc : List Text) (k : Nat) (text' : Text)
    (rs : List (Int × Block)) (e : Int) (b b' : Block)
    (hdoc : classifyDocument doc = some rs) (hk : rs.get? k = some (e, b))
    (hb' : classify text' e = some b')
    (hexit : b'.currentBlockState = b.currentBlockState) :
    classifyDocument (doc.set k text') = some (rs.set k (e, b')) ∧
    (rs.set k (e, b')).length = rs.length ∧
    (∀ i, i ≠ k → (rs.set k (e, b')).get? i = rs.get? i) ∧
    ((rs.set k (e, b')).get? k).map Prod.fst = some e := by
  refine ⟨classifyLines_set doc 0 k text' rs e b b' hdoc hk hb' hexit, by simp, ?_, ?_⟩
  · intro i hi
    simp [List.getElem?_set_ne (Ne.symm hi)]
  · have hlt : k < rs.length := by
      rcases Nat.lt_or_ge k rs.length with h | h
      · exact h
      · rw [List.get?_eq_none.mpr h] at hk
        simp at hk
    simp [List.getElem?_set_self hlt]

/-- The witness of C10: in the document `/* a`, `b`, `c */ d` line 1 is replaced by `int`,
which, like `b`, is entered in state `1` and stores state `1`. -/
theorem edit_with_same_exit_state_is_local_witness :
    classifyDocument ["/* a".toList, "b".toList, "c */ d".toList] =
      some [(0, ⟨0, 1, [⟨0, 4, .commentFormat⟩]⟩), (1, ⟨1, 1, [⟨0, 1, .commentFormat⟩]⟩),
        (1, ⟨1, 0, [⟨0, 4, .commentFormat⟩]⟩)] ∧
    classify "int".toList 1 = some ⟨1, 1, [⟨0, 3, .commentFormat⟩]⟩ ∧
    classifyDocument (["/* a".toList, "b".toList, "c */ d".toList].set 1 "int".toList) =
      some [(0, ⟨0, 1, [⟨0, 4, .commentFormat⟩]⟩), (1, ⟨1, 1, [⟨0, 3, .commentFormat⟩]⟩),
        (1, ⟨1, 0, [⟨0, 4, .commentFormat⟩]⟩)] :=
  ⟨by decide, by decide,
    (edit_with_same_exit_state_is_local ["/* a".toList, "b".toList, "c */ d".toList] 1
      "int".toList
      [(0, ⟨0, 1, [⟨0, 4, .commentFormat⟩]⟩), (1, ⟨1, 1, [⟨0, 1, .commentFormat⟩]⟩),
        (1, ⟨1, 0, [⟨0, 4, .commentFormat⟩]⟩)]
      1 ⟨1, 1, [⟨0, 1, .commentFormat⟩]⟩ ⟨1, 1, [⟨0, 3, .commentFormat⟩]⟩
      (by decide) (by decide) (by decide) (by decide)).1⟩

/-- A non-empty line without a closer, entered in state `1`, is one comment span over the
whole line and stores state `1`. -/
theorem highlightBlock_inside_comment (text : Text) (storedState : Int) (hne : text ≠ [])
    (hc : indexOf text closer 0 = none) :
    highlightBlock text (freshBlock 1 storedState) =
      some ⟨1, 1, [⟨0, text.length, .commentFormat⟩]⟩ := by
  obtain ⟨m, hm, hp, hb⟩ :=
    highlightBlock_of_multiLinePass text (freshBlock 1 storedState) hne
  have hp1 : m.previousBlockState = 1 := hp
  have hsame : singleLinePass text m = m := by simp [singleLinePass, hp1]
  rw [hb, hsame]
  have hlen : commentLength text 0 = text.length := by simp [commentLength, hc]
  have hnext : indexOf text opener (0 + commentLength text 0) = none := by
    cases hn : indexOf text opener (0 + commentLength text 0) with
    | none => rfl
    | some n =>
      have := indexOf_opener_bounds hn
      omega
  have hm' : multiLinePass text (freshBlock 1 storedState) =
      some ⟨1, 1, [⟨0, text.length, .commentFormat⟩]⟩ := by
    obtain ⟨n, hn⟩ : ∃ n, text.length = n + 1 :=
      ⟨text.length - 1, by have := List.length_pos.mpr hne; omega⟩
    rw [hlen, Nat.zero_add, hn] at hnext
    have hdone : ∀ (fuel : Nat) (b : Block), commentLoop text fuel none b = some b := by
      intro fuel b
      cases fuel <;> rfl
    simp [multiLinePass, multiLinePassFuel, hn, firstStart, freshBlock,
      setCurrentBlockState, commentLoop, commentStep, hc, hnext, setFormat, hlen, hdone]
  rw [hm] at hm'
  exact hm'

/-- Propagation through non-empty lines: when every line of `lines` is non-empty and has
no closer, classifying them from state `1` enters every line in state `1`, and every
line stores state `1`. -/
theorem block_comment_propagates_through_nonempty_lines :
    ∀ (lines : List Text), (∀ t ∈ lines, t ≠ [] ∧ indexOf t closer 0 = none) →
      ∃ rs, classifyLines 1 lines = some rs ∧ rs.length = lines.length ∧
        ∀ r ∈ rs, r.1 = 1 ∧ r.2.currentBlockState = 1
  | [], _ => ⟨[], rfl, rfl, by simp⟩
  | t :: ts, h => by
    have ht := h t (List.mem_cons_self _ _)
    have hb := highlightBlock_inside_comment t (-1) ht.1 ht.2
    obtain ⟨rs, hrs, hlen, hall⟩ :=
      block_comment_propagates_through_nonempty_lines ts
        (fun u hu => h u (List.mem_cons_of_mem _ hu))
    refine ⟨(1, ⟨1, 1, [⟨0, t.length, .commentFormat⟩]⟩) :: rs, ?_, by simp [hlen], ?_⟩
    · rw [classifyLines_cons 1 t ts _ hb]
      simp [hrs]
    · intro r hr
      rcases List.mem_cons.mp hr with rfl | hr
      · exact ⟨rfl, rfl⟩
      · exact hall r hr

/-- The witness of the propagation theorem: the lines `b` and `int c;`. -/
theorem block_comment_propagates_through_nonempty_lines_witness :
    ∃ rs, classifyLines 1 ["b".toList, "int c;".toList] = some rs ∧
      rs.length = ["b".toList, "int c;".toList].length ∧
      ∀ r ∈ rs, r.1 = 1 ∧ r.2.currentBlockState = 1 :=
  block_comment_propagates_through_nonempty_lines ["b".toList, "int c;".toList] (by decide)

/-! ## The opening points of the scan -/

theorem commentStep_snd (text : Text) (startIndex : Nat) (b : Block) :
    (commentStep text startIndex b).2 = nextStart text startIndex := rfl

theorem commentStep_state (text : Text) (startIndex : Nat) (b : Block) :
    (commentStep text startIndex b).1.currentBlockState =
      if indexOf text closer startIndex = none then 1 else b.currentBlockState := by
  simp only [commentStep, setFormat]
  cases indexOf text closer startIndex <;> simp [setCurrentBlockState]

theorem nextStart_bounds {text : Text} {s n : Nat} (h : nextStart text s = some n) :
    s < n ∧ s + commentLength text s ≤ n ∧ n + 2 ≤ text.length :=
  commentStep_next (b := ⟨0, 0, []⟩) h

/-- The loop makes one comment call per opening point, in order, and stores state `1`
exactly when an opening point has no closer at or after it. -/
theorem commentLoop_scanPoints (text : Text) :
    ∀ (fuel : Nat) (start : Option Nat) (b b' : Block),
      commentLoop text fuel start b = some b' →
      b'.previousBlockState = b.previousBlockState ∧
      b'.formatCalls = b.formatCalls ++ (scanPoints text fuel start).map (commentCall text) ∧
      b'.currentBlockState =
        if ∃ s ∈ scanPoints text fuel start, indexOf text closer s = none then 1
        else b.currentBlockState
  | fuel, none, b, b', h => by
    have hb : b' = b := by cases fuel <;> simpa [commentLoop] using h.symm
    subst hb
    cases fuel <;> simp [scanPoints]
  | 0, some i, _, _, h => by simp [commentLoop] at h
  | fuel + 1, some i, b, b', h => by
    unfold commentLoop at h
    obtain ⟨hp, hc, hs⟩ := commentLoop_scanPoints text fuel _ _ _ h
    rw [commentStep_snd] at hc hs
    refine ⟨by rw [hp, commentStep_previous], ?_, ?_⟩
    · rw [hc, commentStep_calls]
      simp [scanPoints, commentCall]
    · rw [hs, commentStep_state]
      simp only [scanPoints, List.mem_cons, exists_eq_or_imp]
      by_cases h1 : indexOf text closer i = none
      · simp [h1]
      · simp [h1]

/-- Opening points lie inside the text, each at or after the end of the comment opened at
the point before it. -/
theorem scanPoints_spec (text : Text) :
    ∀ (fuel : Nat) (start : Option Nat), (∀ i, start = some i → i < text.length) →
      (∀ s ∈ scanPoints text fuel start, s < text.length ∧ ∀ i, start = some i → i ≤ s) ∧
      (scanPoints text fuel start).Pairwise (fun s t => s + commentLength text s ≤ t)
  | fuel, none, _ => by cases fuel <;> simp [scanPoints]
  | 0, some i, _ => by simp [scanPoints]
  | fuel + 1, some i, h => by
    have hi := h i rfl
    have hnext : ∀ j, nextStart text i = some j → j < text.length := by
      intro j hj
      have := nextStart_bounds hj
      omega
    obtain ⟨hall, hpair⟩ := scanPoints_spec text fuel (nextStart text i) hnext
    have hge : ∀ s ∈ scanPoints text fuel (nextStart text i),
        i + commentLength text i ≤ s := by
      intro s hs
      cases hn : nextStart text i with
      | none =>
        rw [hn] at hs
        cases fuel <;> simp [scanPoints] at hs
      | some n =>
        have := (hall s hs).2 n hn
        have := nextStart_bounds hn
        omega
    refine ⟨?_, ?_⟩
    · intro s hs
      simp only [scanPoints, List.mem_cons] at hs
      rcases hs with rfl | hs
      · exact ⟨hi, fun j hj => by simp only [Option.some.injEq] at hj; omega⟩
      · refine ⟨(hall s hs).1, fun j hj => ?_⟩
        simp only [Option.some.injEq] at hj
        have := hge s hs
        omega
    · simp only [scanPoints, List.pairwise_cons]
      exact ⟨hge, hpair⟩

/-- An opening point without a closer is the last one. -/
theorem scanPoints_unclosed_last (text : Text) :
    ∀ (fuel : Nat) (start : Option Nat) (s : Nat),
      s ∈ scanPoints text fuel start → indexOf text closer s = none →
      (scanPoints text fuel start).getLast? = some s
  | fuel, none, s, hs, _ => by cases fuel <;> simp [scanPoints] at hs
  | 0, some i, s, hs, _ => by simp [scanPoints] at hs
  | fuel + 1, some i, s, hs, hc => by
    simp only [scanPoints, List.mem_cons] at hs
    rcases hs with rfl | hs
    · have hlen : commentLength text s = text.length - s := by simp [commentLength, hc]
      have hnone : nextStart text s = none := by
        cases hn : nextStart text s with
        | none => rfl
        | some n =>
          have := nextStart_bounds hn
          omega
      simp only [scanPoints, hnone]
      cases fuel <;> simp [scanPoints]
    · have ih := scanPoints_unclosed_last text fuel _ s hs hc
      simp only [scanPoints]
      cases hl : scanPoints text fuel (nextStart text i) with
      | nil => simp [hl] at hs
      | cons t ts =>
        rw [hl] at ih
        rw [List.getLast?_cons_cons]
        exact ih

theorem applyRules_nil : applyRules [] = [] := by decide

theorem commentLoop_none (text : Text) (fuel : Nat) (b : Block) :
    commentLoop text fuel none b = some b := by
  cases fuel <;> rfl

theorem singleLinePass_aux (p c : Int) (calls extra : List FormatCall) :
    (if p ≠ 1 then (⟨p, c, calls ++ extra⟩ : Block) else ⟨p, c, calls⟩) =
      ⟨p, c, calls ++ (if p = 1 then [] else extra)⟩ := by
  by_cases h : p = 1 <;> simp [h]

/-- The single-line pass appends the rule calls unless the previous-block state is `1`. -/
theorem singleLinePass_calls (text : Text) (b : Block) :
    singleLinePass text b =
      ⟨b.previousBlockState, b.currentBlockState,
        b.formatCalls ++ (if b.previousBlockState = 1 then [] else applyRules text)⟩ := by
  obtain ⟨p, c, calls⟩ := b
  exact singleLinePass_aux p c calls (applyRules text)

/-- The multi-line pass in closed form, whenever it returns. -/
theorem multiLinePass_eq {text : Text} {previousBlockState storedState : Int} {m : Block}
    (h : multiLinePass text (freshBlock previousBlockState storedState) = some m) :
    m = ⟨previousBlockState,
      if ∃ s ∈ scanPoints text text.length (firstStart text previousBlockState),
          indexOf text closer s = none then 1 else 0,
      (scanPoints text text.length (firstStart text previousBlockState)).map
        (commentCall text)⟩ := by
  unfold multiLinePass at h
  rw [multiLinePassFuel_eq] at h
  obtain ⟨hp, hc, hs⟩ := commentLoop_scanPoints text _ _ _ _ h
  obtain ⟨p, c, calls⟩ := m
  have hp' : p = previousBlockState := hp
  have hc' : calls = [] ++ (scanPoints text text.length
      (firstStart text previousBlockState)).map (commentCall text) := hc
  have hs' : c = if ∃ s ∈ scanPoints text text.length (firstStart text previousBlockState),
      indexOf text closer s = none then 1 else 0 := hs
  rw [hp', hc', hs', List.nil_append]

/-- The run in closed form on a non-empty line. -/
theorem highlightBlock_eq (text : Text) (previousBlockState storedState : Int)
    (hne : text ≠ []) :
    multiLinePass text (freshBlock previousBlockState storedState) =
      some ⟨previousBlockState,
        if ∃ s ∈ scanPoints text text.length (firstStart text previousBlockState),
            indexOf text closer s = none then 1 else 0,
        (scanPoints text text.length (firstStart text previousBlockState)).map
          (commentCall text)⟩ ∧
    highlightBlock text (freshBlock previousBlockState storedState) =
      some ⟨previousBlockState,
        if ∃ s ∈ scanPoints text text.length (firstStart text previousBlockState),
            indexOf text closer s = none then 1 else 0,
        (scanPoints text text.length (firstStart text previousBlockState)).map
          (commentCall text) ++ (if previousBlockState = 1 then [] else applyRules text)⟩ := by
  obtain ⟨m, hm, _, hb⟩ :=
    highlightBlock_of_multiLinePass text (freshBlock previousBlockState storedState) hne
  have hmeq := multiLinePass_eq hm
  rw [hb, hm, hmeq, singleLinePass_calls]
  exact ⟨rfl, rfl⟩

/-- The run on the empty line. -/
theorem highlightBlock_nil (previousBlockState storedState : Int) :
    highlightBlock [] (freshBlock previousBlockState storedState) =
      some ⟨previousBlockState, 0, []⟩ := rfl

/-- C15. On a non-empty line the block-comment calls are the calls made at the opening
points of the scan (the first is `0` when the entry state is `1`, otherwise the offset
of the first opener; each next one is the first opener after the comment before it). If
an opening point `s` has no closer at or after it, the last block-comment span is
Comment `[s, length)` and the state stored for the line is `1` (InBlockComment). In
particular a non-empty line without a closer entered in state `1` gets exactly one
span, Comment `[0, length)`, and stores state `1`. -/
theorem unclosed_opening_point_gives_last_comment (text : Text)
    (previousBlockState storedState : Int) (hne : text ≠ []) :
    ∃ m b, multiLinePass text (freshBlock previousBlockState storedState) = some m ∧
      highlightBlock text (freshBlock previousBlockState storedState) = some b ∧
      b.currentBlockState = m.currentBlockState ∧
      b.formatCalls =
        m.formatCalls ++ (if previousBlockState = 1 then [] else applyRules text) ∧
      m.formatCalls =
        (scanPoints text text.length (firstStart text previousBlockState)).map
          (commentCall text) ∧
      (∀ s ∈ scanPoints text text.length (firstStart text previousBlockState),
        indexOf text closer s = none →
          m.formatCalls.getLast? = some ⟨s, text.length - s, .commentFormat⟩ ∧
          b.currentBlockState = 1) ∧
      (previousBlockState = 1 → indexOf text closer 0 = none →
        b = ⟨1, 1, [⟨0, text.length, .commentFormat⟩]⟩) := by
  obtain ⟨hm, hb⟩ := highlightBlock_eq text previousBlockState storedState hne
  refine ⟨_, _, hm, hb, rfl, rfl, rfl, ?_, ?_⟩
  · intro s hs hc
    refine ⟨?_, ?_⟩
    · have hlast := scanPoints_unclosed_last text _ _ s hs hc
      have hlen : commentLength text s = text.length - s := by simp [commentLength, hc]
      simp only [List.getLast?_map, hlast, Option.map_some', commentCall, hlen]
    · simp only
      rw [if_pos ⟨s, hs, hc⟩]
  · intro h1 hc
    subst h1
    have h := highlightBlock_inside_comment text storedState hne hc
    rw [hb] at h
    exact Option.some.inj h

/-- The witness of C15: the line `a /* b` entered in state `0`. -/
theorem unclosed_opening_point_gives_last_comment_witness :
    ∃ m b, multiLinePass "a /* b".toList (freshBlock 0 (-1)) = some m ∧
      highlightBlock "a /* b".toList (freshBlock 0 (-1)) = some b ∧
      b.currentBlockState = m.currentBlockState ∧
      b.formatCalls =
        m.formatCalls ++ (if (0 : Int) = 1 then [] else applyRules "a /* b".toList) ∧
      m.formatCalls =
        (scanPoints "a /* b".toList "a /* b".toList.length
          (firstStart "a /* b".toList 0)).map (commentCall "a /* b".toList) ∧
      (∀ s ∈ scanPoints "a /* b".toList "a /* b".toList.length
          (firstStart "a /* b".toList 0),
        indexOf "a /* b".toList closer s = none →
          m.formatCalls.getLast? =
            some ⟨s, "a /* b".toList.length - s, .commentFormat⟩ ∧
          b.currentBlockState = 1) ∧
      ((0 : Int) = 1 → indexOf "a /* b".toList closer 0 = none →
        b = ⟨1, 1, [⟨0, "a /* b".toList.length, .commentFormat⟩]⟩) :=
  unclosed_opening_point_gives_last_comment "a /* b".toList 0 (-1) (by decide)

/-- C17. A line entered in state `0` (Clear) that contains no opener gets no call from
the multi-line pass and stores state `0`: the calls of the run are the rule calls. -/
theorem no_opener_no_block_comment (text : Text) (storedState : Int)
    (h : indexOf text opener 0 = none) :
    multiLinePass text (freshBlock 0 storedState) = some ⟨0, 0, []⟩ ∧
    highlightBlock text (freshBlock 0 storedState) = some ⟨0, 0, applyRules text⟩ := by
  have hm : multiLinePass text (freshBlock 0 storedState) = some ⟨0, 0, []⟩ := by
    unfold multiLinePass
    rw [multiLinePassFuel_eq]
    have hf : firstStart text (freshBlock 0 storedState).previousBlockState = none := by
      simp [firstStart, freshBlock, h]
    rw [hf, commentLoop_none]
    rfl
  refine ⟨hm, ?_⟩
  cases text with
  | nil => rw [applyRules_nil]; rfl
  | cons c cs =>
    obtain ⟨m, hm', _, hb⟩ :=
      highlightBlock_of_multiLinePass (c :: cs) (freshBlock 0 storedState) (by simp)
    rw [hm] at hm'
    rw [hb, ← Option.some.inj hm', singleLinePass_calls, if_neg (by decide), List.nil_append]

/-- The witness of C17: the line `int x;` entered in state `0`. -/
theorem no_opener_no_block_comment_witness :
    multiLinePass "int x;".toList (freshBlock 0 (-1)) = some ⟨0, 0, []⟩ ∧
    highlightBlock "int x;".toList (freshBlock 0 (-1)) =
      some ⟨0, 0, applyRules "int x;".toList⟩ :=
  no_opener_no_block_comment "int x;".toList (-1) (by decide)

theorem commentLength_le {text : Text} {s : Nat} (h : s ≤ text.length) :
    s + commentLength text s ≤ text.length := by
  cases hc : indexOf text closer s with
  | none =>
    have : commentLength text s = text.length - s := by simp [commentLength, hc]
    omega
  | some e => exact (commentLength_closed hc).2.2

/-- The comment calls made at the opening points are non-empty, inside the text, and each
starts at or after the end of the one before it. -/
theorem commentCalls_ordered (text : Text) (fuel : Nat) (start : Option Nat)
    (h : ∀ i, start = some i → i < text.length) :
    (∀ c ∈ (scanPoints text fuel start).map (commentCall text),
      c.format = .commentFormat ∧ 1 ≤ c.count ∧ c.start + c.count ≤ text.length) ∧
    ((scanPoints text fuel start).map (commentCall text)).Pairwise
      (fun c d => c.start < d.start ∧ c.start + c.count ≤ d.start) := by
  obtain ⟨hall, hpair⟩ := scanPoints_spec text fuel start h
  refine ⟨?_, ?_⟩
  · intro c hc
    obtain ⟨s, hs, rfl⟩ := List.mem_map.mp hc
    have hlt := (hall s hs).1
    exact ⟨rfl, commentLength_pos hlt, commentLength_le (Nat.le_of_lt hlt)⟩
  · rw [List.pairwise_map]
    refine List.Pairwise.imp_of_mem ?_ hpair
    intro s t hs _ hst
    have := commentLength_pos (hall s hs).1
    simp only [commentCall]
    omega

/-- The run in closed form on any line entered in state `0`. -/
theorem highlightBlock_eq_clear (text : Text) (storedState : Int) :
    multiLinePass text (freshBlock 0 storedState) =
      some ⟨0,
        if ∃ s ∈ scanPoints text text.length (firstStart text 0),
            indexOf text closer s = none then 1 else 0,
        (scanPoints text text.length (firstStart text 0)).map (commentCall text)⟩ ∧
    highlightBlock text (freshBlock 0 storedState) =
      some ⟨0,
        if ∃ s ∈ scanPoints text text.length (firstStart text 0),
            indexOf text closer s = none then 1 else 0,
        (scanPoints text text.length (firstStart text 0)).map (commentCall text) ++
          applyRules text⟩ := by
  cases text with
  | nil => exact ⟨rfl, by rw [applyRules_nil]; rfl⟩
  | cons c cs =>
    obtain ⟨hm, hb⟩ := highlightBlock_eq (c :: cs) 0 storedState (by simp)
    refine ⟨hm, ?_⟩
    rw [hb, if_neg (show ¬ (0 : Int) = 1 by decide)]

/-- C18. The block-comment calls of a run (the calls of the multi-line pass; none on the
empty line) come first in the run's calls; each is a comment call of length at least 1
that ends within the text, and each starts strictly after the start, and at or after
the end, of every call before it. -/
theorem blockComment_spans_increasing_disjoint (text : Text)
    (previousBlockState storedState : Int) :
    ∃ b blockCalls,
      highlightBlock text (freshBlock previousBlockState storedState) = some b ∧
      b.formatCalls = blockCalls ++ (if previousBlockState = 1 then [] else applyRules text) ∧
      (text ≠ [] → (multiLinePass text (freshBlock previousBlockState storedState)).map
        (fun m => m.formatCalls) = some blockCalls) ∧
      (text = [] → blockCalls = []) ∧
      (∀ c ∈ blockCalls,
        c.format = .commentFormat ∧ 1 ≤ c.count ∧ c.start + c.count ≤ text.length) ∧
      blockCalls.Pairwise (fun c d => c.start < d.start ∧ c.start + c.count ≤ d.start) := by
  cases text with
  | nil =>
    refine ⟨⟨previousBlockState, 0, []⟩, [], rfl, ?_, fun h => absurd rfl h, fun _ => rfl,
      by simp, by simp⟩
    rw [applyRules_nil]
    by_cases h1 : previousBlockState = 1 <;> simp [h1]
  | cons ch cs =>
    obtain ⟨hm, hb⟩ := highlightBlock_eq (ch :: cs) previousBlockState storedState (by simp)
    obtain ⟨hall, hpair⟩ := commentCalls_ordered (ch :: cs) (ch :: cs).length
      (firstStart (ch :: cs) previousBlockState) (fun i hi => firstStart_lt (by simp) hi)
    exact ⟨_, _, hb, rfl, fun _ => by rw [hm]; rfl, fun h => by simp at h, hall, hpair⟩

/-! ## Scanning a suffix -/

theorem indexOfAux_add (pat : Text) (k : Nat) :
    ∀ (rest : Text) (i : Nat),
      indexOfAux pat rest (i + k) = (indexOfAux pat rest i).map (fun n => n + k)
  | [], _ => rfl
  | c :: cs, i => by
    unfold indexOfAux
    split
    · rfl
    · have := indexOfAux_add pat k cs (i + 1)
      rw [← this]
      congr 1
      omega

/-- Searching from offset `j + k` is searching the text without its first `k` characters
from offset `j`. -/
theorem indexOf_drop (text pat : Text) (j k : Nat) :
    indexOf text pat (j + k) = (indexOf (text.drop k) pat j).map (fun n => n + k) := by
  unfold indexOf
  rw [List.drop_drop, indexOfAux_add, Nat.add_comm k j]

theorem commentLength_drop (text : Text) (s k : Nat) :
    commentLength text (s + k) = commentLength (text.drop k) s := by
  unfold commentLength
  rw [indexOf_drop]
  cases h : indexOf (text.drop k) closer s with
  | none =>
    simp only [Option.map_none', List.length_drop]
    omega
  | some e =>
    simp only [Option.map_some']
    omega

theorem nextStart_drop (text : Text) (s k : Nat) :
    nextStart text (s + k) = (nextStart (text.drop k) s).map (fun n => n + k) := by
  unfold nextStart
  rw [commentLength_drop, ← indexOf_drop]
  congr 1
  omega

theorem scanPoints_drop (text : Text) (k : Nat) :
    ∀ (fuel : Nat) (start : Option Nat),
      scanPoints text fuel (start.map (fun n => n + k)) =
        (scanPoints (text.drop k) fuel start).map (fun n => n + k)
  | fuel, none => by cases fuel <;> rfl
  | 0, some _ => rfl
  | fuel + 1, some s => by
    simp only [Option.map_some', scanPoints, List.map_cons]
    rw [nextStart_drop, scanPoints_drop text k fuel]

/-- With enough fuel the opening points do not depend on the fuel. -/
theorem scanPoints_fuel (text : Text) :
    ∀ (fuel fuel' : Nat) (start : Option Nat),
      (∀ i, start = some i → i < text.length ∧ text.length ≤ fuel + i ∧
        text.length ≤ fuel' + i) →
      scanPoints text fuel start = scanPoints text fuel' start
  | fuel, fuel', none, _ => by cases fuel <;> cases fuel' <;> rfl
  | 0, _, some i, h => by have := h i rfl; omega
  | _ + 1, 0, some i, h => by have := h i rfl; omega
  | fuel + 1, fuel' + 1, some i, h => by
    have hi := h i rfl
    simp only [scanPoints]
    rw [scanPoints_fuel text fuel fuel' (nextStart text i)]
    intro j hj
    have := nextStart_bounds hj
    omega

theorem firstStart_clear_bounds {text : Text} {i : Nat} (h : firstStart text 0 = some i) :
    i + 2 ≤ text.length := by
  have h' : indexOf text opener 0 = some i := by
    simpa [firstStart] using h
  exact (indexOf_opener_bounds h').2

/-- C16. Let a line be entered in state `1` (InBlockComment) and let its first closer
start at offset `e`. The first call of the run is Comment `[0, e+2)`; the remaining calls
are the block-comment calls of the run on the text after offset `e+2` entered in state
`0` (Clear), with their starts shifted by `e+2`; and the two runs store the same state. -/
theorem closer_then_suffix_scanned_as_clear (text : Text) (e : Nat)
    (storedState storedState' : Int) (h : indexOf text closer 0 = some e) :
    ∃ b m' b', highlightBlock text (freshBlock 1 storedState) = some b ∧
      multiLinePass (text.drop (e + 2)) (freshBlock 0 storedState') = some m' ∧
      highlightBlock (text.drop (e + 2)) (freshBlock 0 storedState') = some b' ∧
      b'.formatCalls = m'.formatCalls ++ applyRules (text.drop (e + 2)) ∧
      b'.currentBlockState = m'.currentBlockState ∧
      b.formatCalls =
        ⟨0, e + 2, .commentFormat⟩ ::
          m'.formatCalls.map (fun c => ⟨c.start + (e + 2), c.count, c.format⟩) ∧
      b.currentBlockState = b'.currentBlockState := by
  have hb := indexOf_bounds h
  have hlen2 : closer.length = 2 := rfl
  rw [hlen2] at hb
  have hne : text ≠ [] := by
    intro hnil
    rw [hnil] at hb
    simp at hb
  obtain ⟨_, hrun⟩ := highlightBlock_eq text 1 storedState hne
  obtain ⟨hm', hrun'⟩ := highlightBlock_eq_clear (text.drop (e + 2)) storedState'
  refine ⟨_, _, _, hrun, hm', hrun', rfl, rfl, ?_, ?_⟩ <;>
    simp only [if_true, List.append_nil]
  all_goals
    obtain ⟨n, hn⟩ : ∃ n, text.length = n + 1 := ⟨text.length - 1, by omega⟩
    have hcl : commentLength text 0 = e + 2 := by
      have := (commentLength_closed h).1
      omega
    have hnext : nextStart text 0 =
        (firstStart (text.drop (e + 2)) 0).map (fun i => i + (e + 2)) := by
      unfold nextStart
      rw [hcl, indexOf_drop]
      rfl
    have hpts : scanPoints text text.length (firstStart text 1) =
        0 :: (scanPoints (text.drop (e + 2)) (text.drop (e + 2)).length
          (firstStart (text.drop (e + 2)) 0)).map (fun i => i + (e + 2)) := by
      have hf : firstStart text 1 = some 0 := rfl
      rw [hf, hn]
      simp only [scanPoints]
      rw [hnext, scanPoints_drop]
      congr 2
      apply scanPoints_fuel
      intro i hi
      have := firstStart_clear_bounds hi
      rw [List.length_drop] at this ⊢
      omega
    rw [hpts]
  · simp only [List.map_cons, List.map_map, commentCall, hcl, List.cons.injEq, true_and]
    apply List.map_congr_left
    intro s _
    simp only [Function.comp, commentCall, commentLength_drop]
  · have hiff : (∃ s ∈ 0 :: (scanPoints (text.drop (e + 2)) (text.drop (e + 2)).length
          (firstStart (text.drop (e + 2)) 0)).map (fun i => i + (e + 2)),
          indexOf text closer s = none) ↔
        ∃ s ∈ scanPoints (text.drop (e + 2)) (text.drop (e + 2)).length
          (firstStart (text.drop (e + 2)) 0), indexOf (text.drop (e + 2)) closer s = none := by
      constructor
      · rintro ⟨s, hs, hc⟩
        rcases List.mem_cons.mp hs with rfl | hs
        · rw [h] at hc
          exact absurd hc (by simp)
        · obtain ⟨t, ht, rfl⟩ := List.mem_map.mp hs
          rw [indexOf_drop] at hc
          exact ⟨t, ht, by simpa using hc⟩
      · rintro ⟨t, ht, hs⟩
        exact ⟨t + (e + 2), List.mem_cons_of_mem _ (List.mem_map.mpr ⟨t, ht, rfl⟩),
          by rw [indexOf_drop, hs]; rfl⟩
    simp only [hiff]

/-! ## The rule table is fixed -/

/-- C11. Whatever table `setupRules` is given, it leaves the 44 keyword rules, in the
order of `keywordPatterns`, followed by the class-name, string, number, function and
line-comment rules: 49 rules. Rebuilding the table, as `applyTheme` does, gives the same
table again. -/
theorem setupRules_fixed_table (old : List HighlightingRule) :
    setupRules old =
      keywordPatterns.map (fun pattern => ⟨pattern, .keywordFormat⟩) ++
        [⟨classPattern, .classFormat⟩, ⟨stringPattern, .stringFormat⟩,
          ⟨numberPattern, .numberFormat⟩, ⟨functionPattern, .functionFormat⟩,
          ⟨lineCommentPattern, .commentFormat⟩] ∧
    keywordPatterns.length = 44 ∧
    (setupRules old).length = 49 ∧
    setupRules old = highlightingRules ∧
    applyTheme (setupRules old) = setupRules old ∧
    applyTheme (applyTheme old) = applyTheme old :=
  ⟨rfl, rfl, rfl, rfl, rfl, rfl⟩

/-! ## Facts about `globalMatch` -/

/-- Every reported match starts at a candidate offset and is the match found there. -/
theorem globalMatchAux_sound (re : Regex) (text : Text) :
    ∀ (l : List Nat) (next s n : Nat), (s, n) ∈ globalMatchAux re text l next →
      s ∈ l ∧ ∃ e, re.matchAt text s = some e ∧ n = e - s
  | [], _, _, _, h => by simp [globalMatchAux] at h
  | i :: rest, next, s, n, h => by
    unfold globalMatchAux at h
    split at h
    · obtain ⟨h1, h2⟩ := globalMatchAux_sound re text rest next s n h
      exact ⟨List.mem_cons_of_mem _ h1, h2⟩
    · split at h
      · rename_i e he
        rcases List.mem_cons.mp h with heq | h
        · simp only [Prod.mk.injEq] at heq
          obtain ⟨rfl, rfl⟩ := heq
          exact ⟨List.mem_cons_self _ _, e, he, rfl⟩
        · obtain ⟨h1, h2⟩ := globalMatchAux_sound re text rest _ s n h
          exact ⟨List.mem_cons_of_mem _ h1, h2⟩
      · obtain ⟨h1, h2⟩ := globalMatchAux_sound re text rest next s n h
        exact ⟨List.mem_cons_of_mem _ h1, h2⟩

/-- The starts of the reported matches are candidate offsets, in the order of the
candidates. -/
theorem globalMatchAux_sublist (re : Regex) (text : Text) :
    ∀ (l : List Nat) (next : Nat),
      ((globalMatchAux re text l next).map Prod.fst).Sublist l
  | [], _ => by simp [globalMatchAux]
  | i :: rest, next => by
    unfold globalMatchAux
    split
    · exact (globalMatchAux_sublist re text rest next).cons _
    · split
      · simp only [List.map_cons]
        exact (globalMatchAux_sublist re text rest _).cons₂ _
      · exact (globalMatchAux_sublist re text rest next).cons _

theorem globalMatchAux_cons (re : Regex) (text : Text) (i : Nat) (rest : List Nat)
    (next : Nat) :
    globalMatchAux re text (i :: rest) next =
      if i < next then globalMatchAux re text rest next
      else
        match re.matchAt text i with
        | some e => (i, e - i) :: globalMatchAux re text rest (if e = i then i + 1 else e)
        | none => globalMatchAux re text rest next := rfl

/-- Candidates that lie before `next` or have no match are passed over. -/
theorem globalMatchAux_skip (re : Regex) (text : Text) (l2 : List Nat) (next : Nat) :
    ∀ (l1 : List Nat), (∀ i ∈ l1, i < next ∨ re.matchAt text i = none) →
      globalMatchAux re text (l1 ++ l2) next = globalMatchAux re text l2 next
  | [], _ => rfl
  | i :: rest, h => by
    have ih := globalMatchAux_skip re text l2 next rest
      (fun j hj => h j (List.mem_cons_of_mem _ hj))
    rw [List.cons_append, globalMatchAux_cons]
    rcases h i (List.mem_cons_self _ _) with hi | hi
    · rw [if_pos hi]
      exact ih
    · split
      · exact ih
      · rw [hi]
        exact ih

/-- When no match starts strictly inside another match, every match of the pattern is
reported: the reported matches are the matches at the candidate offsets. -/
theorem globalMatchAux_all (re : Regex) (text : Text)
    (hsep : ∀ i e, re.matchAt text i = some e →
      ∀ j, i < j → j < e → re.matchAt text j = none) :
    ∀ (l : List Nat) (next : Nat), l.Pairwise (fun a b => a < b) →
      (∀ j ∈ l, j < next → re.matchAt text j = none) →
      globalMatchAux re text l next =
        l.filterMap (fun i => (re.matchAt text i).map (fun e => (i, e - i)))
  | [], _, _, _ => rfl
  | i :: rest, next, hl, hnext => by
    obtain ⟨hlt, hrest⟩ := List.pairwise_cons.mp hl
    unfold globalMatchAux
    split
    · rename_i hi
      have hnone := hnext i (List.mem_cons_self _ _) hi
      rw [List.filterMap_cons, hnone]
      exact globalMatchAux_all re text hsep rest next hrest
        (fun j hj => hnext j (List.mem_cons_of_mem _ hj))
    · split
      · rename_i e he
        rw [List.filterMap_cons, he]
        simp only [Option.map_some', List.cons.injEq, true_and]
        apply globalMatchAux_all re text hsep rest _ hrest
        intro j hj hjn
        have hij := hlt j hj
        apply hsep i e he j hij
        split at hjn <;> omega
      · rename_i hnone
        rw [List.filterMap_cons, hnone]
        exact globalMatchAux_all re text hsep rest next hrest
          (fun j hj => hnext j (List.mem_cons_of_mem _ hj))

theorem range_pairwise_lt (n : Nat) : (List.range n).Pairwise (fun a b => a < b) :=
  List.pairwise_lt_range n

/-- The calls of one rule are at strictly increasing offsets. -/
theorem ruleCalls_increasing (text : Text) (rule : HighlightingRule) :
    (ruleCalls text rule).Pairwise (fun c d => c.start < d.start) := by
  unfold ruleCalls
  rw [List.pairwise_map]
  have hsub := globalMatchAux_sublist rule.pattern text (List.range (text.length + 1)) 0
  have hp := (range_pairwise_lt (text.length + 1)).sublist hsub
  rw [List.pairwise_map] at hp
  exact hp

theorem mem_ruleCalls {text : Text} {rule : HighlightingRule} {c : FormatCall}
    (h : c ∈ ruleCalls text rule) :
    c.format = rule.format ∧ c.start ≤ text.length ∧
      ∃ e, rule.pattern.matchAt text c.start = some e ∧ c.count = e - c.start := by
  unfold ruleCalls at h
  obtain ⟨⟨s, n⟩, hm, rfl⟩ := List.mem_map.mp h
  obtain ⟨hs, e, he, hn⟩ := globalMatchAux_sound _ _ _ _ _ _ hm
  refine ⟨rfl, ?_, e, he, hn⟩
  have := List.mem_range.mp hs
  simp only
  omega

theorem applyRules_eq_flatten (text : Text) :
    applyRules text = (highlightingRules.map (ruleCalls text)).flatten := rfl

/-- C20. In the calls of a run the block-comment calls (the calls of the multi-line
pass; none on the empty line) come first; they are followed by the calls of the rules,
rule after rule in the order of the rule table (no rule call at all when the entry state
is `1`), and the calls of each rule are at strictly increasing offsets. -/
theorem calls_blockComments_then_rules_in_table_order (text : Text)
    (previousBlockState storedState : Int) :
    ∃ b blockCalls,
      highlightBlock text (freshBlock previousBlockState storedState) = some b ∧
      (text ≠ [] → (multiLinePass text (freshBlock previousBlockState storedState)).map
        (fun m => m.formatCalls) = some blockCalls) ∧
      (text = [] → blockCalls = []) ∧
      b.formatCalls =
        blockCalls ++
          ((if previousBlockState = 1 then [] else highlightingRules).map
            (ruleCalls text)).flatten ∧
      ∀ rule, (ruleCalls text rule).Pairwise (fun c d => c.start < d.start) := by
  have hrules : (if previousBlockState = 1 then [] else applyRules text) =
      ((if previousBlockState = 1 then [] else highlightingRules).map
        (ruleCalls text)).flatten := by
    by_cases h1 : previousBlockState = 1
    · rw [if_pos h1, if_pos h1]
      rfl
    · rw [if_neg h1, if_neg h1, applyRules_eq_flatten]
  cases text with
  | nil =>
    refine ⟨⟨previousBlockState, 0, []⟩, [], rfl, fun h => absurd rfl h, fun _ => rfl, ?_,
      ruleCalls_increasing []⟩
    rw [← hrules, applyRules_nil]
    by_cases h1 : previousBlockState = 1 <;> simp [h1]
  | cons ch cs =>
    obtain ⟨hm, hb⟩ := highlightBlock_eq (ch :: cs) previousBlockState storedState (by simp)
    refine ⟨_, _, hb, fun _ => by rw [hm]; rfl, fun h => by simp at h, ?_,
      ruleCalls_increasing (ch :: cs)⟩
    rw [← hrules]

/-! ## Occurrences -/

theorem drop_eq_cons_of_get? {text : Text} {i : Nat} {c : Char} (h : text.get? i = some c) :
    text.drop i = c :: text.drop (i + 1) := by
  rw [List.get?_eq_some] at h
  obtain ⟨hlt, hc⟩ := h
  rw [List.drop_eq_getElem_cons hlt]
  simp only [List.get_eq_getElem] at hc
  rw [hc]

theorem drop_eq_nil_of_get? {text : Text} {i : Nat} (h : text.get? i = none) :
    text.drop i = [] :=
  List.drop_eq_nil_of_le (List.get?_eq_none.mp h)

theorem occursAt_nil (text : Text) (i : Nat) : occursAt text [] i = true := by
  simp [occursAt]

theorem occursAt_cons (text : Text) (c : Char) (cs : Text) (i : Nat) :
    occursAt text (c :: cs) i = (decide (text.get? i = some c) && occursAt text cs (i + 1)) := by
  unfold occursAt
  cases h : text.get? i with
  | none =>
    rw [drop_eq_nil_of_get? h]
    simp [List.isPrefixOf]
  | some d =>
    rw [drop_eq_cons_of_get? h]
    by_cases hd : d = c
    · subst hd
      simp [List.isPrefixOf]
    · have hd' : ¬ c = d := fun h => hd h.symm
      simp [List.isPrefixOf, hd, hd']

/-- The text has the characters of an occurring pattern at the offsets of the occurrence. -/
theorem occursAt_get? :
    ∀ (pat text : Text) (i : Nat), occursAt text pat i = true →
      ∀ j, j < pat.length → text.get? (i + j) = pat.get? j
  | [], _, _, _ => fun j hj => by simp at hj
  | c :: cs, text, i, h => by
    rw [occursAt_cons] at h
    simp only [Bool.and_eq_true, decide_eq_true_eq] at h
    obtain ⟨hc, hcs⟩ := h
    have hget := occursAt_get? cs text (i + 1) hcs
    intro j hj
    cases j with
    | zero => simpa using hc
    | succ j =>
      have := hget j (by simpa using hj)
      rw [List.get?_cons_succ, ← this]
      congr 1
      omega

/-- An occurrence of a non-empty pattern lies inside the text. -/
theorem occursAt_bound {pat text : Text} {i : Nat} (hne : pat ≠ [])
    (h : occursAt text pat i = true) : i + pat.length ≤ text.length := by
  have hpos : 0 < pat.length := List.length_pos.mpr hne
  have hget := occursAt_get? pat text i h (pat.length - 1) (by omega)
  have hsome : (pat.get? (pat.length - 1)).isSome = true := by
    rw [List.get?_eq_get (by omega)]
    rfl
  rw [← hget] at hsome
  by_contra hlt
  rw [List.get?_eq_none.mpr (by omega)] at hsome
  simp at hsome

/-! ## What `indexOf` finds -/

theorem indexOfAux_some (pat : Text) :
    ∀ (rest : Text) (i n : Nat), indexOfAux pat rest i = some n →
      ∃ k, n = i + k ∧ pat.isPrefixOf (rest.drop k) = true ∧
        ∀ k', k' < k → pat.isPrefixOf (rest.drop k') = false
  | [], _, _, h => by simp [indexOfAux] at h
  | c :: cs, i, n, h => by
    unfold indexOfAux at h
    split at h
    · rename_i hp
      simp only [Option.some.injEq] at h
      exact ⟨0, by omega, by simpa using hp, fun k' hk' => by omega⟩
    · rename_i hp
      obtain ⟨k, hn, hk, hbefore⟩ := indexOfAux_some pat cs (i + 1) n h
      refine ⟨k + 1, by omega, by simpa using hk, ?_⟩
      intro k' hk'
      cases k' with
      | zero =>
        rw [List.drop_zero]
        exact Bool.eq_false_iff.mpr hp
      | succ k' => simpa using hbefore k' (by omega)

/-- The offset found by `indexOf` is the first occurrence at or after `start`. -/
theorem indexOf_some {text pat : Text} {start n : Nat} (h : indexOf text pat start = some n) :
    start ≤ n ∧ occursAt text pat n = true ∧
      ∀ j, start ≤ j → j < n → occursAt text pat j = false := by
  unfold indexOf at h
  obtain ⟨k, hn, hk, hbefore⟩ := indexOfAux_some pat _ _ _ h
  subst hn
  rw [List.drop_drop] at hk
  refine ⟨by omega, hk, ?_⟩
  intro j hj hlt
  have := hbefore (j - start) (by omega)
  rw [List.drop_drop] at this
  unfold occursAt
  rw [← this]
  congr 2
  omega

/-! ## Matching the patterns of the rule table -/

theorem ends_chr (text : Text) (c : Char) (i : Nat) :
    (Regex.chr c).ends text i = if text.get? i = some c then [i + 1] else [] := rfl

theorem ends_seq (text : Text) (a b : Regex) (i : Nat) :
    (Regex.seq a b).ends text i = (a.ends text i).flatMap (fun j => b.ends text j) := rfl

theorem ends_wordBoundary (text : Text) (i : Nat) :
    Regex.wordBoundary.ends text i = if atWordBoundary text i then [i] else [] := rfl

theorem ends_cls (text : Text) (negated : Bool) (ranges : List (Char × Char)) (i : Nat) :
    (Regex.cls negated ranges).ends text i =
      if classAt text negated ranges i then [i + 1] else [] := by
  cases h : text.get? i with
  | none => simp only [Regex.ends, classAt, h, Bool.false_eq_true, if_false]
  | some c => simp only [Regex.ends, classAt, h]

theorem atWordBoundary_eq (text : Text) (i : Nat) :
    atWordBoundary text i = (wordBefore text i != wordAt text i) := by
  cases i <;> rfl

theorem wordBefore_succ (text : Text) (i : Nat) : wordBefore text (i + 1) = wordAt text i := rfl

/-- The literal `w` matches at `i` exactly when `w` occurs there, and ends after it. -/
theorem ends_word :
    ∀ (w text : Text) (i : Nat),
      (Regex.word w).ends text i = if occursAt text w i then [i + w.length] else []
  | [], text, i => by simp [Regex.word, Regex.ends, occursAt_nil]
  | c :: cs, text, i => by
    rw [Regex.word, ends_seq, ends_chr, occursAt_cons]
    by_cases hc : text.get? i = some c
    · simp only [hc, if_true, List.flatMap_cons, List.flatMap_nil, List.append_nil,
        decide_True, Bool.true_and, List.length_cons]
      rw [ends_word cs text (i + 1)]
      have : i + 1 + cs.length = i + (cs.length + 1) := by omega
      rw [this]
    · rw [if_neg hc, decide_eq_false hc]
      rfl

/-- The ends of a match of `\bw\b` at offset `i`. -/
theorem ends_keywordPattern (k : String) (text : Text) (i : Nat) :
    (keywordPattern k).ends text i =
      if atWordBoundary text i && occursAt text k.toList i &&
          atWordBoundary text (i + k.toList.length) then [i + k.toList.length] else [] := by
  rw [keywordPattern, ends_seq, ends_wordBoundary]
  by_cases h1 : atWordBoundary text i = true
  · simp only [h1, if_true, List.flatMap_cons, List.flatMap_nil, List.append_nil,
      Bool.true_and]
    rw [ends_seq, ends_word]
    by_cases h2 : occursAt text k.toList i = true
    · simp only [h2, if_true, List.flatMap_cons, List.flatMap_nil, List.append_nil,
        Bool.true_and]
      rw [ends_wordBoundary]
    · have h2' : occursAt text k.toList i = false := Bool.eq_false_iff.mpr h2
      rw [h2']
      rfl
  · have h1' : atWordBoundary text i = false := Bool.eq_false_iff.mpr h1
    rw [h1']
    rfl

theorem matchAt_keywordPattern (k : String) (text : Text) (i : Nat) :
    (keywordPattern k).matchAt text i =
      if atWordBoundary text i && occursAt text k.toList i &&
          atWordBoundary text (i + k.toList.length) then some (i + k.toList.length)
      else none := by
  rw [Regex.matchAt, ends_keywordPattern]
  split <;> rfl

theorem wordAt_of_get? {text : Text} {i : Nat} {c : Char} (h : text.get? i = some c)
    (hc : inRanges wordRanges c = true) : wordAt text i = true := by
  unfold wordAt
  rw [h]
  exact hc

/-- The characters of an occurrence of a word of word characters are word characters. -/
theorem wordAt_of_occursAt {text w : Text} {i : Nat} (h : occursAt text w i = true)
    (hw : ∀ c ∈ w, inRanges wordRanges c = true) :
    ∀ j, i ≤ j → j < i + w.length → wordAt text j = true := by
  intro j hij hj
  have hget := occursAt_get? w text i h (j - i) (by omega)
  have hj' : i + (j - i) = j := by omega
  rw [hj'] at hget
  have hlt : j - i < w.length := by omega
  rw [List.get?_eq_get hlt] at hget
  exact wordAt_of_get? hget (hw _ (List.get_mem _ _ _))

/-- A pattern whose matches start at a word boundary and cover word characters only has no
match that starts strictly inside another. -/
theorem separated_of_word_matches (re : Regex) (text : Text)
    (hword : ∀ i e, re.matchAt text i = some e →
      ∀ j, i ≤ j → j < e → wordAt text j = true)
    (hstart : ∀ j e, re.matchAt text j = some e → atWordBoundary text j = true) :
    ∀ i e, re.matchAt text i = some e → ∀ j, i < j → j < e → re.matchAt text j = none := by
  intro i e he j hij hje
  cases hj : re.matchAt text j with
  | none => rfl
  | some e' =>
    have hb := hstart j e' hj
    obtain ⟨j', rfl⟩ : ∃ j', j = j' + 1 := ⟨j - 1, by omega⟩
    rw [atWordBoundary_eq, wordBefore_succ, hword i e he j' (by omega) (by omega),
      hword i e he (j' + 1) (by omega) hje] at hb
    simp at hb

/-- The calls of a rule whose matches never start strictly inside one another: one call
per offset at which the pattern matches. -/
theorem mem_ruleCalls_iff (re : Regex) (format : Format) (text : Text)
    (hsep : ∀ i e, re.matchAt text i = some e →
      ∀ j, i < j → j < e → re.matchAt text j = none) (c : FormatCall) :
    c ∈ ruleCalls text ⟨re, format⟩ ↔
      c.format = format ∧ c.start ≤ text.length ∧
        ∃ e, re.matchAt text c.start = some e ∧ c.count = e - c.start := by
  constructor
  · exact mem_ruleCalls
  · rintro ⟨hf, hs, e, he, hn⟩
    unfold ruleCalls globalMatch
    rw [globalMatchAux_all re text hsep _ 0 (range_pairwise_lt _) (fun j _ h => by omega)]
    refine List.mem_map.mpr ⟨(c.start, c.count), ?_, ?_⟩
    · refine List.mem_filterMap.mpr ⟨c.start, List.mem_range.mpr (by omega), ?_⟩
      rw [he, hn]
      rfl
    · obtain ⟨s, n, f⟩ := c
      simp only at hf
      rw [hf]

/-! ## The calls of a run entered in state `0` -/

theorem highlightingRules_eq :
    highlightingRules =
      keywords.map (fun k => ⟨keywordPattern k, .keywordFormat⟩) ++
        [⟨classPattern, .classFormat⟩, ⟨stringPattern, .stringFormat⟩,
          ⟨numberPattern, .numberFormat⟩, ⟨functionPattern, .functionFormat⟩,
          ⟨lineCommentPattern, .commentFormat⟩] := rfl

theorem mem_applyRules {text : Text} {c : FormatCall} :
    c ∈ applyRules text ↔ ∃ rule ∈ highlightingRules, c ∈ ruleCalls text rule := by
  unfold applyRules
  exact List.mem_flatMap

/-- The calls of a run entered in state `0`: comment calls of the multi-line pass, then
the calls of the rules. -/
theorem run_clear (text : Text) (storedState : Int) :
    ∃ b blockCalls, highlightBlock text (freshBlock 0 storedState) = some b ∧
      b.formatCalls = blockCalls ++ applyRules text ∧
      ∀ c ∈ blockCalls, c.format = .commentFormat := by
  obtain ⟨_, hb⟩ := highlightBlock_eq_clear text storedState
  refine ⟨_, _, hb, rfl, ?_⟩
  intro c hc
  obtain ⟨s, _, rfl⟩ := List.mem_map.mp hc
  rfl

/-- A call of a run entered in state `0` whose format is not the comment format is a call
of a rule of the table with that format. -/
theorem mem_run_clear {text : Text} {storedState : Int} {b : Block}
    (hb : highlightBlock text (freshBlock 0 storedState) = some b) (c : FormatCall)
    (hc : c.format ≠ .commentFormat) :
    c ∈ b.formatCalls ↔
      ∃ rule ∈ highlightingRules, rule.format = c.format ∧ c ∈ ruleCalls text rule := by
  obtain ⟨b', blockCalls, hb', hcalls, hblock⟩ := run_clear text storedState
  rw [hb] at hb'
  obtain rfl := Option.some.inj hb'
  rw [hcalls, List.mem_append, mem_applyRules]
  constructor
  · rintro (h | ⟨rule, hr, h⟩)
    · exact absurd (hblock c h) hc
    · exact ⟨rule, hr, (mem_ruleCalls h).1.symm, h⟩
  · rintro ⟨rule, hr, _, h⟩
    exact Or.inr ⟨rule, hr, h⟩

theorem keywords_wordChars :
    ∀ k ∈ keywords, k.toList ≠ [] ∧ ∀ c ∈ k.toList, inRanges wordRanges c = true := by
  decide

theorem keywordRule_mem {k : String} (hk : k ∈ keywords) :
    (⟨keywordPattern k, .keywordFormat⟩ : HighlightingRule) ∈ highlightingRules := by
  rw [highlightingRules_eq]
  exact List.mem_append_left _ (List.mem_map.mpr ⟨k, hk, rfl⟩)

theorem keywordRule_of_format {rule : HighlightingRule} (hr : rule ∈ highlightingRules)
    (hf : rule.format = .keywordFormat) :
    ∃ k ∈ keywords, rule = ⟨keywordPattern k, .keywordFormat⟩ := by
  rw [highlightingRules_eq] at hr
  rcases List.mem_append.mp hr with h | h
  · obtain ⟨k, hk, rfl⟩ := List.mem_map.mp h
    exact ⟨k, hk, rfl⟩
  · simp only [List.mem_cons, List.mem_singleton, List.not_mem_nil, or_false] at h
    rcases h with rfl | rfl | rfl | rfl | rfl <;> simp at hf

/-- For an occurrence of a non-empty word of word characters, the assertions `\b` before
and after it hold exactly when no word character stands next to it. -/
theorem delimited_iff {text w : Text} {i : Nat} (hne : w ≠ [])
    (hw : ∀ c ∈ w, inRanges wordRanges c = true) (h : occursAt text w i = true) :
    (atWordBoundary text i = true ∧ atWordBoundary text (i + w.length) = true) ↔
      (wordBefore text i = false ∧ wordAt text (i + w.length) = false) := by
  have hpos : 0 < w.length := List.length_pos.mpr hne
  have hfirst := wordAt_of_occursAt h hw i (le_refl _) (by omega)
  have hlast := wordAt_of_occursAt h hw (i + w.length - 1) (by omega) (by omega)
  have hbefore : wordBefore text (i + w.length) = true := by
    obtain ⟨n, hn⟩ : ∃ n, i + w.length = n + 1 := ⟨i + w.length - 1, by omega⟩
    rw [hn, wordBefore_succ]
    have : n = i + w.length - 1 := by omega
    rw [this]
    exact hlast
  rw [atWordBoundary_eq, atWordBoundary_eq, hfirst, hbefore]
  cases wordBefore text i <;> cases wordAt text (i + w.length) <;> simp

theorem keywordPattern_separated (k : String) (hk : k ∈ keywords) (text : Text) :
    ∀ i e, (keywordPattern k).matchAt text i = some e →
      ∀ j, i < j → j < e → (keywordPattern k).matchAt text j = none := by
  apply separated_of_word_matches
  · intro i e he j hij hje
    rw [matchAt_keywordPattern] at he
    split at he
    · rename_i hcond
      simp only [Bool.and_eq_true] at hcond
      obtain rfl := Option.some.inj he
      exact wordAt_of_occursAt hcond.1.2 (keywords_wordChars k hk).2 j hij hje
    · simp at he
  · intro j e he
    rw [matchAt_keywordPattern] at he
    split at he
    · rename_i hcond
      simp only [Bool.and_eq_true] at hcond
      exact hcond.1.1
    · simp at he

/-- The calls of the rule of a keyword: one per occurrence of the keyword that has no
word character immediately before or after it. -/
theorem mem_keyword_ruleCalls (k : String) (hk : k ∈ keywords) (text : Text) (i n : Nat) :
    ⟨i, n, .keywordFormat⟩ ∈ ruleCalls text ⟨keywordPattern k, .keywordFormat⟩ ↔
      n = k.toList.length ∧ occursAt text k.toList i = true ∧
        wordBefore text i = false ∧ wordAt text (i + k.toList.length) = false := by
  obtain ⟨hne, hw⟩ := keywords_wordChars k hk
  rw [mem_ruleCalls_iff _ _ _ (keywordPattern_separated k hk text), matchAt_keywordPattern]
  simp only [true_and]
  constructor
  · rintro ⟨_, e, he, hn⟩
    split at he
    · rename_i hcond
      simp only [Bool.and_eq_true] at hcond
      obtain rfl := Option.some.inj he
      have hd := (delimited_iff hne hw hcond.1.2).mp ⟨hcond.1.1, hcond.2⟩
      exact ⟨by omega, hcond.1.2, hd.1, hd.2⟩
    · simp at he
  · rintro ⟨hn, hocc, h1, h2⟩
    have hd := (delimited_iff hne hw hocc).mpr ⟨h1, h2⟩
    have hbound := occursAt_bound hne hocc
    refine ⟨by omega, i + k.toList.length, ?_, by omega⟩
    rw [hd.1, hd.2, hocc]
    rfl

/-- C14. On a line entered in state `0` (Clear) and for a keyword `k` of the keyword
list: the rule of `k` is in the rule table; it emits the call `(i, n)` exactly when
`n` is the length of `k` and `k` occurs at offset `i` with no word character immediately
before or after it, so an occurrence embedded in a longer word gives no call of the rule
of `k`; the calls of the rule are calls of the run; and the keyword-format calls of the
run are exactly the calls `(j, length of k')` for the keywords `k'` that occur at `j`
with no word character immediately before or after. -/
theorem keyword_span_iff_delimited_occurrence (text : Text) (storedState : Int)
    (k : String) (hk : k ∈ keywords) :
    (⟨keywordPattern k, .keywordFormat⟩ : HighlightingRule) ∈ highlightingRules ∧
    (∀ i n, ⟨i, n, .keywordFormat⟩ ∈ ruleCalls text ⟨keywordPattern k, .keywordFormat⟩ ↔
      n = k.toList.length ∧ occursAt text k.toList i = true ∧
        wordBefore text i = false ∧ wordAt text (i + k.toList.length) = false) ∧
    ∃ b, highlightBlock text (freshBlock 0 storedState) = some b ∧
      (∀ c ∈ ruleCalls text ⟨keywordPattern k, .keywordFormat⟩, c ∈ b.formatCalls) ∧
      ∀ j m, ⟨j, m, .keywordFormat⟩ ∈ b.formatCalls ↔
        ∃ k' ∈ keywords, m = k'.toList.length ∧ occursAt text k'.toList j = true ∧
          wordBefore text j = false ∧ wordAt text (j + k'.toList.length) = false := by
  refine ⟨keywordRule_mem hk, mem_keyword_ruleCalls k hk text, ?_⟩
  obtain ⟨b, hb⟩ := highlightBlock_returns text (freshBlock 0 storedState)
  refine ⟨b, hb, ?_, ?_⟩
  · intro c hc
    have hf := (mem_ruleCalls hc).1
    exact (mem_run_clear hb c (by rw [hf]; simp)).mpr ⟨_, keywordRule_mem hk, hf.symm, hc⟩
  · intro j m
    rw [mem_run_clear hb _ (by simp)]
    constructor
    · rintro ⟨rule, hr, hf, hc⟩
      obtain ⟨k', hk', rfl⟩ := keywordRule_of_format hr hf
      exact ⟨k', hk', (mem_keyword_ruleCalls k' hk' text j m).mp hc⟩
    · rintro ⟨k', hk', h⟩
      exact ⟨_, keywordRule_mem hk', rfl, (mem_keyword_ruleCalls k' hk' text j m).mpr h⟩

/-- The witness of C14: the keyword `int` on the line `int print`. -/
theorem keyword_span_iff_delimited_occurrence_witness :
    (⟨keywordPattern "int", .keywordFormat⟩ : HighlightingRule) ∈ highlightingRules ∧
    (∀ i n, ⟨i, n, .keywordFormat⟩ ∈
        ruleCalls "int print".toList ⟨keywordPattern "int", .keywordFormat⟩ ↔
      n = "int".toList.length ∧ occursAt "int print".toList "int".toList i = true ∧
        wordBefore "int print".toList i = false ∧
        wordAt "int print".toList (i + "int".toList.length) = false) ∧
    ∃ b, highlightBlock "int print".toList (freshBlock 0 (-1)) = some b ∧
      (∀ c ∈ ruleCalls "int print".toList ⟨keywordPattern "int", .keywordFormat⟩,
        c ∈ b.formatCalls) ∧
      ∀ j m, ⟨j, m, .keywordFormat⟩ ∈ b.formatCalls ↔
        ∃ k' ∈ keywords, m = k'.toList.length ∧
          occursAt "int print".toList k'.toList j = true ∧
          wordBefore "int print".toList j = false ∧
          wordAt "int print".toList (j + k'.toList.length) = false :=
  keyword_span_iff_delimited_occurrence "int print".toList (-1) "int" (by decide)

/-! ## Greedy repetition of a character class -/

/-- The offsets `i + k, ..., i + 1, i`, in this order. -/
theorem range'_reverse_succ (i k : Nat) :
    (List.range' i (k + 2)).reverse = (List.range' (i + 1) (k + 1)).reverse ++ [i] := by
  rw [List.range'_succ i (k + 1), List.reverse_cons]

/-- A greedy repetition of a one-character step over a run of `k` admissible characters
ends at each offset of the run, the farthest first. -/
theorem starEnds_run (p : Nat → Bool) :
    ∀ (fuel i k : Nat), (∀ j, i ≤ j → j < i + k → p j = true) → p (i + k) = false →
      k ≤ fuel →
      starEnds (fun j => if p j then [j + 1] else []) fuel i = (List.range' i (k + 1)).reverse
  | 0, i, k, _, _, hk => by
    have : k = 0 := by omega
    subst this
    rfl
  | fuel + 1, i, 0, _, hend, _ => by
    have hend' : p i = false := by simpa using hend
    simp [starEnds, hend']
  | fuel + 1, i, k + 1, hrun, hend, hk => by
    have hi : p i = true := hrun i (le_refl _) (by omega)
    have ih := starEnds_run p fuel (i + 1) k (fun j h1 h2 => hrun j (by omega) (by omega))
      (by rw [← hend]; congr 1; omega) (by omega)
    rw [range'_reverse_succ, ← ih]
    simp [starEnds, hi]

theorem classAt_lt {text : Text} {negated : Bool} {ranges : List (Char × Char)} {i : Nat}
    (h : classAt text negated ranges i = true) : i < text.length := by
  unfold classAt at h
  cases hg : text.get? i with
  | none => rw [hg] at h; simp at h
  | some c => exact (List.get?_eq_some.mp hg).1

/-- The ends of `[...]*` from offset `i`, when exactly the `k` characters from `i` on
belong to the class: `i + k, ..., i`. -/
theorem ends_star_cls (text : Text) (negated : Bool) (ranges : List (Char × Char))
    (i k : Nat) (hrun : ∀ j, i ≤ j → j < i + k → classAt text negated ranges j = true)
    (hend : classAt text negated ranges (i + k) = false) :
    (Regex.star (.cls negated ranges)).ends text i = (List.range' i (k + 1)).reverse := by
  have hstep : (fun j => (Regex.cls negated ranges).ends text j) =
      fun j => if classAt text negated ranges j then [j + 1] else [] := by
    funext j
    exact ends_cls text negated ranges j
  have hk : k ≤ text.length - i := by
    cases k with
    | zero => omega
    | succ k =>
      have := classAt_lt (hrun (i + k) (by omega) (by omega))
      omega
  show starEnds (fun j => (Regex.cls negated ranges).ends text j) (text.length - i) i = _
  rw [hstep]
  exact starEnds_run _ _ i k hrun hend hk

/-- The ends of `[...]+` from offset `i`, when exactly the `k + 1` characters from `i` on
belong to the class: `i + k + 1, ..., i + 1`. -/
theorem ends_plus_cls (text : Text) (negated : Bool) (ranges : List (Char × Char))
    (i k : Nat) (hrun : ∀ j, i ≤ j → j < i + (k + 1) → classAt text negated ranges j = true)
    (hend : classAt text negated ranges (i + (k + 1)) = false) :
    (Regex.plus (.cls negated ranges)).ends text i =
      (List.range' (i + 1) (k + 1)).reverse := by
  have hstar := ends_star_cls text negated ranges (i + 1) k
    (fun j h1 h2 => hrun j (by omega) (by omega)) (by rw [← hend]; congr 1; omega)
  have hi := hrun i (le_refl _) (by omega)
  show ((Regex.cls negated ranges).ends text i).flatMap
    (fun j => starEnds (fun k => (Regex.cls negated ranges).ends text k) (text.length - j) j) = _
  rw [ends_cls, hi]
  simp only [if_true, List.flatMap_cons, List.flatMap_nil, List.append_nil]
  exact hstar

/-- Without a first character of the class, `[...]+` has no match. -/
theorem ends_plus_cls_none (text : Text) (negated : Bool) (ranges : List (Char × Char))
    (i : Nat) (h : classAt text negated ranges i = false) :
    (Regex.plus (.cls negated ranges)).ends text i = [] := by
  show ((Regex.cls negated ranges).ends text i).flatMap _ = _
  rw [ends_cls, h]
  rfl

/-- The length of the run of characters of a class from offset `i` on, among the next
`fuel` characters. -/
theorem exists_run (p : Nat → Bool) (n : Nat) (hp : ∀ j, n ≤ j → p j = false) :
    ∀ (d i : Nat), i + d = n →
      ∃ k, (∀ j, i ≤ j → j < i + k → p j = true) ∧ p (i + k) = false
  | 0, i, h => ⟨0, fun j h1 h2 => by omega, hp _ (by omega)⟩
  | d + 1, i, h => by
    by_cases hi : p i = true
    · obtain ⟨k, hrun, hend⟩ := exists_run p n hp d (i + 1) (by omega)
      refine ⟨k + 1, ?_, by rw [← hend]; congr 1; omega⟩
      intro j h1 h2
      by_cases hj : j = i
      · rw [hj]; exact hi
      · exact hrun j (by omega) (by omega)
    · exact ⟨0, fun j h1 h2 => by omega, by simpa using hi⟩

theorem classAt_run (text : Text) (negated : Bool) (ranges : List (Char × Char)) (i : Nat) :
    ∃ k, (∀ j, i ≤ j → j < i + k → classAt text negated ranges j = true) ∧
      classAt text negated ranges (i + k) = false := by
  by_cases hi : i ≤ text.length
  · refine exists_run _ text.length ?_ (text.length - i) i (by omega)
    intro j hj
    cases h : classAt text negated ranges j with
    | false => rfl
    | true => have := classAt_lt h; omega
  · refine ⟨0, fun j h1 h2 => by omega, ?_⟩
    cases h : classAt text negated ranges (i + 0) with
    | false => rfl
    | true => have := classAt_lt h; omega

/-! ## The line-comment rule -/

theorem char_eq_of_toNat {c d : Char} (h : c.toNat = d.toNat) : c = d := by
  rw [← Char.ofNat_toNat c, ← Char.ofNat_toNat d, h]

theorem inRanges_single (a c : Char) : inRanges [(a, a)] c = true ↔ c = a := by
  simp only [inRanges, List.any_cons, List.any_nil, Bool.or_false, Bool.and_eq_true,
    decide_eq_true_eq]
  constructor
  · rintro ⟨h1, h2⟩
    exact char_eq_of_toNat (by omega)
  · rintro rfl
    exact ⟨le_refl _, le_refl _⟩

/-- In a text without a line feed, every character is matched by `[^\n]` (and by `.`). -/
theorem classAt_notNewline {text : Text} (hnl : '\n' ∉ text) (j : Nat) :
    classAt text true [('\n', '\n')] j = decide (j < text.length) := by
  unfold classAt
  cases hg : text.get? j with
  | none =>
    have := List.get?_eq_none.mp hg
    simp only
    exact (decide_eq_false (by omega)).symm
  | some c =>
    have hlt := (List.get?_eq_some.mp hg).1
    have hne : ¬ c = '\n' := by
      intro hc
      subst hc
      exact hnl (List.get?_mem hg)
    have hr : inRanges [('\n', '\n')] c = false :=
      Bool.eq_false_iff.mpr (fun h => hne ((inRanges_single _ _).mp h))
    simp only [hr]
    exact (decide_eq_true hlt).symm

/-- In a text without a line feed, `[^\n]*` from an offset inside the text or at its end
ends at each later offset, the end of the text first. -/
theorem ends_star_notNewline {text : Text} (hnl : '\n' ∉ text) (i : Nat)
    (hi : i ≤ text.length) :
    (Regex.star (.cls true [('\n', '\n')])).ends text i =
      (List.range' i (text.length - i + 1)).reverse := by
  apply ends_star_cls
  · intro j h1 h2
    rw [classAt_notNewline hnl]
    exact decide_eq_true (by omega)
  · rw [classAt_notNewline hnl]
    exact decide_eq_false (by omega)

theorem head?_reverse_range' (a n : Nat) :
    (List.range' a (n + 1)).reverse.head? = some (a + n) := by
  rw [List.head?_reverse, List.getLast?_range']
  simp

theorem occursAt_marker (text : Text) (i : Nat) :
    occursAt text lineCommentMarker i =
      (decide (text.get? i = some '/') && decide (text.get? (i + 1) = some '/')) := by
  rw [lineCommentMarker, occursAt_cons, occursAt_cons, occursAt_nil, Bool.and_true]

/-- The line-comment pattern matches exactly at the occurrences of `//` and, in a text
without a line feed, up to the end of the text. -/
theorem matchAt_lineCommentPattern {text : Text} (hnl : '\n' ∉ text) (i : Nat) :
    lineCommentPattern.matchAt text i =
      if occursAt text lineCommentMarker i then some text.length else none := by
  rw [occursAt_marker, Regex.matchAt, lineCommentPattern, ends_seq, ends_chr]
  by_cases h1 : text.get? i = some '/'
  · rw [if_pos h1, decide_eq_true h1, List.flatMap_singleton, ends_seq, ends_chr]
    by_cases h2 : text.get? (i + 1) = some '/'
    · have hlt := (List.get?_eq_some.mp h2).1
      rw [if_pos h2, decide_eq_true h2, List.flatMap_singleton,
        ends_star_notNewline hnl (i + 1 + 1) (by omega), head?_reverse_range']
      simp only [Bool.and_self, if_true, Option.some.injEq]
      omega
    · rw [if_neg h2, decide_eq_false h2]
      rfl
  · rw [if_neg h1, decide_eq_false h1]
    rfl

/-- When, among sorted candidates, the pattern first matches at `p`, up to `e`, and at no
candidate from `e` on, the one reported match is `(p, e - p)`. -/
theorem globalMatchAux_single (re : Regex) (text : Text) (p e : Nat)
    (hp : re.matchAt text p = some e) (hpe : p < e) :
    ∀ (l : List Nat) (next : Nat), l.Pairwise (fun a b => a < b) → p ∈ l → next ≤ p →
      (∀ i ∈ l, i < p → re.matchAt text i = none) →
      (∀ i ∈ l, e ≤ i → re.matchAt text i = none) →
      globalMatchAux re text l next = [(p, e - p)]
  | [], _, _, hmem, _, _, _ => by simp at hmem
  | i :: rest, next, hl, hmem, hnext, hbefore, hafter => by
    obtain ⟨hlt, hrest⟩ := List.pairwise_cons.mp hl
    rw [globalMatchAux_cons]
    rcases List.mem_cons.mp hmem with rfl | hmem'
    · rw [if_neg (by omega), hp]
      simp only [List.cons.injEq, true_and]
      have hskip := globalMatchAux_skip re text [] (if e = p then p + 1 else e) rest (by
        intro j hj
        have := hlt j hj
        rw [if_neg (by omega)]
        by_cases hje : j < e
        · exact Or.inl hje
        · exact Or.inr (hafter j (List.mem_cons_of_mem _ hj) (by omega)))
      rw [List.append_nil] at hskip
      rw [hskip]
      rfl
    · have hip := hlt p hmem'
      have hnone := hbefore i (List.mem_cons_self _ _) hip
      have ih := globalMatchAux_single re text p e hp hpe rest next hrest hmem' hnext
        (fun j hj => hbefore j (List.mem_cons_of_mem _ hj))
        (fun j hj => hafter j (List.mem_cons_of_mem _ hj))
      split
      · exact ih
      · rw [hnone]
        exact ih

/-- In a text without a line feed whose first `//` is at offset `p`, the line-comment rule
makes exactly one call, from `p` to the end of the text. -/
theorem ruleCalls_lineComment {text : Text} {p : Nat} (hnl : '\n' ∉ text)
    (hp : indexOf text lineCommentMarker 0 = some p) :
    ruleCalls text ⟨lineCommentPattern, .commentFormat⟩ =
      [⟨p, text.length - p, .commentFormat⟩] := by
  obtain ⟨_, hocc, hfirst⟩ := indexOf_some hp
  have hbound := occursAt_bound (by simp [lineCommentMarker]) hocc
  have hlen : lineCommentMarker.length = 2 := rfl
  rw [hlen] at hbound
  have hmatch : lineCommentPattern.matchAt text p = some text.length := by
    rw [matchAt_lineCommentPattern hnl, hocc]
    rfl
  unfold ruleCalls globalMatch
  rw [globalMatchAux_single lineCommentPattern text p text.length hmatch (by omega)
    (List.range (text.length + 1)) 0 (range_pairwise_lt _) (List.mem_range.mpr (by omega))
    (Nat.zero_le _)]
  · rfl
  · intro i _ hip
    rw [matchAt_lineCommentPattern hnl, hfirst i (Nat.zero_le _) hip]
    rfl
  · intro i _ hi
    rw [matchAt_lineCommentPattern hnl]
    cases hocc' : occursAt text lineCommentMarker i with
    | false => rfl
    | true =>
      have := occursAt_bound (by simp [lineCommentMarker]) hocc'
      rw [hlen] at this
      omega

theorem highlightingRules_last :
    highlightingRules =
      highlightingRules.dropLast ++ [⟨lineCommentPattern, .commentFormat⟩] := by
  decide

/-- The calls of the rules end with the calls of the line-comment rule. -/
theorem applyRules_last (text : Text) :
    applyRules text =
      highlightingRules.dropLast.flatMap (ruleCalls text) ++
        ruleCalls text ⟨lineCommentPattern, .commentFormat⟩ := by
  unfold applyRules
  conv_lhs => rw [highlightingRules_last]
  rw [List.flatMap_append, List.flatMap_singleton]

/-- The last call that covers an offset decides its format. -/
theorem formatAt_concat (calls : List FormatCall) (c : FormatCall) (i : Nat) :
    formatAt (calls ++ [c]) i =
      if c.start ≤ i ∧ i < c.start + c.count then some c.format else formatAt calls i := by
  unfold formatAt
  rw [List.foldl_append]
  rfl

/-- C19. On a line without a line feed entered in state `0` (Clear) whose first `//`
starts at offset `p`, the line-comment rule makes exactly one call, Comment
`[p, length)`; it is the last call of the run; and every character at an offset from `p`
on ends with the comment format. -/
theorem line_comment_span_is_last (text : Text) (storedState : Int) (p : Nat)
    (hnl : '\n' ∉ text) (hp : indexOf text lineCommentMarker 0 = some p) :
    ruleCalls text ⟨lineCommentPattern, .commentFormat⟩ =
      [⟨p, text.length - p, .commentFormat⟩] ∧
    ∃ b, highlightBlock text (freshBlock 0 storedState) = some b ∧
      b.formatCalls.getLast? = some ⟨p, text.length - p, .commentFormat⟩ ∧
      ∀ i, p ≤ i → i < text.length → formatAt b.formatCalls i = some .commentFormat := by
  have hrule := ruleCalls_lineComment hnl hp
  refine ⟨hrule, ?_⟩
  obtain ⟨b, blockCalls, hb, hcalls, _⟩ := run_clear text storedState
  have hcalls' : b.formatCalls =
      (blockCalls ++ highlightingRules.dropLast.flatMap (ruleCalls text)) ++
        [⟨p, text.length - p, .commentFormat⟩] := by
    rw [hcalls, applyRules_last, hrule, List.append_assoc]
  refine ⟨b, hb, ?_, ?_⟩
  · rw [hcalls', List.getLast?_concat]
  · intro i h1 h2
    rw [hcalls', formatAt_concat, if_pos ⟨h1, by simp only; omega⟩]

/-- The witness of C19: the line `x = 1; // int` entered in state `0`. -/
theorem line_comment_span_is_last_witness :
    ruleCalls "x = 1; // int".toList ⟨lineCommentPattern, .commentFormat⟩ =
      [⟨7, "x = 1; // int".toList.length - 7, .commentFormat⟩] ∧
    ∃ b, highlightBlock "x = 1; // int".toList (freshBlock 0 (-1)) = some b ∧
      b.formatCalls.getLast? =
        some ⟨7, "x = 1; // int".toList.length - 7, .commentFormat⟩ ∧
      ∀ i, 7 ≤ i → i < "x = 1; // int".toList.length →
        formatAt b.formatCalls i = some .commentFormat :=
  line_comment_span_is_last "x = 1; // int".toList (-1) 7 (by decide) (by decide)

/-! ## The class-name rule -/

theorem letter_isWord (c : Char)
    (h : (inRanges [('A', 'Z'), ('a', 'z')] c != false) = true) :
    inRanges wordRanges c = true := by
  simp only [inRanges, wordRanges, List.any_cons, List.any_nil, Bool.or_false, bne_iff_ne,
    ne_eq, Bool.not_eq_false, Bool.or_eq_true, Bool.and_eq_true, decide_eq_true_eq] at h ⊢
  rcases h with h | h
  · exact Or.inr (Or.inl h)
  · exact Or.inl h

theorem wordAt_of_letterAt {text : Text} {j : Nat} (h : letterAt text j = true) :
    wordAt text j = true := by
  unfold letterAt classAt at h
  cases hg : text.get? j with
  | none => rw [hg] at h; simp at h
  | some c =>
    rw [hg] at h
    exact wordAt_of_get? hg (letter_isWord c h)

theorem range'_reverse_top (a n : Nat) :
    (List.range' a (n + 1)).reverse = (a + n) :: (List.range' a n).reverse := by
  rw [List.range'_concat, List.reverse_append]
  simp

/-- Among the ends `a + n, ..., a` only the farthest can pass a test that fails at every
other one. -/
theorem flatMap_top (f : Nat → List Nat) (a n : Nat)
    (h : ∀ j, a ≤ j → j < a + n → f j = []) :
    (List.range' a (n + 1)).reverse.flatMap f = f (a + n) := by
  rw [range'_reverse_top, List.flatMap_cons]
  have : (List.range' a n).reverse.flatMap f = [] := by
    rw [List.flatMap_eq_nil_iff]
    intro j hj
    rw [List.mem_reverse, List.mem_range'_1] at hj
    exact h j hj.1 hj.2
  rw [this, List.append_nil]

/-- The ends of a match of `\bQ[A-Za-z]+\b` at an offset where `Q` is followed by exactly
`k + 1` letters. -/
theorem ends_classPattern_run (text : Text) (i k : Nat)
    (hrun : ∀ j, i + 1 ≤ j → j < i + 1 + (k + 1) → letterAt text j = true)
    (hend : letterAt text (i + 1 + (k + 1)) = false) :
    classPattern.ends text i =
      if atWordBoundary text i && decide (text.get? i = some 'Q') &&
          !wordAt text (i + 1 + (k + 1)) then [i + 1 + (k + 1)] else [] := by
  rw [classPattern, ends_seq, ends_wordBoundary]
  by_cases h1 : atWordBoundary text i = true
  · rw [if_pos h1, List.flatMap_singleton, ends_seq, ends_chr, h1]
    by_cases h2 : text.get? i = some 'Q'
    · rw [if_pos h2, List.flatMap_singleton, ends_seq, letter,
        ends_plus_cls text false _ (i + 1) k hrun hend, decide_eq_true h2]
      have hf : ∀ j, i + 1 + 1 ≤ j → j < i + 1 + 1 + k →
          Regex.wordBoundary.ends text j = [] := by
        intro j hj1 hj2
        obtain ⟨j', rfl⟩ : ∃ j', j = j' + 1 := ⟨j - 1, by omega⟩
        rw [ends_wordBoundary, atWordBoundary_eq, wordBefore_succ,
          wordAt_of_letterAt (hrun j' (by omega) (by omega)),
          wordAt_of_letterAt (hrun (j' + 1) (by omega) (by omega))]
        rfl
      rw [flatMap_top (fun j => Regex.wordBoundary.ends text j) (i + 1 + 1) k hf,
        ends_wordBoundary]
      have htop : i + 1 + 1 + k = i + 1 + (k + 1) := by omega
      rw [htop]
      obtain ⟨n, hn⟩ : ∃ n, i + 1 + (k + 1) = n + 1 := ⟨i + 1 + k, by omega⟩
      have hbefore : wordBefore text (i + 1 + (k + 1)) = true := by
        rw [hn, wordBefore_succ]
        exact wordAt_of_letterAt (hrun n (by omega) (by omega))
      rw [atWordBoundary_eq, hbefore]
      cases wordAt text (i + 1 + (k + 1)) <;> rfl
    · rw [if_neg h2, decide_eq_false h2]
      rfl
  · have h1' : atWordBoundary text i = false := Bool.eq_false_iff.mpr h1
    rw [h1']
    rfl

/-- Without a letter after the offset, `\bQ[A-Za-z]+\b` has no match at it. -/
theorem ends_classPattern_none (text : Text) (i : Nat)
    (h : letterAt text (i + 1) = false) : classPattern.ends text i = [] := by
  rw [classPattern, ends_seq, ends_wordBoundary]
  by_cases h1 : atWordBoundary text i = true
  · rw [if_pos h1, List.flatMap_singleton, ends_seq, ends_chr]
    by_cases h2 : text.get? i = some 'Q'
    · rw [if_pos h2, List.flatMap_singleton, ends_seq, letter,
        ends_plus_cls_none text false _ (i + 1) h]
      rfl
    · rw [if_neg h2]
      rfl
  · rw [if_neg h1]
    rfl

/-- The match of `\bQ[A-Za-z]+\b` at an offset: a `Q` at a word boundary followed by one
or more letters up to the end `e` of the match, where no word character stands. -/
theorem matchAt_classPattern_iff (text : Text) (i e : Nat) :
    classPattern.matchAt text i = some e ↔
      atWordBoundary text i = true ∧ text.get? i = some 'Q' ∧ i + 2 ≤ e ∧
        (∀ j, i < j → j < e → letterAt text j = true) ∧ wordAt text e = false := by
  obtain ⟨k, hrun, hend⟩ := classAt_run text false [('A', 'Z'), ('a', 'z')] (i + 1)
  cases k with
  | zero =>
    rw [Regex.matchAt, ends_classPattern_none text i hend]
    constructor
    · intro h
      simp at h
    · rintro ⟨_, _, he, hletters, _⟩
      have := hletters (i + 1) (by omega) (by omega)
      rw [Nat.add_zero] at hend
      rw [show letterAt text (i + 1) = classAt text false [('A', 'Z'), ('a', 'z')] (i + 1)
        from rfl, hend] at this
      simp at this
  | succ k =>
    rw [Regex.matchAt, ends_classPattern_run text i k hrun hend]
    constructor
    · intro h
      split at h
      · rename_i hcond
        simp only [Bool.and_eq_true, decide_eq_true_eq, Bool.not_eq_true'] at hcond
        simp only [List.head?_cons, Option.some.injEq] at h
        subst h
        exact ⟨hcond.1.1, hcond.1.2, by omega, fun j h1 h2 => hrun j (by omega) h2, hcond.2⟩
      · simp at h
    · rintro ⟨h1, h2, he, hletters, hword⟩
      have hee : e = i + 1 + (k + 1) := by
        rcases Nat.lt_trichotomy e (i + 1 + (k + 1)) with hlt | heq | hgt
        · have := wordAt_of_letterAt (hrun e (by omega) hlt)
          rw [hword] at this
          simp at this
        · exact heq
        · have := hletters (i + 1 + (k + 1)) (by omega) hgt
          rw [show letterAt text (i + 1 + (k + 1)) =
            classAt text false [('A', 'Z'), ('a', 'z')] (i + 1 + (k + 1)) from rfl,
            hend] at this
          simp at this
      subst hee
      rw [h1, decide_eq_true h2, hword]
      rfl

theorem rule_of_format {rule : HighlightingRule} (hr : rule ∈ highlightingRules) :
    (rule.format = .classFormat → rule = ⟨classPattern, .classFormat⟩) ∧
    (rule.format = .stringFormat → rule = ⟨stringPattern, .stringFormat⟩) := by
  rw [highlightingRules_eq] at hr
  rcases List.mem_append.mp hr with h | h
  · obtain ⟨k, _, rfl⟩ := List.mem_map.mp h
    exact ⟨fun hf => by simp at hf, fun hf => by simp at hf⟩
  · simp only [List.mem_cons, List.mem_singleton, List.not_mem_nil, or_false] at h
    rcases h with rfl | rfl | rfl | rfl | rfl <;>
      exact ⟨fun hf => by first | rfl | simp at hf, fun hf => by first | rfl | simp at hf⟩

theorem classRule_mem :
    (⟨classPattern, .classFormat⟩ : HighlightingRule) ∈ highlightingRules := by
  rw [highlightingRules_eq]
  exact List.mem_append_right _ (List.mem_cons_self _ _)

theorem classPattern_separated (text : Text) :
    ∀ i e, classPattern.matchAt text i = some e →
      ∀ j, i < j → j < e → classPattern.matchAt text j = none := by
  apply separated_of_word_matches
  · intro i e he j hij hje
    obtain ⟨_, hQ, _, hletters, _⟩ := (matchAt_classPattern_iff text i e).mp he
    rcases Nat.eq_or_lt_of_le hij with rfl | hlt
    · exact wordAt_of_get? hQ (by decide)
    · exact wordAt_of_letterAt (hletters j hlt hje)
  · intro j e he
    exact ((matchAt_classPattern_iff text j e).mp he).1

/-- C13, amended. On a line entered in state `0` (Clear) the class-format calls of the run
are exactly the calls `(i, n)` such that a `Q` stands at offset `i`, the characters at
the offsets `i+1, ..., i+n-1` are ASCII letters, of which there is at least one, and no
word character stands immediately before offset `i` or at offset `i+n`. -/
theorem className_span_iff_Q_identifier (text : Text) (storedState : Int) :
    ∃ b, highlightBlock text (freshBlock 0 storedState) = some b ∧
      ∀ i n, ⟨i, n, .classFormat⟩ ∈ b.formatCalls ↔
        2 ≤ n ∧ text.get? i = some 'Q' ∧
          (∀ j, i < j → j < i + n → letterAt text j = true) ∧
          wordBefore text i = false ∧ wordAt text (i + n) = false := by
  obtain ⟨b, hb⟩ := highlightBlock_returns text (freshBlock 0 storedState)
  refine ⟨b, hb, ?_⟩
  intro i n
  have hboundary : text.get? i = some 'Q' →
      (atWordBoundary text i = true ↔ wordBefore text i = false) := by
    intro hQ
    rw [atWordBoundary_eq, wordAt_of_get? hQ (by decide)]
    cases wordBefore text i <;> simp
  rw [mem_run_clear hb _ (by simp)]
  constructor
  · rintro ⟨rule, hr, hf, hc⟩
    obtain rfl := (rule_of_format hr).1 hf
    obtain ⟨_, _, e, he, hn⟩ :=
      (mem_ruleCalls_iff _ _ _ (classPattern_separated text) _).mp hc
    obtain ⟨h1, hQ, hle, hletters, hword⟩ := (matchAt_classPattern_iff text i e).mp he
    simp only at hn
    have hie : i + n = e := by omega
    rw [hie]
    exact ⟨by omega, hQ, hletters, (hboundary hQ).mp h1, hword⟩
  · rintro ⟨hn, hQ, hletters, hbefore, hword⟩
    refine ⟨_, classRule_mem, rfl, ?_⟩
    rw [mem_ruleCalls_iff _ _ _ (classPattern_separated text)]
    refine ⟨rfl, Nat.le_of_lt (List.get?_eq_some.mp hQ).1, i + n, ?_, by simp⟩
    exact (matchAt_classPattern_iff text i (i + n)).mpr
      ⟨(hboundary hQ).mpr hbefore, hQ, by omega, hletters, hword⟩

/-- C13, as the claim states it, fails. The line `Widget w;` entered in state `0` gets no
span at all, although `Widget` begins with an uppercase letter; the line `QWidget w;` gets
the class-name span `[0,7)`. -/
theorem uppercase_identifier_without_Q_gets_no_span :
    (classify "Widget w;".toList 0).map (fun b => b.spans) = some [] ∧
    (classify "QWidget w;".toList 0).map (fun b => b.spans) =
      some [⟨0, 7, .classFormat⟩] := by
  decide

/-! ## The string rule -/

theorem stringPattern_eq :
    stringPattern = .alt (quotedPattern '"') (quotedPattern '\'') := rfl

theorem ends_alt (text : Text) (a b : Regex) (i : Nat) :
    (Regex.alt a b).ends text i = a.ends text i ++ b.ends text i := rfl

/-- Among the downward candidates `a + n - 1, ..., a`, the first one that passes a test
is the largest one that passes it. -/
theorem head?_flatMap_downward (Q : Nat → Prop) [DecidablePred Q] (g : Nat → Nat) :
    ∀ (n a x : Nat),
      ((List.range' a n).reverse.flatMap (fun j => if Q j then [g j] else [])).head? =
        some x →
      ∃ j, a ≤ j ∧ j < a + n ∧ Q j ∧ x = g j ∧ ∀ j', j < j' → j' < a + n → ¬ Q j'
  | 0, a, x, h => by simp at h
  | n + 1, a, x, h => by
    rw [range'_reverse_top, List.flatMap_cons] at h
    by_cases hq : Q (a + n)
    · rw [if_pos hq] at h
      simp only [List.singleton_append, List.head?_cons, Option.some.injEq] at h
      exact ⟨a + n, by omega, by omega, hq, h.symm, fun j' h1 h2 => by omega⟩
    · rw [if_neg hq, List.nil_append] at h
      obtain ⟨j, h1, h2, h3, h4, h5⟩ := head?_flatMap_downward Q g n a x h
      refine ⟨j, h1, by omega, h3, h4, ?_⟩
      intro j' hj1 hj2
      by_cases hj' : j' = a + n
      · rw [hj']; exact hq
      · exact h5 j' hj1 (by omega)

/-- The ends of a match of `q.*q` in a text without a line feed: after each later `q`,
the last one first. -/
theorem ends_quotedPattern {text : Text} (hnl : '\n' ∉ text) (q : Char) (i : Nat) :
    (quotedPattern q).ends text i =
      if text.get? i = some q then
        (List.range' (i + 1) (text.length - (i + 1) + 1)).reverse.flatMap
          (fun j => if text.get? j = some q then [j + 1] else [])
      else [] := by
  rw [quotedPattern, ends_seq, ends_chr]
  by_cases h : text.get? i = some q
  · have hlt := (List.get?_eq_some.mp h).1
    rw [if_pos h, if_pos h, List.flatMap_singleton, ends_seq, anyChar,
      ends_star_notNewline hnl (i + 1) (by omega)]
    rfl
  · rw [if_neg h, if_neg h]
    rfl

/-- A match of `q.*q` starts at a `q` and ends after the last `q` of the text. -/
theorem head?_quotedPattern {text : Text} (hnl : '\n' ∉ text) (q : Char) (i e : Nat)
    (h : ((quotedPattern q).ends text i).head? = some e) :
    text.get? i = some q ∧ i + 2 ≤ e ∧ text.get? (e - 1) = some q ∧
      ∀ j, e ≤ j → text.get? j ≠ some q := by
  rw [ends_quotedPattern hnl] at h
  split at h
  · rename_i hq
    obtain ⟨j, h1, h2, h3, h4, h5⟩ := head?_flatMap_downward _ _ _ _ _ h
    subst h4
    refine ⟨hq, by omega, by simpa using h3, ?_⟩
    intro j' hj'
    by_cases hb : j' < i + 1 + (text.length - (i + 1) + 1)
    · exact h5 j' (by omega) hb
    · rw [List.get?_eq_none.mpr (by omega)]
      simp
  · simp at h

/-- A match of the string pattern starts at a quote character and ends after the last
quote character of the same kind in the text. -/
theorem matchAt_stringPattern {text : Text} (hnl : '\n' ∉ text) (i e : Nat)
    (h : stringPattern.matchAt text i = some e) :
    ∃ q, (q = '"' ∨ q = '\'') ∧ text.get? i = some q ∧ i + 2 ≤ e ∧
      text.get? (e - 1) = some q ∧ ∀ j, e ≤ j → text.get? j ≠ some q := by
  rw [Regex.matchAt, stringPattern_eq, ends_alt, List.head?_append] at h
  cases h1 : ((quotedPattern '"').ends text i).head? with
  | some x =>
    rw [h1] at h
    simp only [Option.or_some, Option.some.injEq] at h
    subst h
    exact ⟨'"', Or.inl rfl, head?_quotedPattern hnl _ _ _ h1⟩
  | none =>
    rw [h1] at h
    simp only [Option.none_or] at h
    exact ⟨'\'', Or.inr rfl, head?_quotedPattern hnl _ _ _ h⟩

/-- C12, as the claim states it, fails. On the line `"a" + "b"` entered in state `0` the
run emits exactly one span, the string span `[0,9)` over the whole line, not the two
spans `[0,3)` and `[6,9)`. -/
theorem two_string_literals_give_one_span :
    "\"a\" + \"b\"".toList.length = 9 ∧
    (classify "\"a\" + \"b\"".toList 0).map (fun b => b.spans) =
      some [⟨0, 9, .stringFormat⟩] := by
  decide

/-- C12, amended. On a line without a line feed entered in state `0` (Clear), every
string-format call of the run starts at a quote character (`"` or `'`) and ends with the
last quote character of the same kind on the line: no such quote stands at or after the
end of the call, and the call has at least two characters. -/
theorem string_span_runs_to_last_quote (text : Text) (storedState : Int)
    (hnl : '\n' ∉ text) :
    ∃ b, highlightBlock text (freshBlock 0 storedState) = some b ∧
      ∀ c ∈ b.formatCalls, c.format = .stringFormat →
        ∃ q, (q = '"' ∨ q = '\'') ∧ 2 ≤ c.count ∧ text.get? c.start = some q ∧
          text.get? (c.start + c.count - 1) = some q ∧
          ∀ j, c.start + c.count ≤ j → text.get? j ≠ some q := by
  obtain ⟨b, hb⟩ := highlightBlock_returns text (freshBlock 0 storedState)
  refine ⟨b, hb, ?_⟩
  intro c hc hf
  obtain ⟨rule, hr, hrf, hcr⟩ := (mem_run_clear hb c (by rw [hf]; simp)).mp hc
  obtain rfl := (rule_of_format hr).2 (hrf.trans hf)
  obtain ⟨_, _, e, he, hn⟩ := mem_ruleCalls hcr
  obtain ⟨q, hq, h1, h2, h3, h4⟩ := matchAt_stringPattern hnl _ _ he
  have hse : c.start + c.count = e := by omega
  rw [hse]
  exact ⟨q, hq, by omega, h1, h3, h4⟩

/-- The witness of C12 amended: the line `"a" + "b"`. -/
theorem string_span_runs_to_last_quote_witness :
    ∃ b, highlightBlock "\"a\" + \"b\"".toList (freshBlock 0 (-1)) = some b ∧
      ∀ c ∈ b.formatCalls, c.format = .stringFormat →
        ∃ q, (q = '"' ∨ q = '\'') ∧ 2 ≤ c.count ∧
          "\"a\" + \"b\"".toList.get? c.start = some q ∧
          "\"a\" + \"b\"".toList.get? (c.start + c.count - 1) = some q ∧
          ∀ j, c.start + c.count ≤ j → "\"a\" + \"b\"".toList.get? j ≠ some q :=
  string_span_runs_to_last_quote "\"a\" + \"b\"".toList (-1) (by decide)

/-- The witness of C16: the line `a */ b /* c` entered in state `1`, whose first closer
starts at offset 2. -/
theorem closer_then_suffix_scanned_as_clear_witness :
    indexOf "a */ b /* c".toList closer 0 = some 2 ∧
    ∃ b m' b', highlightBlock "a */ b /* c".toList (freshBlock 1 (-1)) = some b ∧
      multiLinePass ("a */ b /* c".toList.drop (2 + 2)) (freshBlock 0 (-1)) = some m' ∧
      highlightBlock ("a */ b /* c".toList.drop (2 + 2)) (freshBlock 0 (-1)) = some b' ∧
      b'.formatCalls = m'.formatCalls ++ applyRules ("a */ b /* c".toList.drop (2 + 2)) ∧
      b'.currentBlockState = m'.currentBlockState ∧
      b.formatCalls =
        ⟨0, 2 + 2, .commentFormat⟩ ::
          m'.formatCalls.map (fun c => ⟨c.start + (2 + 2), c.count, c.format⟩) ∧
      b.currentBlockState = b'.currentBlockState :=
  ⟨by decide,
    closer_then_suffix_scanned_as_clear "a */ b /* c".toList 2 (-1) (-1) (by decide)⟩

/-! ## The state stored by a run -/

/-- The run in closed form on any line and entry state: the empty line stores `0` and
gets no call. -/
theorem highlightBlock_closed (text : Text) (previousBlockState storedState : Int) :
    highlightBlock text (freshBlock previousBlockState storedState) =
      some ⟨previousBlockState,
        if text ≠ [] ∧ ∃ s ∈ scanPoints text text.length (firstStart text previousBlockState),
            indexOf text closer s = none then 1 else 0,
        (if text = [] then []
          else (scanPoints text text.length (firstStart text previousBlockState)).map
            (commentCall text)) ++
          (if previousBlockState = 1 then [] else applyRules text)⟩ := by
  cases text with
  | nil =>
    rw [highlightBlock_nil, applyRules_nil]
    by_cases h1 : previousBlockState = 1 <;> simp [h1]
  | cons c cs =>
    rw [(highlightBlock_eq (c :: cs) previousBlockState storedState (by simp)).2,
      if_neg (List.cons_ne_nil c cs)]
    by_cases h : ∃ s ∈ scanPoints (c :: cs) (c :: cs).length
        (firstStart (c :: cs) previousBlockState), indexOf (c :: cs) closer s = none
    · have e1 : (if c :: cs ≠ [] ∧ ∃ s ∈ scanPoints (c :: cs) (c :: cs).length
          (firstStart (c :: cs) previousBlockState), indexOf (c :: cs) closer s = none
          then (1 : Int) else 0) = 1 := if_pos ⟨List.cons_ne_nil c cs, h⟩
      have e2 : (if ∃ s ∈ scanPoints (c :: cs) (c :: cs).length
          (firstStart (c :: cs) previousBlockState), indexOf (c :: cs) closer s = none
          then (1 : Int) else 0) = 1 := if_pos h
      rw [e1, e2]
    · have e1 : (if c :: cs ≠ [] ∧ ∃ s ∈ scanPoints (c :: cs) (c :: cs).length
          (firstStart (c :: cs) previousBlockState), indexOf (c :: cs) closer s = none
          then (1 : Int) else 0) = 0 := if_neg (fun hh => h hh.2)
      have e2 : (if ∃ s ∈ scanPoints (c :: cs) (c :: cs).length
          (firstStart (c :: cs) previousBlockState), indexOf (c :: cs) closer s = none
          then (1 : Int) else 0) = 0 := if_neg h
      rw [e1, e2]

/-- C23. For every line and entry state the run stores `0` or `1`. If it stores `1`
(InBlockComment), the text is non-empty and there is an opening point `s` of the scan with
no closer at or after it, and the last call of the multi-line pass is Comment
`[s, length)`. If the line is empty or every opening point has a closer at or after it,
the run stores `0`. -/
theorem exit_in_comment_iff_unclosed_opening_point (text : Text)
    (previousBlockState storedState : Int) :
    ∃ b, highlightBlock text (freshBlock previousBlockState storedState) = some b ∧
      (b.currentBlockState = 0 ∨ b.currentBlockState = 1) ∧
      (b.currentBlockState = 1 →
        text ≠ [] ∧
        ∃ m s, multiLinePass text (freshBlock previousBlockState storedState) = some m ∧
          s ∈ scanPoints text text.length (firstStart text previousBlockState) ∧
          indexOf text closer s = none ∧
          m.formatCalls.getLast? = some ⟨s, text.length - s, .commentFormat⟩) ∧
      ((text = [] ∨ ∀ s ∈ scanPoints text text.length (firstStart text previousBlockState),
          indexOf text closer s ≠ none) → b.currentBlockState = 0) := by
  refine ⟨_, highlightBlock_closed text previousBlockState storedState, ?_, ?_, ?_⟩
  · simp only
    split
    · exact Or.inr rfl
    · exact Or.inl rfl
  · intro h1
    simp only at h1
    split at h1
    · rename_i hcond
      obtain ⟨hne, s, hs, hc⟩ := hcond
      refine ⟨hne, _, s, (highlightBlock_eq text previousBlockState storedState hne).1,
        hs, hc, ?_⟩
      have hlast := scanPoints_unclosed_last text _ _ s hs hc
      have hlen : commentLength text s = text.length - s := by simp [commentLength, hc]
      simp only [List.getLast?_map, hlast, Option.map_some', commentCall, hlen]
    · simp at h1
  · intro h
    simp only
    rw [if_neg]
    rintro ⟨hne, s, hs, hc⟩
    rcases h with h | h
    · exact hne h
    · exact h s hs hc

/-- C25. For every text and every entry-state value the run stores `0` or `1`, and for
every entry-state value other than `1` (such as `-1`, the value for the first line) the
calls and the stored state of the run are those of the run entered in state `0`. -/
theorem entry_state_other_than_one_is_clear (text : Text) (s storedState : Int) :
    ∃ b, highlightBlock text (freshBlock s storedState) = some b ∧
      (b.currentBlockState = 0 ∨ b.currentBlockState = 1) ∧
      (s ≠ 1 → ∃ b0, highlightBlock text (freshBlock 0 storedState) = some b0 ∧
        b.formatCalls = b0.formatCalls ∧ b.spans = b0.spans ∧
        b.currentBlockState = b0.currentBlockState) := by
  refine ⟨_, highlightBlock_closed text s storedState, ?_, ?_⟩
  · simp only
    split
    · exact Or.inr rfl
    · exact Or.inl rfl
  · intro hs
    refine ⟨_, highlightBlock_closed text 0 storedState, ?_⟩
    have hfirst : firstStart text s = firstStart text 0 := by
      unfold firstStart
      rw [if_pos hs, if_pos (by decide)]
    have hcalls : ((if text = [] then []
          else (scanPoints text text.length (firstStart text s)).map (commentCall text)) ++
          (if s = 1 then [] else applyRules text)) =
        ((if text = [] then []
          else (scanPoints text text.length (firstStart text 0)).map (commentCall text)) ++
          (if (0 : Int) = 1 then [] else applyRules text)) := by
      rw [hfirst, if_neg hs, if_neg (show ¬ (0 : Int) = 1 by decide)]
    refine ⟨hcalls, ?_, ?_⟩
    · unfold Block.spans
      simp only
      rw [hcalls]
    · simp only
      rw [hfirst]

/-! ## An opener and a closer that share the asterisk -/

theorem indexOfAux_none (pat : Text) :
    ∀ (rest : Text) (i : Nat), indexOfAux pat rest i = none →
      ∀ k, k < rest.length → pat.isPrefixOf (rest.drop k) = false
  | [], _, _ => fun k hk => by simp at hk
  | c :: cs, i, h => by
    unfold indexOfAux at h
    split at h
    · simp at h
    · rename_i hp
      intro k hk
      cases k with
      | zero =>
        rw [List.drop_zero]
        exact Bool.eq_false_iff.mpr hp
      | succ k =>
        simpa using indexOfAux_none pat cs (i + 1) h k (by simpa using hk)

/-- When `indexOf` finds nothing, a non-empty pattern does not occur at or after `start`. -/
theorem indexOf_none {text pat : Text} {start : Nat} (hne : pat ≠ [])
    (h : indexOf text pat start = none) :
    ∀ j, start ≤ j → occursAt text pat j = false := by
  intro j hj
  cases hocc : occursAt text pat j with
  | false => rfl
  | true =>
    have hbound := occursAt_bound hne hocc
    have hpos : 0 < pat.length := List.length_pos.mpr hne
    unfold indexOf at h
    have := indexOfAux_none pat _ _ h (j - start) (by rw [List.length_drop]; omega)
    rw [List.drop_drop] at this
    unfold occursAt at hocc
    have hj' : start + (j - start) = j := by omega
    rw [hj', hocc] at this
    simp at this

/-- The first occurrence at or after `start` is what `indexOf` finds. -/
theorem indexOf_first {text pat : Text} {start n : Nat} (hne : pat ≠ [])
    (hstart : start ≤ n) (hocc : occursAt text pat n = true)
    (hfirst : ∀ j, start ≤ j → j < n → occursAt text pat j = false) :
    indexOf text pat start = some n := by
  cases h : indexOf text pat start with
  | none =>
    have := indexOf_none hne h n hstart
    rw [hocc] at this
    simp at this
  | some m =>
    obtain ⟨hm1, hm2, hm3⟩ := indexOf_some h
    rcases Nat.lt_trichotomy m n with hlt | heq | hgt
    · have := hfirst m hm1 hlt
      rw [hm2] at this
      simp at this
    · rw [heq]
    · have := hm3 n hstart hgt
      rw [hocc] at this
      simp at this

/-- The opening points of a scan entered in a state other than `1` are occurrences of the
opener. -/
theorem scanPoints_openers (text : Text) :
    ∀ (fuel : Nat) (start : Option Nat), (∀ i, start = some i → occursAt text opener i = true) →
      ∀ s ∈ scanPoints text fuel start, occursAt text opener s = true
  | fuel, none, _ => by cases fuel <;> simp [scanPoints]
  | 0, some i, _ => by simp [scanPoints]
  | fuel + 1, some i, h => by
    intro s hs
    simp only [scanPoints, List.mem_cons] at hs
    rcases hs with rfl | hs
    · exact h s rfl
    · exact scanPoints_openers text fuel (nextStart text i)
        (fun j hj => (indexOf_some hj).2.1) s hs

/-- C24. The closer is searched from the offset of the opener itself. On a line entered in
state `0` (Clear), an opening point `p` of the scan is an occurrence of `/*`; when the
character at `p + 2` is `/`, the closer found is the one at `p + 1`, which shares the
asterisk, the call made at `p` is Comment `[p, p+3)`, it is a call of the run, and the
next opener is searched from `p + 3`. In particular the line `/*/` entered in state `0`
gets the one span Comment `[0,3)` and stores state `0`. -/
theorem opener_and_closer_share_asterisk (text : Text) (storedState : Int) (p : Nat)
    (hp : p ∈ scanPoints text text.length (firstStart text 0))
    (hslash : text.get? (p + 2) = some '/') :
    occursAt text opener p = true ∧
    indexOf text closer p = some (p + 1) ∧
    commentCall text p = ⟨p, 3, .commentFormat⟩ ∧
    nextStart text p = indexOf text opener (p + 3) ∧
    (∃ b, highlightBlock text (freshBlock 0 storedState) = some b ∧
      ⟨p, 3, .commentFormat⟩ ∈ b.formatCalls) ∧
    (classify "/*/".toList 0).map (fun b => (b.spans, b.currentBlockState)) =
      some ([⟨0, 3, .commentFormat⟩], 0) := by
  have hocc : occursAt text opener p = true :=
    scanPoints_openers text _ _ (fun i hi => (indexOf_some (by simpa [firstStart] using hi)).2.1)
      p hp
  have hget := occursAt_get? opener text p hocc
  have h0 : text.get? p = some '/' := by simpa using hget 0 (by decide)
  have h1 : text.get? (p + 1) = some '*' := hget 1 (by decide)
  have hclose : indexOf text closer p = some (p + 1) := by
    apply indexOf_first (by decide) (by omega)
    · rw [closer, occursAt_cons, occursAt_cons, occursAt_nil, decide_eq_true h1,
        decide_eq_true hslash]
      rfl
    · intro j hj1 hj2
      have hj : j = p := by omega
      subst hj
      rw [closer, occursAt_cons, decide_eq_false (by rw [h0]; decide)]
      rfl
  have hlen : commentLength text p = 3 := by
    have := (commentLength_closed hclose).1
    omega
  have hcall : commentCall text p = ⟨p, 3, .commentFormat⟩ := by
    rw [commentCall, hlen]
  refine ⟨hocc, hclose, hcall, by rw [nextStart, hlen], ?_, by decide⟩
  refine ⟨_, (highlightBlock_eq_clear text storedState).2, ?_⟩
  rw [← hcall]
  exact List.mem_append_left _ (List.mem_map.mpr ⟨p, hp, rfl⟩)

/-- The witness of C24: the line `a /*/ b` entered in state `0`, with the opening point 2. -/
theorem opener_and_closer_share_asterisk_witness :
    occursAt "a /*/ b".toList opener 2 = true ∧
    indexOf "a /*/ b".toList closer 2 = some (2 + 1) ∧
    commentCall "a /*/ b".toList 2 = ⟨2, 3, .commentFormat⟩ ∧
    nextStart "a /*/ b".toList 2 = indexOf "a /*/ b".toList opener (2 + 3) ∧
    (∃ b, highlightBlock "a /*/ b".toList (freshBlock 0 (-1)) = some b ∧
      ⟨2, 3, .commentFormat⟩ ∈ b.formatCalls) ∧
    (classify "/*/".toList 0).map (fun b => (b.spans, b.currentBlockState)) =
      some ([⟨0, 3, .commentFormat⟩], 0) :=
  opener_and_closer_share_asterisk "a /*/ b".toList (-1) 2 (by decide) (by decide)

/-! ## The function rule -/

theorem rule_of_format' {rule : HighlightingRule} (hr : rule ∈ highlightingRules) :
    (rule.format = .functionFormat → rule = ⟨functionPattern, .functionFormat⟩) ∧
    (rule.format = .numberFormat → rule = ⟨numberPattern, .numberFormat⟩) := by
  rw [highlightingRules_eq] at hr
  rcases List.mem_append.mp hr with h | h
  · obtain ⟨k, _, rfl⟩ := List.mem_map.mp h
    exact ⟨fun hf => by simp at hf, fun hf => by simp at hf⟩
  · simp only [List.mem_cons, List.mem_singleton, List.not_mem_nil, or_false] at h
    rcases h with rfl | rfl | rfl | rfl | rfl <;>
      exact ⟨fun hf => by first | rfl | simp at hf, fun hf => by first | rfl | simp at hf⟩

theorem functionRule_mem :
    (⟨functionPattern, .functionFormat⟩ : HighlightingRule) ∈ highlightingRules := by
  rw [highlightingRules_eq]
  exact List.mem_append_right _ (by simp)

theorem numberRule_mem :
    (⟨numberPattern, .numberFormat⟩ : HighlightingRule) ∈ highlightingRules := by
  rw [highlightingRules_eq]
  exact List.mem_append_right _ (by simp)

/-- The class `[A-Za-z0-9_]` of the function pattern is the class of the word characters. -/
theorem classAt_identifier (text : Text) (j : Nat) :
    classAt text false [('A', 'Z'), ('a', 'z'), ('0', '9'), ('_', '_')] j = wordAt text j := by
  unfold classAt wordAt
  cases text.get? j with
  | none => rfl
  | some c =>
    simp only [inRanges, wordRanges, List.any_cons, List.any_nil, Bool.or_false]
    cases decide ('A'.toNat ≤ c.toNat) && decide (c.toNat ≤ 'Z'.toNat) <;>
      cases decide ('a'.toNat ≤ c.toNat) && decide (c.toNat ≤ 'z'.toNat) <;>
      cases decide ('0'.toNat ≤ c.toNat) && decide (c.toNat ≤ '9'.toNat) <;>
      cases decide ('_'.toNat ≤ c.toNat) && decide (c.toNat ≤ '_'.toNat) <;> rfl

theorem ends_lookahead (text : Text) (a : Regex) (i : Nat) :
    (Regex.lookahead a).ends text i = if (a.ends text i).isEmpty then [] else [i] := rfl

theorem ends_lookahead_chr (text : Text) (c : Char) (i : Nat) :
    (Regex.lookahead (.chr c)).ends text i = if text.get? i = some c then [i] else [] := by
  rw [ends_lookahead, ends_chr]
  by_cases h : text.get? i = some c
  · rw [if_pos h, if_pos h]
    rfl
  · rw [if_neg h, if_neg h]
    rfl

theorem not_paren_of_wordAt {text : Text} {j : Nat} (h : wordAt text j = true) :
    ¬ text.get? j = some '(' := by
  intro hp
  unfold wordAt at h
  rw [hp] at h
  revert h
  decide

/-- The ends of a match of `\b[A-Za-z0-9_]+(?=\()` at an offset from which exactly `k + 1`
word characters stand. -/
theorem ends_functionPattern_run (text : Text) (i k : Nat)
    (hrun : ∀ j, i ≤ j → j < i + (k + 1) → wordAt text j = true)
    (hend : wordAt text (i + (k + 1)) = false) :
    functionPattern.ends text i =
      if atWordBoundary text i && decide (text.get? (i + (k + 1)) = some '(')
      then [i + (k + 1)] else [] := by
  rw [functionPattern, ends_seq, ends_wordBoundary]
  by_cases h1 : atWordBoundary text i = true
  · rw [if_pos h1, List.flatMap_singleton, ends_seq, h1,
      ends_plus_cls text false _ i k
        (fun j hj1 hj2 => by rw [classAt_identifier]; exact hrun j hj1 hj2)
        (by rw [classAt_identifier]; exact hend)]
    have hf : ∀ j, i + 1 ≤ j → j < i + 1 + k →
        (Regex.lookahead (.chr '(')).ends text j = [] := by
      intro j hj1 hj2
      rw [ends_lookahead_chr, if_neg (not_paren_of_wordAt (hrun j (by omega) (by omega)))]
    rw [flatMap_top (fun j => (Regex.lookahead (.chr '(')).ends text j) (i + 1) k hf,
      ends_lookahead_chr]
    have htop : i + 1 + k = i + (k + 1) := by omega
    rw [htop]
    by_cases hp : text.get? (i + (k + 1)) = some '('
    · rw [if_pos hp, decide_eq_true hp]
      rfl
    · rw [if_neg hp, decide_eq_false hp]
      rfl
  · have h1' : atWordBoundary text i = false := Bool.eq_false_iff.mpr h1
    rw [h1']
    rfl

/-- Without a word character at the offset, the function pattern has no match at it. -/
theorem ends_functionPattern_none (text : Text) (i : Nat) (h : wordAt text i = false) :
    functionPattern.ends text i = [] := by
  rw [functionPattern, ends_seq, ends_wordBoundary]
  by_cases h1 : atWordBoundary text i = true
  · rw [if_pos h1, List.flatMap_singleton, ends_seq,
      ends_plus_cls_none text false _ i (by rw [classAt_identifier]; exact h)]
    rfl
  · rw [if_neg h1]
    rfl

/-- The match of the function pattern at an offset: word characters from a word boundary
up to the end `e` of the match, where `(` stands. -/
theorem matchAt_functionPattern_iff (text : Text) (i e : Nat) :
    functionPattern.matchAt text i = some e ↔
      atWordBoundary text i = true ∧ i < e ∧
        (∀ j, i ≤ j → j < e → wordAt text j = true) ∧ text.get? e = some '(' := by
  obtain ⟨k, hrun, hend⟩ :=
    classAt_run text false [('A', 'Z'), ('a', 'z'), ('0', '9'), ('_', '_')] i
  simp only [classAt_identifier] at hrun hend
  cases k with
  | zero =>
    rw [Nat.add_zero] at hend
    rw [Regex.matchAt, ends_functionPattern_none text i hend]
    constructor
    · intro h
      simp at h
    · rintro ⟨_, he, hword, _⟩
      have := hword i (le_refl _) he
      rw [hend] at this
      simp at this
  | succ k =>
    rw [Regex.matchAt, ends_functionPattern_run text i k hrun hend]
    constructor
    · intro h
      split at h
      · rename_i hcond
        simp only [Bool.and_eq_true, decide_eq_true_eq] at hcond
        simp only [List.head?_cons, Option.some.injEq] at h
        subst h
        exact ⟨hcond.1, by omega, hrun, hcond.2⟩
      · simp at h
    · rintro ⟨h1, he, hword, hp⟩
      have hee : e = i + (k + 1) := by
        rcases Nat.lt_trichotomy e (i + (k + 1)) with hlt | heq | hgt
        · exact absurd hp (not_paren_of_wordAt (hrun e (by omega) hlt))
        · exact heq
        · have := hword (i + (k + 1)) (by omega) hgt
          rw [hend] at this
          simp at this
      subst hee
      rw [h1, decide_eq_true hp]
      rfl

theorem functionPattern_separated (text : Text) :
    ∀ i e, functionPattern.matchAt text i = some e →
      ∀ j, i < j → j < e → functionPattern.matchAt text j = none := by
  apply separated_of_word_matches
  · intro i e he j hij hje
    exact ((matchAt_functionPattern_iff text i e).mp he).2.2.1 j hij hje
  · intro j e he
    exact ((matchAt_functionPattern_iff text j e).mp he).1

/-- C21. On a line entered in state `0` (Clear) the function-format calls of the run are
exactly the calls `(i, n)`, `n ≥ 1`, such that the characters at the offsets
`i, ..., i+n-1` are word characters (`[A-Za-z0-9_]`), no word character stands
immediately before offset `i`, and `(` stands at offset `i+n`: the call covers the
identifier and not the parenthesis, and an identifier not immediately followed by `(`
gets no call. The line `foo(x)` gets the one span FunctionCall `[0,3)`; the line `foo (x)`
gets no span. -/
theorem function_span_iff_identifier_before_paren (text : Text) (storedState : Int) :
    (∃ b, highlightBlock text (freshBlock 0 storedState) = some b ∧
      ∀ i n, ⟨i, n, .functionFormat⟩ ∈ b.formatCalls ↔
        1 ≤ n ∧ (∀ j, i ≤ j → j < i + n → wordAt text j = true) ∧
          wordBefore text i = false ∧ text.get? (i + n) = some '(') ∧
    (classify "foo(x)".toList 0).map (fun b => b.spans) = some [⟨0, 3, .functionFormat⟩] ∧
    (classify "foo (x)".toList 0).map (fun b => b.spans) = some [] := by
  refine ⟨?_, by decide, by decide⟩
  obtain ⟨b, hb⟩ := highlightBlock_returns text (freshBlock 0 storedState)
  refine ⟨b, hb, ?_⟩
  intro i n
  have hboundary : wordAt text i = true →
      (atWordBoundary text i = true ↔ wordBefore text i = false) := by
    intro hw
    rw [atWordBoundary_eq, hw]
    cases wordBefore text i <;> simp
  rw [mem_run_clear hb _ (by simp)]
  constructor
  · rintro ⟨rule, hr, hf, hc⟩
    obtain rfl := (rule_of_format' hr).1 hf
    obtain ⟨_, _, e, he, hn⟩ :=
      (mem_ruleCalls_iff _ _ _ (functionPattern_separated text) _).mp hc
    obtain ⟨h1, hlt, hword, hp⟩ := (matchAt_functionPattern_iff text i e).mp he
    simp only at hn
    have hie : i + n = e := by omega
    rw [hie]
    exact ⟨by omega, hword, (hboundary (hword i (le_refl _) hlt)).mp h1, hp⟩
  · rintro ⟨hn, hword, hbefore, hp⟩
    refine ⟨_, functionRule_mem, rfl, ?_⟩
    rw [mem_ruleCalls_iff _ _ _ (functionPattern_separated text)]
    have hlt := (List.get?_eq_some.mp hp).1
    refine ⟨rfl, by simp only; omega, i + n, ?_, by simp⟩
    exact (matchAt_functionPattern_iff text i (i + n)).mpr
      ⟨(hboundary (hword i (le_refl _) (by omega))).mpr hbefore, by omega, hword, hp⟩

/-! ## The number rule -/

theorem digit_isWord (c : Char) (h : (inRanges [('0', '9')] c != false) = true) :
    inRanges wordRanges c = true := by
  simp only [inRanges, wordRanges, List.any_cons, List.any_nil, Bool.or_false, bne_iff_ne,
    ne_eq, Bool.not_eq_false, Bool.or_eq_true, Bool.and_eq_true, decide_eq_true_eq] at h ⊢
  exact Or.inr (Or.inr (Or.inl h))

theorem wordAt_of_digitAt {text : Text} {j : Nat} (h : digitAt text j = true) :
    wordAt text j = true := by
  unfold digitAt classAt at h
  cases hg : text.get? j with
  | none => rw [hg] at h; simp at h
  | some c =>
    rw [hg] at h
    exact wordAt_of_get? hg (digit_isWord c h)

theorem not_digitAt_of_not_wordAt {text : Text} {j : Nat} (h : wordAt text j = false) :
    digitAt text j = false := by
  cases hd : digitAt text j with
  | false => rfl
  | true => rw [wordAt_of_digitAt hd] at h; exact absurd h (by decide)

theorem not_dot_of_wordAt {text : Text} {j : Nat} (h : wordAt text j = true) :
    ¬ text.get? j = some '.' := by
  intro hp
  unfold wordAt at h
  rw [hp] at h
  revert h
  decide

theorem not_digitAt_of_dot {text : Text} {j : Nat} (h : text.get? j = some '.') :
    digitAt text j = false := by
  cases hd : digitAt text j with
  | false => rfl
  | true => exact absurd h (not_dot_of_wordAt (wordAt_of_digitAt hd))

theorem letterOrUnderscore_isWord (c : Char)
    (h : (inRanges [('A', 'Z'), ('a', 'z'), ('_', '_')] c != false) = true) :
    inRanges wordRanges c = true ∧ (inRanges [('0', '9')] c != false) = false := by
  have h0 : '0'.toNat = 48 := rfl
  have h9 : '9'.toNat = 57 := rfl
  have hA : 'A'.toNat = 65 := rfl
  have hZ : 'Z'.toNat = 90 := rfl
  have ha : 'a'.toNat = 97 := rfl
  have hz : 'z'.toNat = 122 := rfl
  have hu : '_'.toNat = 95 := rfl
  simp only [inRanges, wordRanges, List.any_cons, List.any_nil, Bool.or_false, bne_iff_ne,
    ne_eq, Bool.not_eq_false, Bool.or_eq_true, Bool.and_eq_true, decide_eq_true_eq,
    Bool.not_eq_true, Bool.and_eq_false_imp, decide_eq_false_iff_not,
    h0, h9, hA, hZ, ha, hz, hu] at h ⊢
  refine ⟨by omega, ?_⟩
  cases hd : decide (c.toNat ≤ 57) with
  | false => simp
  | true =>
    have h57 : c.toNat ≤ 57 := of_decide_eq_true hd
    omega

theorem letterOrUnderscoreAt_spec {text : Text} {j : Nat}
    (h : letterOrUnderscoreAt text j = true) :
    wordAt text j = true ∧ digitAt text j = false ∧ ¬ text.get? j = some '.' := by
  unfold letterOrUnderscoreAt classAt at h
  cases hg : text.get? j with
  | none => rw [hg] at h; simp at h
  | some c =>
    rw [hg] at h
    have hw := wordAt_of_get? hg (letterOrUnderscore_isWord c h).1
    refine ⟨hw, ?_, by rw [← hg]; exact not_dot_of_wordAt hw⟩
    unfold digitAt classAt
    rw [hg]
    exact (letterOrUnderscore_isWord c h).2

theorem ends_opt (text : Text) (a : Regex) (i : Nat) :
    (Regex.opt a).ends text i = a.ends text i ++ [i] := rfl

/-- Every end of `[...]*` from offset `i` lies after a run of characters of the class. -/
theorem mem_ends_star_cls {text : Text} {negated : Bool} {ranges : List (Char × Char)}
    {i j : Nat} (h : j ∈ (Regex.star (.cls negated ranges)).ends text i) :
    i ≤ j ∧ ∀ k, i ≤ k → k < j → classAt text negated ranges k = true := by
  obtain ⟨k0, hrun, hend⟩ := classAt_run text negated ranges i
  rw [ends_star_cls text negated ranges i k0 hrun hend, List.mem_reverse,
    List.mem_range'_1] at h
  exact ⟨h.1, fun k h1 h2 => hrun k h1 (by omega)⟩

/-- Every end of `[...]+` from offset `i` lies after a non-empty run of characters of the
class. -/
theorem mem_ends_plus_cls {text : Text} {negated : Bool} {ranges : List (Char × Char)}
    {i j : Nat} (h : j ∈ (Regex.plus (.cls negated ranges)).ends text i) :
    i < j ∧ ∀ k, i ≤ k → k < j → classAt text negated ranges k = true := by
  obtain ⟨k0, hrun, hend⟩ := classAt_run text negated ranges i
  cases k0 with
  | zero =>
    rw [Nat.add_zero] at hend
    rw [ends_plus_cls_none text negated ranges i hend] at h
    simp at h
  | succ k0 =>
    rw [ends_plus_cls text negated ranges i k0 hrun hend, List.mem_reverse,
      List.mem_range'_1] at h
    exact ⟨by omega, fun k h1 h2 => hrun k h1 (by omega)⟩

/-- The shape of a match of `\b[0-9]+\.?[0-9]*\b`: it starts with a digit at a word
boundary, ends at a word boundary and consists of digits and `.` only, with at most one
offset `d` that holds no digit. -/
theorem mem_ends_numberPattern {text : Text} {s t : Nat}
    (h : t ∈ numberPattern.ends text s) :
    atWordBoundary text s = true ∧ atWordBoundary text t = true ∧ s < t ∧
      digitAt text s = true ∧
      (∀ j, s ≤ j → j < t → digitAt text j = true ∨ text.get? j = some '.') ∧
      ∃ d, ∀ j, s ≤ j → j < t → j ≠ d → digitAt text j = true := by
  rw [numberPattern, digit, ends_seq, List.mem_flatMap] at h
  obtain ⟨s', hs', h⟩ := h
  rw [ends_wordBoundary] at hs'
  by_cases hbs : atWordBoundary text s = true
  · rw [if_pos hbs, List.mem_singleton] at hs'
    subst hs'
    rw [ends_seq, List.mem_flatMap] at h
    obtain ⟨d1, hd1, h⟩ := h
    obtain ⟨hsd1, hrun1⟩ := mem_ends_plus_cls hd1
    rw [ends_seq, List.mem_flatMap] at h
    obtain ⟨d2, hd2, h⟩ := h
    rw [ends_seq, List.mem_flatMap] at h
    obtain ⟨t', ht', h⟩ := h
    obtain ⟨hd2t, hrun2⟩ := mem_ends_star_cls ht'
    rw [ends_wordBoundary] at h
    by_cases hbt : atWordBoundary text t' = true
    · rw [if_pos hbt, List.mem_singleton] at h
      subst h
      refine ⟨hbs, hbt, ?_, hrun1 s' (le_refl _) hsd1, ?_, d1, ?_⟩
      · rw [ends_opt, ends_chr, List.mem_append, List.mem_singleton] at hd2
        rcases hd2 with hd2 | hd2
        · split at hd2
          · rw [List.mem_singleton] at hd2
            omega
          · simp at hd2
        · omega
      · intro j hj1 hj2
        rw [ends_opt, ends_chr, List.mem_append, List.mem_singleton] at hd2
        by_cases hj : j < d1
        · exact Or.inl (hrun1 j hj1 hj)
        · rcases hd2 with hd2 | hd2
          · split at hd2
            · rename_i hdot
              rw [List.mem_singleton] at hd2
              by_cases hjd : j = d1
              · rw [hjd]
                exact Or.inr hdot
              · exact Or.inl (hrun2 j (by omega) hj2)
            · simp at hd2
          · exact Or.inl (hrun2 j (by omega) hj2)
      · intro j hj1 hj2 hjd
        rw [ends_opt, ends_chr, List.mem_append, List.mem_singleton] at hd2
        by_cases hj : j < d1
        · exact hrun1 j hj1 hj
        · rcases hd2 with hd2 | hd2
          · split at hd2
            · rw [List.mem_singleton] at hd2
              exact hrun2 j (by omega) hj2
            · simp at hd2
          · exact hrun2 j (by omega) hj2
    · rw [if_neg hbt] at h
      simp at h
  · rw [if_neg hbs] at hs'
    simp at hs'

theorem head?_flatMap_of_head {α β : Type} {l : List α} {f : α → List β} {x : α} {y : β}
    (hl : l.head? = some x) (hf : (f x).head? = some y) : (l.flatMap f).head? = some y := by
  cases l with
  | nil => simp at hl
  | cons a as =>
    simp only [List.head?_cons, Option.some.injEq] at hl
    subst hl
    rw [List.flatMap_cons]
    cases hfa : f a with
    | nil => rw [hfa] at hf; simp at hf
    | cons b bs => rw [hfa] at hf; simpa using hf

theorem wordBefore_of_digitAt {text : Text} {e : Nat} (he : 0 < e)
    (h : ∀ j, j + 1 = e → digitAt text j = true) : wordBefore text e = true := by
  cases e with
  | zero => omega
  | succ j => exact wordAt_of_digitAt (h j rfl)

/-- The match of the number pattern at the start of a literal: digits from `i` to `m`,
then either nothing (`e = m`, no `.` at `m`) or `.` and digits up to `e`; no word
character before `i` or at `e`. -/
theorem matchAt_numberPattern_literal (text : Text) (i m e : Nat) (him : i < m)
    (hint : ∀ j, i ≤ j → j < m → digitAt text j = true)
    (hfrac : (e = m ∧ text.get? m ≠ some '.') ∨
      (text.get? m = some '.' ∧ m + 1 < e ∧ ∀ j, m + 1 ≤ j → j < e → digitAt text j = true))
    (hleft : wordBefore text i = false) (hright : wordAt text e = false) :
    numberPattern.matchAt text i = some e := by
  have hbi : atWordBoundary text i = true := by
    rw [atWordBoundary_eq, hleft, wordAt_of_digitAt (hint i (le_refl _) him)]
    rfl
  have hbe : atWordBoundary text e = true := by
    have hwb : wordBefore text e = true := by
      apply wordBefore_of_digitAt
      · rcases hfrac with ⟨rfl, _⟩ | ⟨_, h, _⟩ <;> omega
      · intro j hj
        rcases hfrac with ⟨rfl, _⟩ | ⟨_, h1, h2⟩
        · exact hint j (by omega) (by omega)
        · exact h2 j (by omega) (by omega)
    rw [atWordBoundary_eq, hwb, hright]
    rfl
  have hme : digitAt text e = false := not_digitAt_of_not_wordAt hright
  have hm : digitAt text m = false := by
    rcases hfrac with ⟨rfl, _⟩ | ⟨h, _, _⟩
    · exact hme
    · exact not_digitAt_of_dot h
  obtain ⟨k, rfl⟩ : ∃ k, m = i + (k + 1) := ⟨m - i - 1, by omega⟩
  unfold Regex.matchAt
  rw [numberPattern, digit, ends_seq, ends_wordBoundary, if_pos hbi, List.flatMap_singleton,
    ends_seq, ends_plus_cls text false _ i k hint hm, range'_reverse_top]
  have htop : i + 1 + k = i + (k + 1) := by omega
  rw [htop]
  refine head?_flatMap_of_head (List.head?_cons) ?_
  rw [ends_seq]
  rcases hfrac with ⟨rfl, hdot⟩ | ⟨hdot, hlt, hrun⟩
  · refine head?_flatMap_of_head (x := i + (k + 1)) ?_ ?_
    · rw [ends_opt, ends_chr, if_neg hdot]
      rfl
    · rw [ends_seq, ends_star_cls text false _ (i + (k + 1)) 0
        (fun j h1 h2 => by omega) hm]
      refine head?_flatMap_of_head (x := i + (k + 1)) rfl ?_
      rw [ends_wordBoundary, if_pos hbe]
      rfl
  · refine head?_flatMap_of_head (x := i + (k + 1) + 1) ?_ ?_
    · rw [ends_opt, ends_chr, if_pos hdot]
      rfl
    · obtain ⟨k2, rfl⟩ : ∃ k2, e = i + (k + 1) + 1 + k2 := ⟨e - (i + (k + 1) + 1), by omega⟩
      rw [ends_seq, ends_star_cls text false _ (i + (k + 1) + 1) k2 hrun hme,
        range'_reverse_top]
      refine head?_flatMap_of_head (List.head?_cons) ?_
      rw [ends_wordBoundary, if_pos hbe]
      rfl

/-- A match is reported when every match that starts at an earlier offset ends before
its start. -/
theorem globalMatchAux_reports (re : Regex) (text : Text) (p e : Nat)
    (hp : re.matchAt text p = some e)
    (hbefore : ∀ s t, s < p → re.matchAt text s = some t → t ≤ p) :
    ∀ (l : List Nat) (next : Nat), l.Pairwise (fun a b => a < b) → p ∈ l → next ≤ p →
      (p, e - p) ∈ globalMatchAux re text l next
  | [], _, _, hmem, _ => by simp at hmem
  | i :: rest, next, hl, hmem, hnext => by
    obtain ⟨hlt, hrest⟩ := List.pairwise_cons.mp hl
    rw [globalMatchAux_cons]
    rcases List.mem_cons.mp hmem with rfl | hmem'
    · rw [if_neg (by omega), hp]
      exact List.mem_cons_self _ _
    · have hip := hlt p hmem'
      by_cases hin : i < next
      · rw [if_pos hin]
        exact globalMatchAux_reports re text p e hp hbefore rest next hrest hmem' hnext
      · rw [if_neg hin]
        cases hm : re.matchAt text i with
        | none => exact globalMatchAux_reports re text p e hp hbefore rest next hrest hmem' hnext
        | some t =>
          have ht := hbefore i t hip hm
          refine List.mem_cons_of_mem _ ?_
          apply globalMatchAux_reports re text p e hp hbefore rest _ hrest hmem'
          split <;> omega

/-- Reported matches start at or after the offset from which the search goes on. -/
theorem globalMatchAux_from (re : Regex) (text : Text) :
    ∀ (l : List Nat) (next : Nat), l.Pairwise (fun a b => a < b) →
      ∀ m ∈ globalMatchAux re text l next, next ≤ m.1
  | [], _, _, m, h => by simp [globalMatchAux] at h
  | i :: rest, next, hl, m, h => by
    obtain ⟨hlt, hrest⟩ := List.pairwise_cons.mp hl
    rw [globalMatchAux_cons] at h
    by_cases hin : i < next
    · rw [if_pos hin] at h
      exact globalMatchAux_from re text rest next hrest m h
    · rw [if_neg hin] at h
      cases hm : re.matchAt text i with
      | none =>
        rw [hm] at h
        exact globalMatchAux_from re text rest next hrest m h
      | some t =>
        rw [hm] at h
        rcases List.mem_cons.mp h with rfl | h
        · simp only
          omega
        · have := hlt m.1 (globalMatchAux_sound re text rest _ m.1 m.2 h).1
          omega

/-- Reported matches do not overlap: each starts where the one before it has ended. -/
theorem globalMatchAux_disjoint (re : Regex) (text : Text) :
    ∀ (l : List Nat) (next : Nat), l.Pairwise (fun a b => a < b) →
      (globalMatchAux re text l next).Pairwise (fun a b => a.1 + a.2 ≤ b.1)
  | [], _, _ => by simp [globalMatchAux]
  | i :: rest, next, hl => by
    obtain ⟨hlt, hrest⟩ := List.pairwise_cons.mp hl
    rw [globalMatchAux_cons]
    by_cases hin : i < next
    · rw [if_pos hin]
      exact globalMatchAux_disjoint re text rest next hrest
    · rw [if_neg hin]
      cases hm : re.matchAt text i with
      | none => exact globalMatchAux_disjoint re text rest next hrest
      | some t =>
        refine List.pairwise_cons.mpr ⟨?_, globalMatchAux_disjoint re text rest _ hrest⟩
        intro m hmem
        have h1 := globalMatchAux_from re text rest _ hrest m hmem
        have h2 := hlt m.1 (globalMatchAux_sound re text rest _ m.1 m.2 hmem).1
        simp only
        split at h1 <;> omega

/-- Two calls of one rule are equal or cover disjoint ranges. -/
theorem ruleCalls_disjoint {text : Text} {rule : HighlightingRule} {c d : FormatCall}
    (hc : c ∈ ruleCalls text rule) (hd : d ∈ ruleCalls text rule) :
    c = d ∨ c.start + c.count ≤ d.start ∨ d.start + d.count ≤ c.start := by
  have hp := globalMatchAux_disjoint rule.pattern text (List.range (text.length + 1)) 0
    (range_pairwise_lt _)
  have hall := List.Pairwise.forall_of_forall
    (R := fun a b : Nat × Nat => a = b ∨ a.1 + a.2 ≤ b.1 ∨ b.1 + b.2 ≤ a.1)
    (fun x y h => by
      rcases h with h | h | h
      · exact Or.inl h.symm
      · exact Or.inr (Or.inr h)
      · exact Or.inr (Or.inl h))
    (fun x _ => Or.inl rfl) (hp.imp (fun h => Or.inr (Or.inl h)))
  unfold ruleCalls at hc hd
  obtain ⟨mc, hmc, rfl⟩ := List.mem_map.mp hc
  obtain ⟨md, hmd, rfl⟩ := List.mem_map.mp hd
  rcases hall hmc hmd with h | h | h
  · exact Or.inl (by rw [h])
  · exact Or.inr (Or.inl h)
  · exact Or.inr (Or.inr h)

/-- A candidate offset with a match is reported, or lies inside a reported match that
starts before it. -/
theorem globalMatchAux_covered (re : Regex) (text : Text) (p e : Nat)
    (hp : re.matchAt text p = some e) :
    ∀ (l : List Nat) (next : Nat), l.Pairwise (fun a b => a < b) → p ∈ l → next ≤ p →
      (p, e - p) ∈ globalMatchAux re text l next ∨
        ∃ m ∈ globalMatchAux re text l next, m.1 < p ∧ p < m.1 + m.2
  | [], _, _, hmem, _ => by simp at hmem
  | i :: rest, next, hl, hmem, hnext => by
    obtain ⟨hlt, hrest⟩ := List.pairwise_cons.mp hl
    rw [globalMatchAux_cons]
    rcases List.mem_cons.mp hmem with rfl | hmem'
    · rw [if_neg (by omega), hp]
      exact Or.inl (List.mem_cons_self _ _)
    · have hip := hlt p hmem'
      by_cases hin : i < next
      · rw [if_pos hin]
        exact globalMatchAux_covered re text p e hp rest next hrest hmem' hnext
      · rw [if_neg hin]
        cases hm : re.matchAt text i with
        | none => exact globalMatchAux_covered re text p e hp rest next hrest hmem' hnext
        | some t =>
          by_cases hnext' : (if t = i then i + 1 else t) ≤ p
          · rcases globalMatchAux_covered re text p e hp rest _ hrest hmem' hnext' with
              h | ⟨m, hm1, hm2⟩
            · exact Or.inl (List.mem_cons_of_mem _ h)
            · exact Or.inr ⟨m, List.mem_cons_of_mem _ hm1, hm2⟩
          · refine Or.inr ⟨(i, t - i), List.mem_cons_self _ _, hip, ?_⟩
            simp only
            split at hnext' <;> omega

/-- A run of digits from `i` to `e` with no word character before or after it: the
number pattern matches at `i`, up to `e` or farther, and up to `e` when no `.` stands
at `e`. -/
theorem number_match_of_digits (text : Text) (i e : Nat) (hie : i < e)
    (hint : ∀ j, i ≤ j → j < e → digitAt text j = true)
    (hleft : wordBefore text i = false) (hright : wordAt text e = false) :
    ∃ t, numberPattern.matchAt text i = some t ∧ e ≤ t ∧
      (text.get? e ≠ some '.' → t = e) := by
  have hbi : atWordBoundary text i = true := by
    rw [atWordBoundary_eq, hleft, wordAt_of_digitAt (hint i (le_refl _) hie)]
    rfl
  have hbe : atWordBoundary text e = true := by
    rw [atWordBoundary_eq, hright,
      wordBefore_of_digitAt (by omega) (fun j hj => hint j (by omega) (by omega))]
    rfl
  have hme : digitAt text e = false := not_digitAt_of_not_wordAt hright
  have hmem : e ∈ numberPattern.ends text i := by
    obtain ⟨k, rfl⟩ : ∃ k, e = i + (k + 1) := ⟨e - i - 1, by omega⟩
    rw [numberPattern, digit, ends_seq, ends_wordBoundary, if_pos hbi,
      List.flatMap_singleton, ends_seq]
    refine List.mem_flatMap.mpr ⟨i + (k + 1), ?_, ?_⟩
    · rw [ends_plus_cls text false _ i k hint hme, List.mem_reverse, List.mem_range'_1]
      omega
    · rw [ends_seq]
      refine List.mem_flatMap.mpr ⟨i + (k + 1), ?_, ?_⟩
      · rw [ends_opt]
        exact List.mem_append_right _ (List.mem_singleton_self _)
      · rw [ends_seq, ends_star_cls text false _ (i + (k + 1)) 0
          (fun j h1 h2 => by omega) hme]
        refine List.mem_flatMap.mpr ⟨i + (k + 1), ?_, ?_⟩
        · rw [List.mem_reverse, List.mem_range'_1]
          omega
        · rw [ends_wordBoundary, if_pos hbe]
          exact List.mem_singleton_self _
  cases hends : numberPattern.ends text i with
  | nil => rw [hends] at hmem; simp at hmem
  | cons t rest =>
    have hhead : numberPattern.matchAt text i = some t := by
      rw [Regex.matchAt, hends]
      rfl
    refine ⟨t, hhead, ?_, ?_⟩
    · have ht : t ∈ numberPattern.ends text i := by
        rw [hends]
        exact List.mem_cons_self _ _
      obtain ⟨_, hbt, hit, _, _, _⟩ := mem_ends_numberPattern ht
      by_contra hlt
      obtain ⟨t', rfl⟩ : ∃ t', t = t' + 1 := ⟨t - 1, by omega⟩
      rw [atWordBoundary_eq, wordBefore_succ,
        wordAt_of_digitAt (hint t' (by omega) (by omega)),
        wordAt_of_digitAt (hint (t' + 1) (by omega) (by omega))] at hbt
      exact absurd hbt (by decide)
    · intro hdot
      have := matchAt_numberPattern_literal text i e e hie hint (Or.inl ⟨rfl, hdot⟩)
        hleft hright
      rw [hhead] at this
      exact Option.some.inj this

/-- A match of the number pattern that starts before `i` and ends after it, when no word
character stands before `i`: `.` stands right before `i`, digits stand from the start of
the match to that `.` and from `i` to the end of the match. -/
theorem number_match_across {text : Text} {s t i : Nat}
    (hmatch : numberPattern.matchAt text s = some t) (hsi : s < i) (hit : i < t)
    (hleft : wordBefore text i = false) :
    ∃ k, k + 1 = i ∧ text.get? k = some '.' ∧ s < k ∧ wordBefore text s = false ∧
      (∀ j, s ≤ j → j < k → digitAt text j = true) ∧
      (∀ j, i ≤ j → j < t → digitAt text j = true) := by
  obtain ⟨hbs, _, _, hds, hchars, d, hd⟩ := mem_ends_numberPattern (List.mem_of_mem_head? hmatch)
  obtain ⟨k, rfl⟩ : ∃ k, i = k + 1 := ⟨i - 1, by omega⟩
  have hkw : wordAt text k = false := by
    rw [wordBefore_succ] at hleft
    exact hleft
  have hkd : digitAt text k = false := not_digitAt_of_not_wordAt hkw
  have hdot : text.get? k = some '.' := by
    rcases hchars k (by omega) (by omega) with h | h
    · rw [h] at hkd
      exact absurd hkd (by decide)
    · exact h
  have hdk : k = d := by
    by_contra hne
    rw [hd k (by omega) (by omega) hne] at hkd
    exact absurd hkd (by decide)
  subst hdk
  have hsk : s ≠ k := by
    intro h
    rw [h, hkd] at hds
    exact absurd hds (by decide)
  have hws : wordBefore text s = false := by
    rw [atWordBoundary_eq, wordAt_of_digitAt hds] at hbs
    cases hb : wordBefore text s with
    | false => rfl
    | true => rw [hb] at hbs; exact absurd hbs (by decide)
  exact ⟨k, rfl, hdot, by omega, hws, fun j h1 h2 => hd j h1 (by omega) (by omega),
    fun j h1 h2 => hd j (by omega) h2 (by omega)⟩

/-- The call of the number rule for a literal: digits from `i` to `m`, then either nothing
or `.` and digits up to `e`, with no word character and no `.` right before `i` and no word
character at `e`. -/
theorem number_call_of_literal (text : Text) (i m e : Nat) (him : i < m)
    (hint : ∀ j, i ≤ j → j < m → digitAt text j = true)
    (hfrac : (e = m ∧ text.get? m ≠ some '.') ∨
      (text.get? m = some '.' ∧ m + 1 < e ∧ ∀ j, m + 1 ≤ j → j < e → digitAt text j = true))
    (hleft : wordBefore text i = false) (hnodot : ∀ k, k + 1 = i → text.get? k ≠ some '.')
    (hright : wordAt text e = false) :
    ⟨i, e - i, .numberFormat⟩ ∈ ruleCalls text ⟨numberPattern, .numberFormat⟩ := by
  have hmatch := matchAt_numberPattern_literal text i m e him hint hfrac hleft hright
  have hlen : i < text.length := classAt_lt (hint i (le_refl _) him)
  unfold ruleCalls globalMatch
  refine List.mem_map.mpr ⟨(i, e - i), ?_, rfl⟩
  apply globalMatchAux_reports _ _ i e hmatch _ _ 0 (range_pairwise_lt _)
    (List.mem_range.mpr (by omega)) (Nat.zero_le _)
  intro s t hs hst
  obtain ⟨_, _, _, _, hchars, _⟩ := mem_ends_numberPattern (List.mem_of_mem_head? hst)
  by_contra hti
  obtain ⟨k, rfl⟩ : ∃ k, i = k + 1 := ⟨i - 1, by omega⟩
  rcases hchars k (by omega) (by omega) with hd | hd
  · rw [wordBefore_succ, wordAt_of_digitAt hd] at hleft
    exact absurd hleft (by decide)
  · exact hnodot k rfl hd

/-- An offset at which the pattern of a rule matches holds the start of a call of the rule
or lies inside a call of the rule that starts before it. -/
theorem ruleCalls_covered (rule : HighlightingRule) {text : Text} {p e : Nat}
    (hp : rule.pattern.matchAt text p = some e) (hlen : p ≤ text.length) :
    ⟨p, e - p, rule.format⟩ ∈ ruleCalls text rule ∨
      ∃ s n, ⟨s, n, rule.format⟩ ∈ ruleCalls text rule ∧ s < p ∧ p < s + n := by
  unfold ruleCalls globalMatch
  rcases globalMatchAux_covered rule.pattern text p e hp _ 0 (range_pairwise_lt _)
    (List.mem_range.mpr (Nat.lt_succ_of_le hlen)) (Nat.zero_le _) with h | ⟨m, hm, h1, h2⟩
  · exact Or.inl (List.mem_map.mpr ⟨(p, e - p), h, rfl⟩)
  · exact Or.inr ⟨m.1, m.2, List.mem_map.mpr ⟨m, hm, rfl⟩, h1, h2⟩

/-- A run of digits from `i` to `e` with no word character before or after it lies within
a call of the number rule; the call starts at `i` when no `.` stands right before `i` and
ends at `e` when no `.` stands at `e`. -/
theorem number_call_covers_digits (text : Text) (i e : Nat) (hie : i < e)
    (hint : ∀ j, i ≤ j → j < e → digitAt text j = true)
    (hleft : wordBefore text i = false) (hright : wordAt text e = false) :
    ∃ s n, ⟨s, n, .numberFormat⟩ ∈ ruleCalls text ⟨numberPattern, .numberFormat⟩ ∧
      s ≤ i ∧ e ≤ s + n ∧
      ((∀ k, k + 1 = i → text.get? k ≠ some '.') → s = i) ∧
      (text.get? e ≠ some '.' → s + n = e) := by
  obtain ⟨t, hmatch, het, hexact⟩ := number_match_of_digits text i e hie hint hleft hright
  have hlen : i < text.length := classAt_lt (hint i (le_refl _) hie)
  rcases ruleCalls_covered ⟨numberPattern, .numberFormat⟩ hmatch (by omega) with
    h | ⟨s, n, hcall, hsi, hin⟩
  · exact ⟨i, t - i, h, le_refl _, by omega, fun _ => rfl, fun hdot => by
      have := hexact hdot
      omega⟩
  · obtain ⟨_, _, t', hst, hn⟩ := mem_ruleCalls hcall
    simp only at hst hn
    obtain ⟨k, hk, hdot, hsk, hws, hrun1, _⟩ := number_match_across hst hsi (by omega) hleft
    subst hk
    have := matchAt_numberPattern_literal text s k e hsk hrun1
      (Or.inr ⟨hdot, by omega, fun j h1 h2 => hint j (by omega) h2⟩) hws hright
    rw [hst] at this
    obtain rfl := Option.some.inj this
    exact ⟨s, n, hcall, by omega, by omega, fun h => absurd hdot (h k rfl), fun _ => by omega⟩

/-- A literal with a fractional part, digits from `i` to `m`, `.` at `m` and digits from
`m + 1` to `e`, with no word character before or after it: the number rule makes the call
`(i, e - i)` exactly when no call of the rule starts before `i` and ends after it, any
call that covers the literal is that call, and a call that starts before `i` and ends
after it needs `.` right before `i` and a digit before that. -/
theorem number_call_of_fraction (text : Text) (i m e : Nat) (him : i < m)
    (hint : ∀ j, i ≤ j → j < m → digitAt text j = true) (hdot : text.get? m = some '.')
    (hme : m + 1 < e) (hfrac : ∀ j, m + 1 ≤ j → j < e → digitAt text j = true)
    (hleft : wordBefore text i = false) (hright : wordAt text e = false) :
    (⟨i, e - i, .numberFormat⟩ ∈ ruleCalls text ⟨numberPattern, .numberFormat⟩ ↔
      ¬ ∃ s n, ⟨s, n, .numberFormat⟩ ∈ ruleCalls text ⟨numberPattern, .numberFormat⟩ ∧
        s < i ∧ i < s + n) ∧
    ((∃ s n, ⟨s, n, .numberFormat⟩ ∈ ruleCalls text ⟨numberPattern, .numberFormat⟩ ∧
        s ≤ i ∧ e ≤ s + n) ↔
      ⟨i, e - i, .numberFormat⟩ ∈ ruleCalls text ⟨numberPattern, .numberFormat⟩) ∧
    ((∀ k, k + 2 = i → text.get? (k + 1) = some '.' → digitAt text k = false) →
      ⟨i, e - i, .numberFormat⟩ ∈ ruleCalls text ⟨numberPattern, .numberFormat⟩) := by
  have hmatch := matchAt_numberPattern_literal text i m e him hint
    (Or.inr ⟨hdot, hme, hfrac⟩) hleft hright
  have hlen : i < text.length := classAt_lt (hint i (le_refl _) him)
  have hiff : ⟨i, e - i, .numberFormat⟩ ∈ ruleCalls text ⟨numberPattern, .numberFormat⟩ ↔
      ¬ ∃ s n, ⟨s, n, .numberFormat⟩ ∈ ruleCalls text ⟨numberPattern, .numberFormat⟩ ∧
        s < i ∧ i < s + n := by
    constructor
    · rintro hcall ⟨s, n, hsn, hsi, hin⟩
      rcases ruleCalls_disjoint hcall hsn with h | h | h
      · simp only [FormatCall.mk.injEq, and_true] at h
        omega
      · simp only at h
        omega
      · simp only at h
        omega
    · intro hno
      rcases ruleCalls_covered ⟨numberPattern, .numberFormat⟩ hmatch (by omega)
        with h | h
      · exact h
      · exact absurd h hno
  refine ⟨hiff, ⟨?_, fun h => ⟨i, e - i, h, le_refl _, by omega⟩⟩, ?_⟩
  · rintro ⟨s, n, hcall, hsi, hen⟩
    obtain ⟨_, _, t, hst, hn⟩ := mem_ruleCalls hcall
    simp only at hst hn
    rcases Nat.lt_or_ge s i with hlt | hge
    · obtain ⟨_, _, _, _, _, _, hrun2⟩ := number_match_across hst hlt (by omega) hleft
      have := hrun2 m (by omega) (by omega)
      rw [not_digitAt_of_dot hdot] at this
      exact absurd this (by decide)
    · obtain rfl : s = i := by omega
      rw [hmatch] at hst
      obtain rfl := Option.some.inj hst
      rw [hn] at hcall
      exact hcall
  · intro hlocal
    rw [hiff]
    rintro ⟨s, n, hcall, hsi, hin⟩
    obtain ⟨_, _, t, hst, hn⟩ := mem_ruleCalls hcall
    simp only at hst hn
    obtain ⟨k, hk, hkdot, hsk, _, hrun1, _⟩ := number_match_across hst hsi (by omega) hleft
    obtain ⟨k', rfl⟩ : ∃ k', k = k' + 1 := ⟨k - 1, by omega⟩
    have := hlocal k' (by omega) hkdot
    rw [hrun1 k' (by omega) (by omega)] at this
    exact absurd this (by decide)

/-- C22 (as amended). On a line entered in state `0` (Clear): a run of digits at the
offsets `i, ..., e-1` with no word character immediately before `i` or at `e` lies within
exactly one number-format call, the only one that meets it; the call starts at `i` when no
`.` stands right before `i` and ends at `e` when no `.` stands at `e`. A literal with a
fractional part, digits at `i, ..., m-1`, `.` at `m` and digits at `m+1, ..., e-1`, with no
word character immediately before `i` or at `e`, gets the number-format call `(i, e - i)`,
which is then the only one that meets it, exactly when no number-format call starts before
`i` and ends after it; a call that covers the literal is always that call; and such an
earlier call needs `.` right before `i` and a digit before that `.`. A number-format call
never meets a run of digits `[a, z)` that has a letter or an underscore immediately before
or after it. The line `x = 3.14;` gets the one span Number `[4,8)`, the lines `.5`, `5.`
and `x1.5` get exactly the span of the digit run that stands alone, and the lines `x5`,
`5x` and `1e5` get no span. -/
theorem number_span_of_delimited_literal (text : Text) (storedState : Int) :
    (∃ b, highlightBlock text (freshBlock 0 storedState) = some b ∧
      (∀ i e, i < e → (∀ j, i ≤ j → j < e → digitAt text j = true) →
        wordBefore text i = false → wordAt text e = false →
        ∃ s n, ⟨s, n, .numberFormat⟩ ∈ b.formatCalls ∧ s ≤ i ∧ e ≤ s + n ∧
          (∀ s' n', ⟨s', n', .numberFormat⟩ ∈ b.formatCalls → s' < e → i < s' + n' →
            s' = s ∧ n' = n) ∧
          ((∀ k, k + 1 = i → text.get? k ≠ some '.') → s = i) ∧
          (text.get? e ≠ some '.' → s + n = e)) ∧
      (∀ i m e, i < m → (∀ j, i ≤ j → j < m → digitAt text j = true) →
        text.get? m = some '.' → m + 1 < e →
        (∀ j, m + 1 ≤ j → j < e → digitAt text j = true) →
        wordBefore text i = false → wordAt text e = false →
        (⟨i, e - i, .numberFormat⟩ ∈ b.formatCalls ↔
          ¬ ∃ s n, ⟨s, n, .numberFormat⟩ ∈ b.formatCalls ∧ s < i ∧ i < s + n) ∧
        ((∃ s n, ⟨s, n, .numberFormat⟩ ∈ b.formatCalls ∧ s ≤ i ∧ e ≤ s + n) ↔
          ⟨i, e - i, .numberFormat⟩ ∈ b.formatCalls) ∧
        (⟨i, e - i, .numberFormat⟩ ∈ b.formatCalls →
          ∀ s n, ⟨s, n, .numberFormat⟩ ∈ b.formatCalls → s < e → i < s + n →
            s = i ∧ n = e - i) ∧
        ((∀ k, k + 2 = i → text.get? (k + 1) = some '.' → digitAt text k = false) →
          ⟨i, e - i, .numberFormat⟩ ∈ b.formatCalls)) ∧
      (∀ s n, ⟨s, n, .numberFormat⟩ ∈ b.formatCalls →
        ∀ a z, a < z → (∀ j, a ≤ j → j < z → digitAt text j = true) →
          ((∃ k, k + 1 = a ∧ letterOrUnderscoreAt text k = true) ∨
            letterOrUnderscoreAt text z = true) →
          s + n ≤ a ∨ z ≤ s)) ∧
    (classify "x = 3.14;".toList 0).map (fun b => b.spans) = some [⟨4, 8, .numberFormat⟩] ∧
    (classify ".5".toList 0).map (fun b => b.spans) = some [⟨1, 2, .numberFormat⟩] ∧
    (classify "5.".toList 0).map (fun b => b.spans) = some [⟨0, 1, .numberFormat⟩] ∧
    (classify "x1.5".toList 0).map (fun b => b.spans) = some [⟨3, 4, .numberFormat⟩] ∧
    (classify "x5".toList 0).map (fun b => b.spans) = some [] ∧
    (classify "5x".toList 0).map (fun b => b.spans) = some [] ∧
    (classify "1e5".toList 0).map (fun b => b.spans) = some [] := by
  refine ⟨?_, by decide, by decide, by decide, by decide, by decide, by decide, by decide⟩
  obtain ⟨b, hb⟩ := highlightBlock_returns text (freshBlock 0 storedState)
  have hmem : ∀ c : FormatCall, c.format = .numberFormat →
      (c ∈ b.formatCalls ↔ c ∈ ruleCalls text ⟨numberPattern, .numberFormat⟩) := by
    intro c hc
    rw [mem_run_clear hb c (by rw [hc]; decide)]
    constructor
    · rintro ⟨rule, hr, hf, hcall⟩
      obtain rfl := (rule_of_format' hr).2 (hf.trans hc)
      exact hcall
    · intro hcall
      exact ⟨_, numberRule_mem, hc.symm, hcall⟩
  have hunique : ∀ {s n s' n' : Nat}, ⟨s, n, .numberFormat⟩ ∈ b.formatCalls →
      ⟨s', n', .numberFormat⟩ ∈ b.formatCalls → s' < s + n → s < s' + n' →
      s' = s ∧ n' = n := by
    intro s n s' n' h h' h1 h2
    rcases ruleCalls_disjoint ((hmem _ rfl).mp h) ((hmem _ rfl).mp h') with hd | hd | hd
    · simp only [FormatCall.mk.injEq, and_true] at hd
      exact ⟨hd.1.symm, hd.2.symm⟩
    · simp only at hd
      omega
    · simp only at hd
      omega
  refine ⟨b, hb, ?_, ?_, ?_⟩
  · intro i e hie hint hleft hright
    obtain ⟨s, n, hcall, hsi, hen, hstart, hend⟩ :=
      number_call_covers_digits text i e hie hint hleft hright
    refine ⟨s, n, (hmem _ rfl).mpr hcall, hsi, hen, ?_, hstart, hend⟩
    intro s' n' h' h1 h2
    exact hunique ((hmem _ rfl).mpr hcall) h' (by omega) (by omega)
  · intro i m e him hint hdot hme hfrac hleft hright
    obtain ⟨h1, h2, h3⟩ :=
      number_call_of_fraction text i m e him hint hdot hme hfrac hleft hright
    have hmem' : ∀ s n : Nat, (⟨s, n, .numberFormat⟩ : FormatCall) ∈
        ruleCalls text ⟨numberPattern, .numberFormat⟩ ↔
          ⟨s, n, .numberFormat⟩ ∈ b.formatCalls := fun s n => (hmem _ rfl).symm
    simp only [hmem'] at h1 h2 h3
    refine ⟨h1, h2, ?_, h3⟩
    intro hcall s n hsn hse his
    exact hunique hcall hsn (by omega) (by omega)
  · intro s n hsn a z haz hrun hadj
    obtain ⟨_, _, t, hst, hn⟩ := mem_ruleCalls ((hmem _ rfl).mp hsn)
    simp only at hst hn
    obtain ⟨hbs, hbt, hlt, hds, hchars, _⟩ :=
      mem_ends_numberPattern (List.mem_of_mem_head? hst)
    have hsn' : s + n = t := by omega
    rw [hsn']
    by_contra hcon
    have hcon' : a < t ∧ s < z := by omega
    rcases hadj with ⟨k, rfl, hk⟩ | hz
    · obtain ⟨hkw, hkd, hkdot⟩ := letterOrUnderscoreAt_spec hk
      have hsk : k + 1 ≤ s := by
        by_contra hsk
        rcases hchars k (by omega) (by omega) with h | h
        · rw [h] at hkd
          exact absurd hkd (by decide)
        · exact hkdot h
      obtain ⟨s', rfl⟩ : ∃ s', s = s' + 1 := ⟨s - 1, by omega⟩
      have hws : wordAt text (s' + 1) = true := wordAt_of_digitAt hds
      have hwb : wordAt text s' = true := by
        by_cases hs' : s' = k
        · rw [hs']
          exact hkw
        · exact wordAt_of_digitAt (hrun s' (by omega) (by omega))
      rw [atWordBoundary_eq, wordBefore_succ, hwb, hws] at hbs
      exact absurd hbs (by decide)
    · obtain ⟨hzw, hzd, hzdot⟩ := letterOrUnderscoreAt_spec hz
      have htz : t ≤ z := by
        by_contra htz
        rcases hchars z (by omega) (by omega) with h | h
        · rw [h] at hzd
          exact absurd hzd (by decide)
        · exact hzdot h
      obtain ⟨t', rfl⟩ : ∃ t', t = t' + 1 := ⟨t - 1, by omega⟩
      have hwb : wordAt text t' = true := wordAt_of_digitAt (hrun t' (by omega) (by omega))
      have hwt : wordAt text (t' + 1) = true := by
        by_cases ht' : t' + 1 = z
        · rw [ht']
          exact hzw
        · exact wordAt_of_digitAt (hrun (t' + 1) (by omega) (by omega))
      rw [atWordBoundary_eq, wordBefore_succ, hwb, hwt] at hbt
      exact absurd hbt (by decide)

/-- The literal `3.14` of the line `x = 3.14;` gets the number-format call `(4, 4)`, and
the digit run `5` of the line `a = 5.;` lies within a number-format call that starts at
offset 4. -/
theorem number_span_of_delimited_literal_witness :
    (∃ b, highlightBlock "x = 3.14;".toList (freshBlock 0 0) = some b ∧
      ⟨4, 4, .numberFormat⟩ ∈ b.formatCalls) ∧
    (∃ b, highlightBlock "a = 5.;".toList (freshBlock 0 0) = some b ∧
      ∃ n, ⟨4, n, .numberFormat⟩ ∈ b.formatCalls ∧ 5 ≤ 4 + n) := by
  constructor
  · obtain ⟨b, hb, _, hlit, _⟩ := (number_span_of_delimited_literal "x = 3.14;".toList 0).1
    refine ⟨b, hb, (hlit 4 5 8 (by decide) (by decide) (by decide) (by decide) (by decide)
      (by decide) (by decide)).2.2.2 ?_⟩
    intro k hk
    obtain rfl : k = 2 := by omega
    decide
  · obtain ⟨b, hb, hrun, _⟩ := (number_span_of_delimited_literal "a = 5.;".toList 0).1
    obtain ⟨s, n, hcall, _, hen, _, hstart, _⟩ :=
      hrun 4 5 (by decide) (by decide) (by decide) (by decide)
    have hs : s = 4 := by
      apply hstart
      intro k hk
      obtain rfl : k = 3 := by omega
      decide
    subst hs
    exact ⟨b, hb, n, hcall, hen⟩

/-- C22 (as stated) fails. In the line `1.2.3` the literal `2.3` at `[2,5)` is made of a
digit, `.` and a digit and stands between a non-word character (the `.` at offset 1) and
the line end, yet the Number spans of the line are `[0,3)` and `[4,5)`: none of them
covers the literal. -/
theorem number_literal_after_dot_not_covered :
    (digitAt "1.2.3".toList 2 = true ∧ "1.2.3".toList.get? 3 = some '.' ∧
      digitAt "1.2.3".toList 4 = true ∧ wordAt "1.2.3".toList 1 = false ∧
      wordAt "1.2.3".toList 5 = false) ∧
    (classify "1.2.3".toList 0).map (fun b => b.spans) =
      some [⟨0, 3, .numberFormat⟩, ⟨4, 5, .numberFormat⟩] ∧
    (∀ b, classify "1.2.3".toList 0 = some b →
      ∀ c ∈ b.spans, ¬ (c.start ≤ 2 ∧ 5 ≤ c.stop)) := by
  refine ⟨by decide, by decide, ?_⟩
  intro b hb
  have h : (classify "1.2.3".toList 0).map (fun b => b.spans) =
      some [⟨0, 3, .numberFormat⟩, ⟨4, 5, .numberFormat⟩] := by decide
  rw [hb] at h
  simp only [Option.map_some', Option.some.injEq] at h
  rw [h]
  decide

/-! ## The recent-files list -/

/-- With enough fuel the trimming loop returns the first ten entries. -/
theorem trimRecentFiles_eq :
    ∀ (fuel : Nat) (l : List Text), l.length ≤ fuel + 10 →
      trimRecentFiles fuel l = some (l.take 10)
  | 0, l, h => by
    rw [trimRecentFiles, if_neg (by omega), List.take_of_length_le (by omega)]
  | fuel + 1, l, h => by
    rw [trimRecentFiles]
    by_cases hl : l.length > 10
    · rw [if_pos hl, trimRecentFiles_eq fuel l.dropLast (by rw [List.length_dropLast]; omega),
        List.dropLast_eq_take, List.take_take, Nat.min_eq_left (by omega)]
    · rw [if_neg hl, List.take_of_length_le (by omega)]

/-- C26. For every recent-files list `L` and file name `f`, `updateRecentFiles(f)` returns
and leaves the first 10 entries of `f` followed by `L` without the entries equal to `f`:
`f` is at index 0 and occurs exactly once, there are at most 10 entries, and the entries
after `f` are entries of `L` other than `f`, in their order in `L`. -/
theorem updateRecentFiles_spec (f : Text) (L : List Text) :
    updateRecentFiles f L = some ((f :: L.filter (fun file => file ≠ f)).take 10) ∧
    ∃ rest, updateRecentFiles f L = some (f :: rest) ∧
      (f :: rest).length ≤ 10 ∧ (f :: rest).count f = 1 ∧ f ∉ rest ∧
      rest = (L.filter (fun file => file ≠ f)).take 9 ∧ rest.Sublist L := by
  have hrun : updateRecentFiles f L = some ((f :: L.filter (fun file => file ≠ f)).take 10) :=
    trimRecentFiles_eq _ _ (by omega)
  have hnot : f ∉ (L.filter (fun file => file ≠ f)).take 9 := by
    intro hmem
    have := List.mem_filter.mp (List.mem_of_mem_take hmem)
    simp at this
  refine ⟨hrun, (L.filter (fun file => file ≠ f)).take 9, hrun, ?_, ?_, hnot, rfl, ?_⟩
  · simp only [List.length_cons, List.length_take]
    omega
  · rw [List.count_cons_self, List.count_eq_zero.mpr hnot]
  · exact (List.take_sublist _ _).trans (List.filter_sublist _)

/-! ## The width of the line-number area -/

/-- A value in the range of `int` is left as it is. -/
theorem wrapInt_of_range {x : Int} (h1 : -2147483648 ≤ x) (h2 : x < 2147483648) :
    wrapInt x = x := by
  unfold wrapInt
  omega

/-- Reducing the product first and the sum after it gives the reduced sum. -/
theorem wrapInt_add_wrapInt (a b : Int) : wrapInt (a + wrapInt b) = wrapInt (a + b) := by
  unfold wrapInt
  omega

/-- With enough fuel the digit loop returns, having added to `digits` the integer
logarithm of `max` ≥ 1 to base 10; the increments of `digits` do not overflow. -/
theorem digitLoop_eq :
    ∀ (fuel m : Nat) (digits : Int), 1 ≤ m → m ≤ fuel + 9 → 0 ≤ digits →
      digits + m ≤ 2147483648 →
      ∃ r, digitLoop fuel (m : Int) digits = some (r, digits + (Nat.log 10 m : Nat))
  | 0, m, digits, _, h, _, _ => by
    refine ⟨m, ?_⟩
    rw [digitLoop, if_neg (by omega), Nat.log_of_lt (by omega)]
    simp
  | fuel + 1, m, digits, h1, h, hd, hsum => by
    rw [digitLoop]
    by_cases hm : (m : Int) ≥ 10
    · have hm' : 10 ≤ m := by omega
      rw [if_pos hm]
      have hdiv : (m : Int).tdiv 10 = ((m / 10 : Nat) : Int) := (Int.ofNat_tdiv m 10).symm
      rw [hdiv, wrapInt_of_range (by omega) (by omega)]
      obtain ⟨r, hr⟩ := digitLoop_eq fuel (m / 10) (digits + 1) (by omega) (by omega)
        (by omega) (by omega)
      refine ⟨r, ?_⟩
      rw [hr, Nat.log_div_base]
      have hpos : 0 < Nat.log 10 m := Nat.log_pos (by decide) hm'
      congr 2
      omega
    · rw [if_neg hm, Nat.log_of_lt (by omega)]
      exact ⟨m, by simp⟩

/-- For a block count in the range of `int` the method returns
`10 + digitAdvance * (log₁₀ (max 1 blockCount) + 1)` reduced to 32 bits. -/
theorem lineNumberAreaWidth_eq (n w : Int) (hn : n < 2147483648) :
    lineNumberAreaWidth n w =
      some (wrapInt (10 + w * ((Nat.log 10 (Max.max 1 n).toNat + 1 : Nat) : Int))) := by
  have hpos : (1 : Int) ≤ Max.max 1 n := le_max_left 1 n
  have hcast : ((Max.max 1 n).toNat : Int) = Max.max 1 n := Int.toNat_of_nonneg (by omega)
  obtain ⟨r, hr⟩ := digitLoop_eq (Max.max 1 n).toNat (Max.max 1 n).toNat 1 (by omega)
    (by omega) (by omega) (by omega)
  rw [hcast] at hr
  unfold lineNumberAreaWidth
  simp only [hr, Option.map_some']
  rw [wrapInt_add_wrapInt]
  congr 3
  push_cast
  ring

/-- A reduced value equals the mathematical one only in the range of `int`. -/
theorem wrapInt_eq_iff (x : Int) :
    wrapInt x = x ↔ -2147483648 ≤ x ∧ x < 2147483648 := by
  unfold wrapInt
  omega

/-- C27 (as amended). For every block count `n` (an `int`, so below `2^31`) and digit
width `w` the loop terminates and the method returns `10 + w * d` reduced to 32 bits,
where `d` is the number of decimal digits of `max(1, n)`: `1 ≤ d ≤ 10` and
`10^(d-1) ≤ max(1, n) < 10^d`, so `d = 1` for `n ≤ 9` and `d = 2` for `10 ≤ n ≤ 99`.
The result is `10 + w * d` itself exactly when that value is in the range of `int`, which
it is for `0 ≤ w ≤ 214748363`. For `w ≥ 0` the result is non-decreasing in `n` as long as
the value for the larger block count is below `2^31`. -/
theorem lineNumberAreaWidth_spec (n w : Int) (hn : n < 2147483648) :
    ∃ d : Nat, d = (Nat.digits 10 (Max.max 1 n).toNat).length ∧
      1 ≤ d ∧ d ≤ 10 ∧ (10 : Int) ^ (d - 1) ≤ Max.max 1 n ∧ Max.max 1 n < (10 : Int) ^ d ∧
      (n ≤ 9 → d = 1) ∧ (10 ≤ n → n ≤ 99 → d = 2) ∧
      lineNumberAreaWidth n w = some (wrapInt (10 + w * d)) ∧
      (lineNumberAreaWidth n w = some (10 + w * d) ↔
        -2147483648 ≤ 10 + w * d ∧ 10 + w * d < 2147483648) ∧
      (0 ≤ w → w ≤ 214748363 → lineNumberAreaWidth n w = some (10 + w * d)) ∧
      (∀ n', n ≤ n' → n' < 2147483648 → 0 ≤ w →
        10 + w * ((Nat.digits 10 (Max.max 1 n').toNat).length : Int) < 2147483648 →
        ∃ r r', lineNumberAreaWidth n w = some r ∧ lineNumberAreaWidth n' w = some r' ∧
          r ≤ r') := by
  have hpos : (1 : Int) ≤ Max.max 1 n := le_max_left 1 n
  have hcast : ((Max.max 1 n).toNat : Int) = Max.max 1 n := Int.toNat_of_nonneg (by omega)
  have hm : (Max.max 1 n).toNat ≠ 0 := by omega
  have hlow := Nat.pow_log_le_self 10 hm
  have hhigh := Nat.lt_pow_succ_log_self (by decide : 1 < 10) (Max.max 1 n).toNat
  have h10 : Nat.log 10 (Max.max 1 n).toNat < 10 :=
    Nat.log_lt_of_lt_pow hm (by omega : (Max.max 1 n).toNat < 10 ^ 10)
  have hd : ((Nat.log 10 (Max.max 1 n).toNat + 1 : Nat) : Int) ≤ 10 := by
    exact_mod_cast (by omega : Nat.log 10 (Max.max 1 n).toNat + 1 ≤ 10)
  have hd0 : (0 : Int) ≤ ((Nat.log 10 (Max.max 1 n).toNat + 1 : Nat) : Int) :=
    Int.ofNat_nonneg _
  have hsmall : 0 ≤ w → w ≤ 214748363 →
      0 ≤ w * ((Nat.log 10 (Max.max 1 n).toNat + 1 : Nat) : Int) ∧
        w * ((Nat.log 10 (Max.max 1 n).toNat + 1 : Nat) : Int) ≤ 2147483630 := by
    intro hw0 hw
    have h1 := mul_le_mul hw hd hd0 (by omega : (0 : Int) ≤ 214748363)
    have h2 := mul_nonneg hw0 hd0
    omega
  refine ⟨Nat.log 10 (Max.max 1 n).toNat + 1, (Nat.digits_len 10 _ (by decide) hm).symm,
    by omega, by omega, ?_, ?_, ?_, ?_, lineNumberAreaWidth_eq n w hn, ?_, ?_, ?_⟩
  · rw [Nat.add_sub_cancel, ← hcast]
    exact_mod_cast hlow
  · rw [← hcast]
    exact_mod_cast hhigh
  · intro h9
    have : (Max.max 1 n).toNat < 10 := by omega
    rw [Nat.log_of_lt this]
  · intro h10 h99
    have h1 : 10 ≤ (Max.max 1 n).toNat := by omega
    have h2 : (Max.max 1 n).toNat < 10 ^ 2 := by omega
    have hlt := Nat.log_lt_of_lt_pow hm h2
    have hge := Nat.log_pos (by decide : 1 < 10) h1
    omega
  · rw [lineNumberAreaWidth_eq n w hn, Option.some.injEq, wrapInt_eq_iff]
  · intro hw0 hw
    obtain ⟨h1, h2⟩ := hsmall hw0 hw
    rw [lineNumberAreaWidth_eq n w hn, wrapInt_of_range (by omega) (by omega)]
  · intro n' hnn' hn' hw hfit
    have hpos' : (1 : Int) ≤ Max.max 1 n' := le_max_left 1 n'
    have hm' : (Max.max 1 n').toNat ≠ 0 := by omega
    rw [Nat.digits_len 10 _ (by decide) hm'] at hfit
    have hle : (Max.max 1 n).toNat ≤ (Max.max 1 n').toNat := by omega
    have hlog := Nat.log_mono_right (b := 10) hle
    have hcastle : ((Nat.log 10 (Max.max 1 n).toNat + 1 : Nat) : Int) ≤
        ((Nat.log 10 (Max.max 1 n').toNat + 1 : Nat) : Int) := by
      exact_mod_cast Nat.succ_le_succ hlog
    have hmul := mul_le_mul_of_nonneg_left hcastle hw
    have hnonneg := mul_nonneg hw hd0
    refine ⟨_, _, lineNumberAreaWidth_eq n w hn, lineNumberAreaWidth_eq n' w hn', ?_⟩
    rw [wrapInt_of_range (by omega) (by omega), wrapInt_of_range (by omega) (by omega)]
    omega

/-- The witness of C27: 1234 blocks and a digit width of 8 give `10 + 8 * 4`. -/
theorem lineNumberAreaWidth_spec_witness :
    ∃ d : Nat, d = (Nat.digits 10 (Max.max 1 (1234 : Int)).toNat).length ∧
      1 ≤ d ∧ d ≤ 10 ∧ (10 : Int) ^ (d - 1) ≤ Max.max 1 1234 ∧
      Max.max 1 (1234 : Int) < (10 : Int) ^ d ∧
      ((1234 : Int) ≤ 9 → d = 1) ∧ ((10 : Int) ≤ 1234 → (1234 : Int) ≤ 99 → d = 2) ∧
      lineNumberAreaWidth 1234 8 = some (wrapInt (10 + 8 * d)) ∧
      (lineNumberAreaWidth 1234 8 = some (10 + 8 * d) ↔
        -2147483648 ≤ 10 + 8 * (d : Int) ∧ 10 + 8 * (d : Int) < 2147483648) ∧
      ((0 : Int) ≤ 8 → (8 : Int) ≤ 214748363 →
        lineNumberAreaWidth 1234 8 = some (10 + 8 * d)) ∧
      (∀ n', 1234 ≤ n' → n' < 2147483648 → (0 : Int) ≤ 8 →
        10 + 8 * ((Nat.digits 10 (Max.max 1 n').toNat).length : Int) < 2147483648 →
        ∃ r r', lineNumberAreaWidth 1234 8 = some r ∧ lineNumberAreaWidth n' 8 = some r' ∧
          r ≤ r') :=
  lineNumberAreaWidth_spec 1234 8 (by decide)

/-- C27 (as stated) fails. With a digit width of `-1` the method returns 9 for 5 blocks
and 8 for 50 blocks, so the result decreases. With 1000000000 blocks (10 digits) and a
digit width of 214748364 the value `10 + w * d` is 2147483650, which is no `int`: the
method returns -2147483646. -/
theorem lineNumberAreaWidth_overflow_and_negative_width :
    lineNumberAreaWidth 5 (-1) = some 9 ∧ lineNumberAreaWidth 50 (-1) = some 8 ∧
    (Nat.digits 10 (Max.max 1 (1000000000 : Int)).toNat).length = 10 ∧
    (10 + 214748364 * 10 : Int) = 2147483650 ∧
    lineNumberAreaWidth 1000000000 214748364 = some (-2147483646) := by
  have hlog : Nat.log 10 1000000000 = 9 :=
    Nat.log_eq_of_pow_le_of_lt_pow (by norm_num) (by norm_num)
  have hmax : (Max.max 1 (1000000000 : Int)).toNat = 1000000000 := by decide
  refine ⟨by decide, by decide, ?_, by decide, ?_⟩
  · rw [hmax, Nat.digits_len 10 _ (by decide) (by decide), hlog]
  · rw [lineNumberAreaWidth_eq _ _ (by decide), hmax, hlog]
    decide

/-! ## Automatic indentation -/

theorem leadingRunWidth_cons (c : Char) (rest : Text) :
    leadingRunWidth (c :: rest) =
      if c = ' ' then 1 + leadingRunWidth rest
      else if c = '\t' then 4 + leadingRunWidth rest else 0 := by
  unfold leadingRunWidth
  rw [List.takeWhile_cons]
  by_cases h1 : c = ' '
  · subst h1
    simp
  · by_cases h2 : c = '\t'
    · subst h2
      simp
    · simp [h1, h2]

/-- The loop of `autoIndent` adds the width of the leading run of spaces and tabs. -/
theorem leadingIndent_eq :
    ∀ (text : Text) (indent : Nat), leadingIndent text indent = indent + leadingRunWidth text
  | [], indent => by simp [leadingIndent, leadingRunWidth]
  | c :: rest, indent => by
    rw [leadingIndent, leadingRunWidth_cons]
    by_cases h1 : c = ' '
    · rw [if_pos h1, if_pos h1, leadingIndent_eq rest]
      omega
    · rw [if_neg h1, if_neg h1]
      by_cases h2 : c = '\t'
      · rw [if_pos h2, if_pos h2, leadingIndent_eq rest]
        omega
      · rw [if_neg h2, if_neg h2]
        rfl

/-- What is left after dropping a leading run starts with `c` exactly when the list is a
run, then `c`, which is not of the run, then the rest. -/
theorem head?_dropWhile_eq_some (p : Char → Bool) (c : Char) :
    ∀ (l : Text), (l.dropWhile p).head? = some c ↔
      ∃ a b, l = a ++ c :: b ∧ (∀ x ∈ a, p x = true) ∧ p c = false
  | [] => by simp
  | d :: rest => by
    rw [List.dropWhile_cons]
    by_cases hd : p d = true
    · rw [if_pos hd, head?_dropWhile_eq_some p c rest]
      constructor
      · rintro ⟨a, b, rfl, ha, hc⟩
        refine ⟨d :: a, b, rfl, ?_, hc⟩
        intro x hx
        rcases List.mem_cons.mp hx with rfl | hx
        · exact hd
        · exact ha x hx
      · rintro ⟨a, b, hl, ha, hc⟩
        cases a with
        | nil =>
          simp only [List.nil_append, List.cons.injEq] at hl
          rw [hl.1, hc] at hd
          simp at hd
        | cons a0 a =>
          simp only [List.cons_append, List.cons.injEq] at hl
          exact ⟨a, b, hl.2, fun x hx => ha x (List.mem_cons_of_mem _ hx), hc⟩
    · rw [if_neg hd]
      simp only [List.head?_cons, Option.some.injEq]
      constructor
      · rintro rfl
        exact ⟨[], rest, rfl, by simp, by simpa using hd⟩
      · rintro ⟨a, b, hl, ha, hc⟩
        cases a with
        | nil =>
          simp only [List.nil_append, List.cons.injEq] at hl
          exact hl.1
        | cons a0 a =>
          simp only [List.cons_append, List.cons.injEq] at hl
          have := ha a0 (List.mem_cons_self _ _)
          rw [← hl.1] at this
          exact absurd this hd

/-- The trimmed text ends with `c` exactly when the text is some text, then `c`, which
is not whitespace, then whitespace only. -/
theorem endsWith_trimmed_iff (isSpace : Char → Bool) (text : Text) (c : Char) :
    endsWith (trimmed isSpace text) c = true ↔
      ∃ pre post, text = pre ++ c :: post ∧ (∀ x ∈ post, isSpace x = true) ∧
        isSpace c = false := by
  unfold endsWith trimmed
  rw [List.getLast?_reverse, beq_iff_eq, head?_dropWhile_eq_some]
  constructor
  · rintro ⟨a, b, hl, ha, hc⟩
    have hu : text.dropWhile isSpace = b.reverse ++ c :: a.reverse := by
      have := congrArg List.reverse hl
      simpa using this
    refine ⟨text.takeWhile isSpace ++ b.reverse, a.reverse, ?_, ?_, hc⟩
    · rw [List.append_assoc, ← hu, List.takeWhile_append_dropWhile]
    · intro x hx
      exact ha x (List.mem_reverse.mp hx)
  · rintro ⟨pre, post, rfl, hpost, hc⟩
    have hu : ∃ pre', (pre ++ c :: post).dropWhile isSpace = pre' ++ c :: post := by
      rw [List.dropWhile_append]
      split
      · refine ⟨[], ?_⟩
        rw [List.dropWhile_cons, if_neg (by simp [hc])]
        rfl
      · exact ⟨_, rfl⟩
    obtain ⟨pre', hpre'⟩ := hu
    refine ⟨post.reverse, pre'.reverse, ?_, ?_, hc⟩
    · rw [hpre']
      simp
    · intro x hx
      exact hpost x (List.mem_reverse.mp hx)

/-- C28. For every text `t` of the current line, `autoIndent` inserts a line break
followed by `n` spaces and nothing else, where `n` is the width of the maximal leading
run of spaces and tabs of `t` (1 per space, 4 per tab) plus 4 when the trimmed text ends
with `{` or `:`; and the trimmed text ends with a character `c` exactly when `t` is
some text, then `c`, which is not whitespace, then whitespace only. -/
theorem autoIndent_spec (isSpace : Char → Bool) (t : Text) :
    autoIndent isSpace t =
      '\n' :: List.replicate
        (leadingRunWidth t +
          (if endsWith (trimmed isSpace t) '{' || endsWith (trimmed isSpace t) ':' then 4
            else 0)) ' ' ∧
    (∃ n, autoIndent isSpace t = '\n' :: List.replicate n ' ') ∧
    (∀ c ∈ (autoIndent isSpace t).tail, c = ' ') ∧
    (∀ c, endsWith (trimmed isSpace t) c = true ↔
      ∃ pre post, t = pre ++ c :: post ∧ (∀ x ∈ post, isSpace x = true) ∧
        isSpace c = false) := by
  have h : autoIndent isSpace t =
      '\n' :: List.replicate
        (leadingRunWidth t +
          (if endsWith (trimmed isSpace t) '{' || endsWith (trimmed isSpace t) ':' then 4
            else 0)) ' ' := by
    unfold autoIndent
    simp only [leadingIndent_eq, Nat.zero_add]
    split <;> rfl
  refine ⟨h, ⟨_, h⟩, ?_, endsWith_trimmed_iff isSpace t⟩
  intro c hc
  rw [h] at hc
  exact List.eq_of_mem_replicate hc

/-- The insertion on an example: for the line made of a space, a tab, `if x {` and a
space, with `isSpace` true of the space and the tab, a line break and 1 + 4 + 4 spaces. -/
theorem autoIndent_example :
    autoIndent (fun c => c == ' ' || c == '\t') " \tif x \x7b ".toList =
      '\n' :: List.replicate 9 ' ' := by
  decide

end Jim
